import Mathlib

/-!
Verification of the dnssec-prover repository against its natural-language
specification.

The development shallowly embeds the relevant Rust sources:
  * `src/crypto/bigint.rs` — fixed-width big-integer arithmetic.  Limb arrays
    `[u64; N]` (big-endian limb order, most significant limb first) are
    modelled as `List Nat` whose entries are below `2^64`; `u64` operations
    are modelled on `Nat` with explicit `% 2^64` wherever the machine
    arithmetic wraps.
  * `src/query.rs` — the `QueryBuf` byte container and the `ProofBuilder`
    state machine.
  * `src/ser.rs` — the wire codec (name decompression, record parsing).

Rust `Result<T, ()>` is modelled as `Except Unit T`; a Rust panic is
modelled as `Option.none` in the functions where a panic is reachable.
-/

/-- Base of one 64-bit limb. -/
def U64LIMIT : Nat := 2 ^ 64

/-- Value of a little-endian list of limbs. -/
def valLE : List Nat → Nat
  | [] => 0
  | x :: xs => x + U64LIMIT * valLE xs

/-- Value of a big-endian limb array (`[u64; N]` with most significant limb
at index 0), as used throughout `bigint.rs`. -/
def limbsVal (a : List Nat) : Nat := valLE a.reverse

/-- Wellformedness of a limb array: every limb is a `u64`. -/
def limbsOK (a : List Nat) : Prop := ∀ x ∈ a, x < U64LIMIT

instance limbsOK.dec (a : List Nat) : Decidable (limbsOK a) := by
  unfold limbsOK; infer_instance

/-- Model of `u64::overflowing_add`. -/
def owAdd (x y : Nat) : Nat × Bool := ((x + y) % U64LIMIT, decide (U64LIMIT ≤ x + y))

/-- Model of `u64::overflowing_sub`. -/
def owSub (x y : Nat) : Nat × Bool :=
  if y ≤ x then (x - y, false) else (x + U64LIMIT - y, true)

/-- Bool to Nat, for carry bits. -/
def bitN (b : Bool) : Nat := if b then 1 else 0

/-- Little-endian core of `bigint.rs`'s `add`: the source loops from limb
index `N-1` (least significant) down to 0, so it traverses the reversed
big-endian array front to back.  Each step performs the source's two
`overflowing_add`s. -/
def addLE : List Nat → List Nat → Bool → List Nat × Bool
  | a :: as_, b :: bs, c =>
    let (v, new_carry) := owAdd a b
    let (v2, new_new_carry) := owAdd v (bitN c)
    let (rs, cout) := addLE as_ bs (new_carry || new_new_carry)
    (v2 :: rs, cout)
  | _, _, c => ([], c)

/-- Model of `bigint.rs` `add<N>` on big-endian limb arrays. -/
def bigAdd (a b : List Nat) : List Nat × Bool :=
  let (r, c) := addLE a.reverse b.reverse false
  (r.reverse, c)

/-- Little-endian core of `bigint.rs`'s `sub` (two `overflowing_sub`s per
limb, borrow propagated from the least significant limb upward). -/
def subLE : List Nat → List Nat → Bool → List Nat × Bool
  | a :: as_, b :: bs, c =>
    let (v, new_carry) := owSub a b
    let (v2, new_new_carry) := owSub v (bitN c)
    let (rs, cout) := subLE as_ bs (new_carry || new_new_carry)
    (v2 :: rs, cout)
  | _, _, c => ([], c)

/-- Model of `bigint.rs` `sub<N>` on big-endian limb arrays. -/
def bigSub (a b : List Nat) : List Nat × Bool :=
  let (r, c) := subLE a.reverse b.reverse false
  (r.reverse, c)

/-- Little-endian core of the `double!` macro: each limb is shifted left by
one (wrapping) and receives the carry of the limb below; the carry out of a
limb is its former top bit.  The incoming carry never overflows the shifted
limb (see the comment in the source). -/
def doubleLE : List Nat → Bool → List Nat × Bool
  | [], c => ([], c)
  | x :: xs, c =>
    let next_carry := decide (U64LIMIT ≤ 2 * x)
    let v := 2 * x % U64LIMIT + bitN c
    let (rs, cout) := doubleLE xs next_carry
    (v :: rs, cout)

/-- Model of the `double!` macro on big-endian limb arrays. -/
def bigDouble (a : List Nat) : List Nat × Bool :=
  let (r, c) := doubleLE a.reverse false
  (r.reverse, c)

/-- Little-endian core of the `add_u64!` macro: add a single value at the
least significant limb, propagating the carry and stopping early once the
carry is zero; the final overflow bit is returned. -/
def addU64LE : List Nat → Nat → List Nat × Bool
  | [], b => ([], decide (b ≠ 0))
  | x :: xs, b =>
    let (v, c) := owAdd x b
    if c then
      let (rs, cout) := addU64LE xs 1
      (v :: rs, cout)
    else (v :: xs, false)

/-- Model of the `add_u64!` macro on big-endian limb arrays. -/
def bigAddU64 (a : List Nat) (b : Nat) : List Nat × Bool :=
  let (r, c) := addU64LE a.reverse b
  (r.reverse, c)

/-- Model of the `negate!` macro: XOR every limb with `0xffff_ffff_ffff_ffff`
and then add one, discarding the overflow. -/
def bigNegate (v : List Nat) : List Nat :=
  (bigAddU64 (v.map (fun x => x ^^^ 0xffffffffffffffff)) 1).1

/-- Model of `slice_greater_than` (strict lexicographic comparison of
equal-length big-endian limb arrays; equal arrays compare `false`). -/
def slice_greater_than : List Nat → List Nat → Bool
  | a :: as_, b :: bs =>
    if b < a then true else if a < b then false else slice_greater_than as_ bs
  | _, _ => false

/-- Model of `slice_equal`. -/
def slice_equal : List Nat → List Nat → Bool
  | a :: as_, b :: bs => a == b && slice_equal as_ bs
  | _, _ => true

/-- Model of `sub_abs<N>`: subtract and negate on borrow, returning the
absolute value and a sign bit. -/
def sub_abs (a b : List Nat) : List Nat × Bool :=
  let (res, neg) := bigSub a b
  if neg then (bigNegate res, neg) else (res, neg)

-- ## Value lemmas for the limb primitives

theorem U64LIMIT_pos : 0 < U64LIMIT := by decide

theorem valLE_nil : valLE [] = 0 := rfl

theorem valLE_cons (x : Nat) (xs : List Nat) :
    valLE (x :: xs) = x + U64LIMIT * valLE xs := rfl

theorem valLE_append (a b : List Nat) :
    valLE (a ++ b) = valLE a + U64LIMIT ^ a.length * valLE b := by
  induction a with
  | nil => simp [valLE]
  | cons x xs ih =>
    simp only [List.cons_append, valLE_cons, ih, List.length_cons, pow_succ]
    ring

/-- Wellformedness transfers through reversal. -/
theorem limbsOK_reverse {a : List Nat} : limbsOK a.reverse ↔ limbsOK a := by
  unfold limbsOK; simp

theorem valLE_lt (a : List Nat) (h : limbsOK a) :
    valLE a < U64LIMIT ^ a.length := by
  induction a with
  | nil => simpa [valLE] using U64LIMIT_pos
  | cons x xs ih =>
    have hx : x < U64LIMIT := h x (List.mem_cons_self _ _)
    have hxs : valLE xs < U64LIMIT ^ xs.length :=
      ih (fun y hy => h y (List.mem_cons_of_mem _ hy))
    have h2 : U64LIMIT * valLE xs + U64LIMIT ≤ U64LIMIT * U64LIMIT ^ xs.length := by
      have : valLE xs + 1 ≤ U64LIMIT ^ xs.length := hxs
      calc U64LIMIT * valLE xs + U64LIMIT = U64LIMIT * (valLE xs + 1) := by ring
        _ ≤ U64LIMIT * U64LIMIT ^ xs.length := Nat.mul_le_mul_left _ this
    simp only [valLE_cons, List.length_cons, pow_succ]
    calc x + U64LIMIT * valLE xs < U64LIMIT * valLE xs + U64LIMIT := by omega
      _ ≤ U64LIMIT * U64LIMIT ^ xs.length := h2
      _ = U64LIMIT ^ xs.length * U64LIMIT := Nat.mul_comm _ _

theorem limbsVal_lt (a : List Nat) (h : limbsOK a) :
    limbsVal a < U64LIMIT ^ a.length := by
  have := valLE_lt a.reverse (limbsOK_reverse.mpr h)
  simpa [limbsVal] using this

/-- One limb step of the source's `add` loop: two chained `overflowing_add`s
compute the wrapped sum and the carry-out. -/
theorem owAdd_step (x y : Nat) (c : Bool) (hx : x < U64LIMIT) (hy : y < U64LIMIT) :
    ((owAdd (owAdd x y).1 (bitN c)).1 = (x + y + bitN c) % U64LIMIT) ∧
    (((owAdd x y).2 || (owAdd (owAdd x y).1 (bitN c)).2) =
      decide (U64LIMIT ≤ x + y + bitN c)) := by
  have hb : bitN c ≤ 1 := by cases c <;> simp [bitN]
  rcases Nat.lt_or_ge (x + y) U64LIMIT with h | h
  · have e1 : (x + y) % U64LIMIT = x + y := Nat.mod_eq_of_lt h
    constructor
    · show ((x + y) % U64LIMIT + bitN c) % U64LIMIT = (x + y + bitN c) % U64LIMIT
      rw [e1]
    · show (decide (U64LIMIT ≤ x + y) ||
          decide (U64LIMIT ≤ (x + y) % U64LIMIT + bitN c)) =
          decide (U64LIMIT ≤ x + y + bitN c)
      rw [e1]
      have : ¬ U64LIMIT ≤ x + y := Nat.not_le.mpr h
      simp [this]
  · have e1 : (x + y) % U64LIMIT = x + y - U64LIMIT := by
      rw [Nat.mod_eq_sub_mod h, Nat.mod_eq_of_lt (by omega)]
    constructor
    · show ((x + y) % U64LIMIT + bitN c) % U64LIMIT = (x + y + bitN c) % U64LIMIT
      rw [e1]
      have e2 : (x + y - U64LIMIT + bitN c) % U64LIMIT = x + y - U64LIMIT + bitN c :=
        Nat.mod_eq_of_lt (by omega)
      have e3 : (x + y + bitN c) % U64LIMIT = x + y + bitN c - U64LIMIT := by
        rw [Nat.mod_eq_sub_mod (by omega), Nat.mod_eq_of_lt (by omega)]
      rw [e2, e3]
      omega
    · show (decide (U64LIMIT ≤ x + y) ||
          decide (U64LIMIT ≤ (x + y) % U64LIMIT + bitN c)) =
          decide (U64LIMIT ≤ x + y + bitN c)
      rw [e1]
      have h3 : ¬ U64LIMIT ≤ x + y - U64LIMIT + bitN c := by omega
      have h4 : U64LIMIT ≤ x + y + bitN c := by omega
      simp [h, h3, h4]

/-- Specification of the little-endian add core. -/
theorem addLE_spec (a b : List Nat) (c : Bool) (hlen : a.length = b.length)
    (ha : limbsOK a) (hb : limbsOK b) :
    (addLE a b c).1.length = a.length ∧ limbsOK (addLE a b c).1 ∧
    valLE (addLE a b c).1 + U64LIMIT ^ a.length * bitN (addLE a b c).2 =
      valLE a + valLE b + bitN c := by
  induction a generalizing b c with
  | nil =>
    cases b with
    | nil => simp [addLE, valLE, limbsOK, bitN]
    | cons y ys => simp at hlen
  | cons x xs ih =>
    cases b with
    | nil => simp at hlen
    | cons y ys =>
      have hx : x < U64LIMIT := ha x (List.mem_cons_self _ _)
      have hy : y < U64LIMIT := hb y (List.mem_cons_self _ _)
      have hxs : limbsOK xs := fun z hz => ha z (List.mem_cons_of_mem _ hz)
      have hys : limbsOK ys := fun z hz => hb z (List.mem_cons_of_mem _ hz)
      have hlen2 : xs.length = ys.length := by simpa using hlen
      obtain ⟨hv, hc⟩ := owAdd_step x y c hx hy
      have hstep : addLE (x :: xs) (y :: ys) c =
          (((x + y + bitN c) % U64LIMIT) ::
            (addLE xs ys (decide (U64LIMIT ≤ x + y + bitN c))).1,
           (addLE xs ys (decide (U64LIMIT ≤ x + y + bitN c))).2) := by
        show ((owAdd (owAdd x y).1 (bitN c)).1 ::
            (addLE xs ys ((owAdd x y).2 || (owAdd (owAdd x y).1 (bitN c)).2)).1,
          (addLE xs ys ((owAdd x y).2 || (owAdd (owAdd x y).1 (bitN c)).2)).2) = _
        rw [hv, hc]
      set c2 := decide (U64LIMIT ≤ x + y + bitN c) with hc2
      obtain ⟨ihlen, ihok, ihval⟩ := ih ys c2 hlen2 hxs hys
      have hkey : (x + y + bitN c) % U64LIMIT + U64LIMIT * bitN c2 =
          x + y + bitN c := by
        have hb : bitN c ≤ 1 := by cases c <;> simp [bitN]
        rcases Nat.lt_or_ge (x + y + bitN c) U64LIMIT with h | h
        · have hcf : c2 = false := by
            rw [hc2]; exact decide_eq_false (Nat.not_le.mpr h)
          have hbz : bitN c2 = 0 := by rw [hcf]; rfl
          rw [Nat.mod_eq_of_lt h, hbz]
          simp
        · have e : (x + y + bitN c) % U64LIMIT = x + y + bitN c - U64LIMIT := by
            rw [Nat.mod_eq_sub_mod h, Nat.mod_eq_of_lt (by omega)]
          have hct : c2 = true := by rw [hc2]; exact decide_eq_true h
          have hbo : bitN c2 = 1 := by rw [hct]; rfl
          rw [e, hbo]
          omega
      refine ⟨?_, ?_, ?_⟩
      · rw [hstep]; simpa using ihlen
      · rw [hstep]
        intro z hz
        rcases List.mem_cons.mp hz with h | h
        · subst h; exact Nat.mod_lt _ U64LIMIT_pos
        · exact ihok z h
      · rw [hstep]
        simp only [valLE_cons, List.length_cons, pow_succ]
        calc (x + y + bitN c) % U64LIMIT + U64LIMIT * valLE (addLE xs ys c2).1 +
              U64LIMIT ^ xs.length * U64LIMIT * bitN (addLE xs ys c2).2
            = (x + y + bitN c) % U64LIMIT +
              U64LIMIT * (valLE (addLE xs ys c2).1 +
                U64LIMIT ^ xs.length * bitN (addLE xs ys c2).2) := by ring
          _ = (x + y + bitN c) % U64LIMIT +
              U64LIMIT * (valLE xs + valLE ys + bitN c2) := by rw [ihval]
          _ = (x + y + bitN c) % U64LIMIT + U64LIMIT * bitN c2 +
              U64LIMIT * valLE xs + U64LIMIT * valLE ys := by ring
          _ = x + y + bitN c + U64LIMIT * valLE xs + U64LIMIT * valLE ys := by
              rw [hkey]
          _ = x + U64LIMIT * valLE xs + (y + U64LIMIT * valLE ys) + bitN c := by ring

/-- Specification of `bigAdd` on big-endian arrays. -/
theorem bigAdd_spec (a b : List Nat) (hlen : a.length = b.length)
    (ha : limbsOK a) (hb : limbsOK b) :
    (bigAdd a b).1.length = a.length ∧ limbsOK (bigAdd a b).1 ∧
    limbsVal (bigAdd a b).1 + U64LIMIT ^ a.length * bitN (bigAdd a b).2 =
      limbsVal a + limbsVal b := by
  have h := addLE_spec a.reverse b.reverse false (by simpa using hlen)
    (limbsOK_reverse.mpr ha) (limbsOK_reverse.mpr hb)
  obtain ⟨h1, h2, h3⟩ := h
  have e1 : (bigAdd a b).1 = (addLE a.reverse b.reverse false).1.reverse := rfl
  have e2 : (bigAdd a b).2 = (addLE a.reverse b.reverse false).2 := rfl
  refine ⟨?_, ?_, ?_⟩
  · rw [e1]; simpa using h1
  · rw [e1]; exact limbsOK_reverse.mpr h2
  · rw [e1, e2]
    simp only [limbsVal, List.reverse_reverse]
    simpa [limbsVal, bitN] using h3

/-- One limb step of the source's `sub` loop: two chained `overflowing_sub`s
compute the wrapped difference and the borrow-out. -/
theorem owSub_step (x y : Nat) (c : Bool) (hx : x < U64LIMIT) (hy : y < U64LIMIT) :
    ((owSub (owSub x y).1 (bitN c)).1 + y + bitN c =
      x + U64LIMIT * bitN ((owSub x y).2 || (owSub (owSub x y).1 (bitN c)).2)) ∧
    (owSub (owSub x y).1 (bitN c)).1 < U64LIMIT := by
  have hb : bitN c ≤ 1 := by cases c <;> simp [bitN]
  have hbf : bitN false = 0 := rfl
  have hbt : bitN true = 1 := rfl
  rcases le_or_lt y x with h | h
  · -- no first borrow
    have e1 : owSub x y = (x - y, false) := by simp [owSub, h]
    rcases le_or_lt (bitN c) (x - y) with h2 | h2
    · have e2 : owSub (x - y) (bitN c) = (x - y - bitN c, false) := by
        simp [owSub, h2]
      rw [e1, e2]
      simp only [Bool.or_false, Bool.false_or, hbf, hbt]
      constructor
      · omega
      · omega
    · have e2 : owSub (x - y) (bitN c) = (x - y + U64LIMIT - bitN c, true) := by
        simp only [owSub, if_neg (Nat.not_le.mpr h2)]
      rw [e1, e2]
      simp only [Bool.or_false, Bool.false_or, hbf, hbt]
      constructor
      · omega
      · omega
  · -- first borrow
    have e1 : owSub x y = (x + U64LIMIT - y, true) := by
      simp only [owSub, if_neg (Nat.not_le.mpr h)]
    have h2 : bitN c ≤ x + U64LIMIT - y := by omega
    have e2 : owSub (x + U64LIMIT - y) (bitN c) = (x + U64LIMIT - y - bitN c, false) := by
      simp [owSub, h2]
    rw [e1, e2]
    simp only [Bool.or_false, Bool.false_or, Bool.true_or, hbf, hbt]
    constructor
    · omega
    · omega

/-- Specification of the little-endian sub core. -/
theorem subLE_spec (a b : List Nat) (c : Bool) (hlen : a.length = b.length)
    (ha : limbsOK a) (hb : limbsOK b) :
    (subLE a b c).1.length = a.length ∧ limbsOK (subLE a b c).1 ∧
    valLE (subLE a b c).1 + valLE b + bitN c =
      valLE a + U64LIMIT ^ a.length * bitN (subLE a b c).2 := by
  induction a generalizing b c with
  | nil =>
    cases b with
    | nil => simp [subLE, valLE, limbsOK, bitN]
    | cons y ys => simp at hlen
  | cons x xs ih =>
    cases b with
    | nil => simp at hlen
    | cons y ys =>
      have hx : x < U64LIMIT := ha x (List.mem_cons_self _ _)
      have hy : y < U64LIMIT := hb y (List.mem_cons_self _ _)
      have hxs : limbsOK xs := fun z hz => ha z (List.mem_cons_of_mem _ hz)
      have hys : limbsOK ys := fun z hz => hb z (List.mem_cons_of_mem _ hz)
      have hlen2 : xs.length = ys.length := by simpa using hlen
      obtain ⟨hval, hlt⟩ := owSub_step x y c hx hy
      set w := (owSub (owSub x y).1 (bitN c)).1 with hw
      set c2 := ((owSub x y).2 || (owSub (owSub x y).1 (bitN c)).2) with hcc
      have hstep : subLE (x :: xs) (y :: ys) c =
          (w :: (subLE xs ys c2).1, (subLE xs ys c2).2) := rfl
      obtain ⟨ihlen, ihok, ihval⟩ := ih ys c2 hlen2 hxs hys
      refine ⟨?_, ?_, ?_⟩
      · rw [hstep]; simpa using ihlen
      · rw [hstep]
        intro z hz
        rcases List.mem_cons.mp hz with h | h
        · subst h; exact hlt
        · exact ihok z h
      · rw [hstep]
        simp only [valLE_cons, List.length_cons, pow_succ]
        calc w + U64LIMIT * valLE (subLE xs ys c2).1 +
              (y + U64LIMIT * valLE ys) + bitN c
            = (w + y + bitN c) +
              U64LIMIT * (valLE (subLE xs ys c2).1 + valLE ys) := by ring
          _ = (x + U64LIMIT * bitN c2) +
              U64LIMIT * (valLE (subLE xs ys c2).1 + valLE ys) := by rw [hval]
          _ = x + U64LIMIT * (valLE (subLE xs ys c2).1 + valLE ys + bitN c2) := by
              ring
          _ = x + U64LIMIT * (valLE xs + U64LIMIT ^ xs.length * bitN (subLE xs ys c2).2) := by
              rw [show valLE (subLE xs ys c2).1 + valLE ys + bitN c2 =
                valLE xs + U64LIMIT ^ xs.length * bitN (subLE xs ys c2).2 from ihval]
          _ = x + U64LIMIT * valLE xs +
              U64LIMIT ^ xs.length * U64LIMIT * bitN (subLE xs ys c2).2 := by ring

/-- Specification of `bigSub` on big-endian arrays. -/
theorem bigSub_spec (a b : List Nat) (hlen : a.length = b.length)
    (ha : limbsOK a) (hb : limbsOK b) :
    (bigSub a b).1.length = a.length ∧ limbsOK (bigSub a b).1 ∧
    limbsVal (bigSub a b).1 + limbsVal b =
      limbsVal a + U64LIMIT ^ a.length * bitN (bigSub a b).2 := by
  have h := subLE_spec a.reverse b.reverse false (by simpa using hlen)
    (limbsOK_reverse.mpr ha) (limbsOK_reverse.mpr hb)
  obtain ⟨h1, h2, h3⟩ := h
  have e1 : (bigSub a b).1 = (subLE a.reverse b.reverse false).1.reverse := rfl
  have e2 : (bigSub a b).2 = (subLE a.reverse b.reverse false).2 := rfl
  refine ⟨?_, ?_, ?_⟩
  · rw [e1]; simpa using h1
  · rw [e1]; exact limbsOK_reverse.mpr h2
  · rw [e1, e2]
    simp only [limbsVal, List.reverse_reverse]
    simpa [limbsVal, bitN] using h3

/-- The borrow bit of `bigSub` is set exactly when the subtrahend exceeds
the minuend. -/
theorem bigSub_borrow (a b : List Nat) (hlen : a.length = b.length)
    (ha : limbsOK a) (hb : limbsOK b) :
    (bigSub a b).2 = decide (limbsVal a < limbsVal b) := by
  obtain ⟨h1, h2, h3⟩ := bigSub_spec a b hlen ha hb
  have hrlt : limbsVal (bigSub a b).1 < U64LIMIT ^ a.length := by
    have := limbsVal_lt (bigSub a b).1 h2
    rwa [h1] at this
  have hblt : limbsVal b < U64LIMIT ^ a.length := by
    have := limbsVal_lt b hb
    rwa [← hlen] at this
  rcases hc : (bigSub a b).2 with _ | _
  · rw [hc] at h3
    simp only [bitN, Bool.false_eq_true, if_false, Nat.mul_zero, Nat.add_zero] at h3
    have : ¬ limbsVal a < limbsVal b := by omega
    simp [this]
  · rw [hc] at h3
    simp only [bitN, if_true, Nat.mul_one] at h3
    have : limbsVal a < limbsVal b := by omega
    simp [this]

/-- Specification of the little-endian double core. -/
theorem doubleLE_spec (a : List Nat) (c : Bool) (ha : limbsOK a) :
    (doubleLE a c).1.length = a.length ∧ limbsOK (doubleLE a c).1 ∧
    valLE (doubleLE a c).1 + U64LIMIT ^ a.length * bitN (doubleLE a c).2 =
      2 * valLE a + bitN c := by
  induction a generalizing c with
  | nil => simp [doubleLE, valLE, limbsOK, bitN]
  | cons x xs ih =>
    have hx : x < U64LIMIT := ha x (List.mem_cons_self _ _)
    have hxs : limbsOK xs := fun z hz => ha z (List.mem_cons_of_mem _ hz)
    have hb : bitN c ≤ 1 := by cases c <;> simp [bitN]
    set c2 := decide (U64LIMIT ≤ 2 * x) with hc2
    have hstep : doubleLE (x :: xs) c =
        ((2 * x % U64LIMIT + bitN c) :: (doubleLE xs c2).1, (doubleLE xs c2).2) := rfl
    obtain ⟨ihlen, ihok, ihval⟩ := ih c2 hxs
    have hkey : 2 * x % U64LIMIT + bitN c + U64LIMIT * bitN c2 = 2 * x + bitN c := by
      rcases Nat.lt_or_ge (2 * x) U64LIMIT with h | h
      · have hcf : c2 = false := by rw [hc2]; exact decide_eq_false (Nat.not_le.mpr h)
        rw [Nat.mod_eq_of_lt h, hcf]
        simp [bitN]
      · have hct : c2 = true := by rw [hc2]; exact decide_eq_true h
        have e : 2 * x % U64LIMIT = 2 * x - U64LIMIT := by
          rw [Nat.mod_eq_sub_mod h, Nat.mod_eq_of_lt (by omega)]
        rw [e, hct]
        simp only [bitN, if_true]
        omega
    have hvlt : 2 * x % U64LIMIT + bitN c < U64LIMIT := by
      have hU : U64LIMIT = 2 * 2 ^ 63 := by norm_num [U64LIMIT]
      rcases Nat.lt_or_ge (2 * x) U64LIMIT with h | h
      · rw [Nat.mod_eq_of_lt h]; omega
      · have e : 2 * x % U64LIMIT = 2 * x - U64LIMIT := by
          rw [Nat.mod_eq_sub_mod h, Nat.mod_eq_of_lt (by omega)]
        rw [e]; omega
    refine ⟨?_, ?_, ?_⟩
    · rw [hstep]; simpa using ihlen
    · rw [hstep]
      intro z hz
      rcases List.mem_cons.mp hz with h | h
      · subst h; exact hvlt
      · exact ihok z h
    · rw [hstep]
      simp only [valLE_cons, List.length_cons, pow_succ]
      calc 2 * x % U64LIMIT + bitN c + U64LIMIT * valLE (doubleLE xs c2).1 +
            U64LIMIT ^ xs.length * U64LIMIT * bitN (doubleLE xs c2).2
          = (2 * x % U64LIMIT + bitN c) +
            U64LIMIT * (valLE (doubleLE xs c2).1 +
              U64LIMIT ^ xs.length * bitN (doubleLE xs c2).2) := by ring
        _ = (2 * x % U64LIMIT + bitN c) + U64LIMIT * (2 * valLE xs + bitN c2) := by
            rw [ihval]
        _ = (2 * x % U64LIMIT + bitN c + U64LIMIT * bitN c2) +
            2 * (U64LIMIT * valLE xs) := by ring
        _ = 2 * x + bitN c + 2 * (U64LIMIT * valLE xs) := by rw [hkey]
        _ = 2 * (x + U64LIMIT * valLE xs) + bitN c := by ring

/-- Specification of `bigDouble` on big-endian arrays. -/
theorem bigDouble_spec (a : List Nat) (ha : limbsOK a) :
    (bigDouble a).1.length = a.length ∧ limbsOK (bigDouble a).1 ∧
    limbsVal (bigDouble a).1 + U64LIMIT ^ a.length * bitN (bigDouble a).2 =
      2 * limbsVal a := by
  obtain ⟨h1, h2, h3⟩ := doubleLE_spec a.reverse false (limbsOK_reverse.mpr ha)
  have e1 : (bigDouble a).1 = (doubleLE a.reverse false).1.reverse := rfl
  have e2 : (bigDouble a).2 = (doubleLE a.reverse false).2 := rfl
  refine ⟨?_, ?_, ?_⟩
  · rw [e1]; simpa using h1
  · rw [e1]; exact limbsOK_reverse.mpr h2
  · rw [e1, e2]
    simp only [limbsVal, List.reverse_reverse]
    simpa [limbsVal, bitN] using h3

/-- Specification of the little-endian `add_u64!` core.  The empty-array
case only ever occurs with a carry of at most one. -/
theorem addU64LE_spec (a : List Nat) (b : Nat) (ha : limbsOK a)
    (hb : b < U64LIMIT) (hne : a ≠ [] ∨ b ≤ 1) :
    (addU64LE a b).1.length = a.length ∧ limbsOK (addU64LE a b).1 ∧
    valLE (addU64LE a b).1 + U64LIMIT ^ a.length * bitN (addU64LE a b).2 =
      valLE a + b := by
  induction a generalizing b with
  | nil =>
    rcases hne with h | h
    · simp at h
    · interval_cases b <;> simp [addU64LE, valLE, limbsOK, bitN]
  | cons x xs ih =>
    have hx : x < U64LIMIT := ha x (List.mem_cons_self _ _)
    have hxs : limbsOK xs := fun z hz => ha z (List.mem_cons_of_mem _ hz)
    rcases Nat.lt_or_ge (x + b) U64LIMIT with h | h
    · have hstep : addU64LE (x :: xs) b = (((x + b) % U64LIMIT) :: xs, false) := by
        show (if (owAdd x b).2 = true then _ else ((owAdd x b).1 :: xs, false)) = _
        have : (owAdd x b).2 = false := by
          simp [owAdd, Nat.not_le.mpr h]
        rw [this]
        simp [owAdd]
      rw [hstep]
      rw [Nat.mod_eq_of_lt h]
      refine ⟨by simp, ?_, ?_⟩
      · intro z hz
        rcases List.mem_cons.mp hz with h2 | h2
        · subst h2; exact h
        · exact hxs z h2
      · simp [valLE_cons, bitN]
        ring
    · have hov : (owAdd x b).2 = true := by simp [owAdd, h]
      have hstep : addU64LE (x :: xs) b =
          (((x + b) % U64LIMIT) :: (addU64LE xs 1).1, (addU64LE xs 1).2) := by
        show (if (owAdd x b).2 = true then
            ((owAdd x b).1 :: (addU64LE xs 1).1, (addU64LE xs 1).2)
          else ((owAdd x b).1 :: xs, false)) = _
        rw [hov]
        simp [owAdd]
      obtain ⟨ihlen, ihok, ihval⟩ := ih 1 hxs (by decide) (Or.inr (by omega))
      have e : (x + b) % U64LIMIT = x + b - U64LIMIT := by
        rw [Nat.mod_eq_sub_mod h, Nat.mod_eq_of_lt (by omega)]
      rw [hstep]
      refine ⟨by simpa using ihlen, ?_, ?_⟩
      · intro z hz
        rcases List.mem_cons.mp hz with h2 | h2
        · subst h2; exact Nat.mod_lt _ U64LIMIT_pos
        · exact ihok z h2
      · simp only [valLE_cons, List.length_cons, pow_succ, e]
        calc x + b - U64LIMIT + U64LIMIT * valLE (addU64LE xs 1).1 +
              U64LIMIT ^ xs.length * U64LIMIT * bitN (addU64LE xs 1).2
            = x + b - U64LIMIT +
              U64LIMIT * (valLE (addU64LE xs 1).1 +
                U64LIMIT ^ xs.length * bitN (addU64LE xs 1).2) := by ring
          _ = x + b - U64LIMIT + U64LIMIT * (valLE xs + 1) := by rw [ihval]
          _ = x + U64LIMIT * valLE xs + b := by
              have : U64LIMIT * (valLE xs + 1) = U64LIMIT * valLE xs + U64LIMIT := by
                ring
              rw [this]
              omega

/-- Specification of `bigAddU64` on big-endian arrays. -/
theorem bigAddU64_spec (a : List Nat) (b : Nat) (ha : limbsOK a)
    (hb : b < U64LIMIT) (hne : a ≠ []) :
    (bigAddU64 a b).1.length = a.length ∧ limbsOK (bigAddU64 a b).1 ∧
    limbsVal (bigAddU64 a b).1 + U64LIMIT ^ a.length * bitN (bigAddU64 a b).2 =
      limbsVal a + b := by
  obtain ⟨h1, h2, h3⟩ := addU64LE_spec a.reverse b (limbsOK_reverse.mpr ha) hb
    (Or.inl (by simpa using hne))
  have e1 : (bigAddU64 a b).1 = (addU64LE a.reverse b).1.reverse := rfl
  have e2 : (bigAddU64 a b).2 = (addU64LE a.reverse b).2 := rfl
  refine ⟨?_, ?_, ?_⟩
  · rw [e1]; simpa using h1
  · rw [e1]; exact limbsOK_reverse.mpr h2
  · rw [e1, e2]
    simp only [limbsVal, List.reverse_reverse]
    simpa [limbsVal, bitN] using h3

-- ## Big-endian value utilities

theorem limbsVal_nil : limbsVal [] = 0 := rfl

theorem limbsVal_append (a b : List Nat) :
    limbsVal (a ++ b) = limbsVal a * U64LIMIT ^ b.length + limbsVal b := by
  simp only [limbsVal, List.reverse_append, valLE_append, List.length_reverse]
  ring

theorem limbsVal_cons (x : Nat) (xs : List Nat) :
    limbsVal (x :: xs) = x * U64LIMIT ^ xs.length + limbsVal xs := by
  have := limbsVal_append [x] xs
  simpa [limbsVal, valLE] using this

theorem limbsVal_replicate_zero (n : Nat) :
    limbsVal (List.replicate n 0) = 0 := by
  induction n with
  | zero => rfl
  | succ n ih =>
    rw [List.replicate_succ, limbsVal_cons, ih]
    simp

theorem limbsOK_replicate_zero (n : Nat) : limbsOK (List.replicate n 0) := by
  intro x hx
  have := List.eq_of_mem_replicate hx
  subst this
  exact U64LIMIT_pos

/-- Equal-length wellformed limb arrays with equal values are equal. -/
theorem limbsVal_inj (a b : List Nat) (hlen : a.length = b.length)
    (ha : limbsOK a) (hb : limbsOK b) (hv : limbsVal a = limbsVal b) :
    a = b := by
  induction a generalizing b with
  | nil => cases b with
    | nil => rfl
    | cons y ys => simp at hlen
  | cons x xs ih =>
    cases b with
    | nil => simp at hlen
    | cons y ys =>
      have hlen2 : xs.length = ys.length := by simpa using hlen
      have hxs : limbsOK xs := fun z hz => ha z (List.mem_cons_of_mem _ hz)
      have hys : limbsOK ys := fun z hz => hb z (List.mem_cons_of_mem _ hz)
      have hvx : limbsVal xs < U64LIMIT ^ xs.length := limbsVal_lt xs hxs
      have hvy : limbsVal ys < U64LIMIT ^ xs.length := by
        have := limbsVal_lt ys hys
        rwa [← hlen2] at this
      rw [limbsVal_cons, limbsVal_cons, ← hlen2] at hv
      have hxy : x = y := by
        by_contra hne
        rcases Nat.lt_or_ge x y with h | h
        · have : x * U64LIMIT ^ xs.length + U64LIMIT ^ xs.length ≤
              y * U64LIMIT ^ xs.length := by
            have : (x + 1) * U64LIMIT ^ xs.length ≤ y * U64LIMIT ^ xs.length :=
              Nat.mul_le_mul_right _ (by omega)
            calc x * U64LIMIT ^ xs.length + U64LIMIT ^ xs.length
                = (x + 1) * U64LIMIT ^ xs.length := by ring
              _ ≤ y * U64LIMIT ^ xs.length := this
          omega
        · have hlt : y < x := by omega
          have : y * U64LIMIT ^ xs.length + U64LIMIT ^ xs.length ≤
              x * U64LIMIT ^ xs.length := by
            have : (y + 1) * U64LIMIT ^ xs.length ≤ x * U64LIMIT ^ xs.length :=
              Nat.mul_le_mul_right _ (by omega)
            calc y * U64LIMIT ^ xs.length + U64LIMIT ^ xs.length
                = (y + 1) * U64LIMIT ^ xs.length := by ring
              _ ≤ x * U64LIMIT ^ xs.length := this
          omega
      subst hxy
      have : limbsVal xs = limbsVal ys := by omega
      rw [ih ys hlen2 hxs hys this]

/-- The lexicographic comparison on equal-length wellformed arrays decides
strict value comparison. -/
theorem slice_greater_than_spec (a b : List Nat) (hlen : a.length = b.length)
    (ha : limbsOK a) (hb : limbsOK b) :
    slice_greater_than a b = decide (limbsVal b < limbsVal a) := by
  induction a generalizing b with
  | nil => cases b with
    | nil => simp [slice_greater_than, limbsVal_nil]
    | cons y ys => simp at hlen
  | cons x xs ih =>
    cases b with
    | nil => simp at hlen
    | cons y ys =>
      have hlen2 : xs.length = ys.length := by simpa using hlen
      have hxs : limbsOK xs := fun z hz => ha z (List.mem_cons_of_mem _ hz)
      have hys : limbsOK ys := fun z hz => hb z (List.mem_cons_of_mem _ hz)
      have hvx : limbsVal xs < U64LIMIT ^ xs.length := limbsVal_lt xs hxs
      have hvy : limbsVal ys < U64LIMIT ^ xs.length := by
        have := limbsVal_lt ys hys
        rwa [← hlen2] at this
      have hstep : slice_greater_than (x :: xs) (y :: ys) =
          (if y < x then true else if x < y then false
           else slice_greater_than xs ys) := rfl
      rw [hstep, limbsVal_cons, limbsVal_cons, ← hlen2]
      rcases Nat.lt_trichotomy x y with h | h | h
      · have hle : x * U64LIMIT ^ xs.length + U64LIMIT ^ xs.length ≤
            y * U64LIMIT ^ xs.length := by
          calc x * U64LIMIT ^ xs.length + U64LIMIT ^ xs.length
              = (x + 1) * U64LIMIT ^ xs.length := by ring
            _ ≤ y * U64LIMIT ^ xs.length := Nat.mul_le_mul_right _ (by omega)
        rw [if_neg (by omega), if_pos h]
        have : ¬ (y * U64LIMIT ^ xs.length + limbsVal ys <
            x * U64LIMIT ^ xs.length + limbsVal xs) := by omega
        simp [this]
      · subst h
        rw [if_neg (by omega), if_neg (by omega)]
        rw [ih ys hlen2 hxs hys]
        by_cases h2 : limbsVal ys < limbsVal xs
        · simp [h2] <;> omega
        · simp [h2] <;> omega
      · have hle : y * U64LIMIT ^ xs.length + U64LIMIT ^ xs.length ≤
            x * U64LIMIT ^ xs.length := by
          calc y * U64LIMIT ^ xs.length + U64LIMIT ^ xs.length
              = (y + 1) * U64LIMIT ^ xs.length := by ring
            _ ≤ x * U64LIMIT ^ xs.length := Nat.mul_le_mul_right _ (by omega)
        rw [if_pos h]
        have : y * U64LIMIT ^ xs.length + limbsVal ys <
            x * U64LIMIT ^ xs.length + limbsVal xs := by omega
        simp [this]

/-- On equal-length lists `slice_equal` decides list equality. -/
theorem slice_equal_spec (a b : List Nat) (hlen : a.length = b.length) :
    slice_equal a b = decide (a = b) := by
  induction a generalizing b with
  | nil => cases b with
    | nil => simp [slice_equal]
    | cons y ys => simp at hlen
  | cons x xs ih =>
    cases b with
    | nil => simp at hlen
    | cons y ys =>
      have hlen2 : xs.length = ys.length := by simpa using hlen
      have hstep : slice_equal (x :: xs) (y :: ys) =
          ((x == y) && slice_equal xs ys) := rfl
      rw [hstep, ih ys hlen2]
      by_cases h : x = y
      · subst h
        by_cases h2 : xs = ys
        · simp [h2]
        · simp [h2]
      · simp [h]

/-- On equal-length wellformed arrays, `slice_equal` against the all-zero
array decides value zero. -/
theorem slice_equal_zero (a : List Nat) (ha : limbsOK a) :
    slice_equal a (List.replicate a.length 0) = decide (limbsVal a = 0) := by
  rw [slice_equal_spec a _ (by simp)]
  by_cases h : limbsVal a = 0
  · have : a = List.replicate a.length 0 :=
      limbsVal_inj a _ (by simp) ha (limbsOK_replicate_zero _)
        (by rw [h, limbsVal_replicate_zero])
    simp [← this, h]
  · have : a ≠ List.replicate a.length 0 := by
      intro hcon
      rw [hcon, limbsVal_replicate_zero] at h
      exact h rfl
    simp [this, h]

-- ## Negation

/-- Complementing a `u64` with XOR against all-ones is subtraction from
`2^64 - 1`. -/
theorem xor_all_ones (n : Nat) : ∀ x : Nat, x < 2 ^ n →
    x ^^^ (2 ^ n - 1) = 2 ^ n - 1 - x := by
  induction n with
  | zero =>
    intro x hx
    have : x = 0 := by omega
    subst this; rfl
  | succ n ih =>
    intro x hx
    have hx2 : x >>> 1 < 2 ^ n := by
      rw [Nat.shiftRight_one]
      rw [pow_succ] at hx
      omega
    have ihx := ih (x >>> 1) hx2
    have hdecomp := Nat.bit_decide_mod_two_eq_one_shiftRight_one x
    have h1 : 1 ≤ 2 ^ n := Nat.one_le_two_pow
    have hones : (2 ^ (n + 1) - 1) = Nat.bit true (2 ^ n - 1) := by
      rw [Nat.bit_val]
      simp only [Bool.toNat_true]
      rw [pow_succ]
      omega
    calc x ^^^ (2 ^ (n + 1) - 1)
        = Nat.bit (decide (x % 2 = 1)) (x >>> 1) ^^^ Nat.bit true (2 ^ n - 1) := by
          rw [hdecomp, ← hones]
      _ = Nat.bit (bne (decide (x % 2 = 1)) true) ((x >>> 1) ^^^ (2 ^ n - 1)) := by
          rw [Nat.xor_bit]
      _ = Nat.bit (!(decide (x % 2 = 1))) (2 ^ n - 1 - x >>> 1) := by
          rw [ihx]
          simp
      _ = 2 ^ (n + 1) - 1 - x := by
          rw [Nat.bit_val, Nat.shiftRight_one]
          rw [pow_succ] at hx ⊢
          rcases Nat.mod_two_eq_zero_or_one x with h | h
          · have hbit : (!(decide (x % 2 = 1))) = true := by rw [h]; decide
            rw [hbit]
            simp only [Bool.toNat_true]
            omega
          · have hbit : (!(decide (x % 2 = 1))) = false := by rw [h]; decide
            rw [hbit]
            simp only [Bool.toNat_false]
            omega

/-- Value of the complemented limb array. -/
theorem map_xor_ones_val (a : List Nat) (ha : limbsOK a) :
    limbsVal (a.map (fun x => x ^^^ 0xffffffffffffffff)) + limbsVal a =
      U64LIMIT ^ a.length - 1 := by
  induction a with
  | nil => simp [limbsVal_nil]
  | cons x xs ih =>
    have hx : x < U64LIMIT := ha x (List.mem_cons_self _ _)
    have hxs : limbsOK xs := fun z hz => ha z (List.mem_cons_of_mem _ hz)
    have hfx : x ^^^ 0xffffffffffffffff = U64LIMIT - 1 - x := by
      have := xor_all_ones 64 x (by exact hx)
      simpa [U64LIMIT] using this
    have ihv := ih hxs
    have hone : 1 ≤ U64LIMIT ^ xs.length := Nat.one_le_pow _ _ U64LIMIT_pos
    simp only [List.map_cons, limbsVal_cons, List.length_map, List.length_cons,
      hfx, pow_succ]
    have hexp : (U64LIMIT - 1 - x) * U64LIMIT ^ xs.length +
        x * U64LIMIT ^ xs.length = (U64LIMIT - 1) * U64LIMIT ^ xs.length := by
      have : U64LIMIT - 1 - x + x = U64LIMIT - 1 := by omega
      calc (U64LIMIT - 1 - x) * U64LIMIT ^ xs.length + x * U64LIMIT ^ xs.length
          = (U64LIMIT - 1 - x + x) * U64LIMIT ^ xs.length := by ring
        _ = (U64LIMIT - 1) * U64LIMIT ^ xs.length := by rw [this]
    have hmulle : U64LIMIT ^ xs.length ≤ U64LIMIT ^ xs.length * U64LIMIT :=
      Nat.le_mul_of_pos_right _ U64LIMIT_pos
    have hfin : (U64LIMIT - 1) * U64LIMIT ^ xs.length + (U64LIMIT ^ xs.length - 1) =
        U64LIMIT ^ xs.length * U64LIMIT - 1 := by
      have h1 : (U64LIMIT - 1) * U64LIMIT ^ xs.length =
          U64LIMIT * U64LIMIT ^ xs.length - U64LIMIT ^ xs.length := by
        rw [Nat.sub_mul, Nat.one_mul]
      rw [h1]
      have h2 : U64LIMIT ^ xs.length ≤ U64LIMIT * U64LIMIT ^ xs.length :=
        Nat.le_mul_of_pos_left _ U64LIMIT_pos
      have h3 : U64LIMIT * U64LIMIT ^ xs.length = U64LIMIT ^ xs.length * U64LIMIT :=
        Nat.mul_comm _ _
      omega
    omega

/-- Specification of `bigNegate`: two's complement negation modulo
`2^(64 n)`. -/
theorem bigNegate_spec (a : List Nat) (ha : limbsOK a) (hne : a ≠ []) :
    (bigNegate a).length = a.length ∧ limbsOK (bigNegate a) ∧
    limbsVal (bigNegate a) =
      (U64LIMIT ^ a.length - limbsVal a) % U64LIMIT ^ a.length := by
  have hmapok : limbsOK (a.map (fun x => x ^^^ 0xffffffffffffffff)) := by
    intro z hz
    obtain ⟨x, hx, rfl⟩ := List.mem_map.mp hz
    have := xor_all_ones 64 x (ha x hx)
    have h2 : x ^^^ 0xffffffffffffffff = 2 ^ 64 - 1 - x := by
      simpa using this
    rw [h2]
    simp only [U64LIMIT]
    omega
  have hmapne : a.map (fun x => x ^^^ 0xffffffffffffffff) ≠ [] := by
    simpa using hne
  obtain ⟨h1, h2, h3⟩ := bigAddU64_spec _ 1 hmapok (by decide) hmapne
  have hmv := map_xor_ones_val a ha
  have hlen : (a.map (fun x => x ^^^ 0xffffffffffffffff)).length = a.length := by
    simp
  have hvlt : limbsVal a < U64LIMIT ^ a.length := limbsVal_lt a ha
  have hrlt : limbsVal (bigNegate a) < U64LIMIT ^ a.length := by
    have := limbsVal_lt (bigNegate a) h2
    rwa [show (bigNegate a).length = a.length from by rw [← hlen]; exact h1] at this
  refine ⟨by rw [← hlen]; exact h1, h2, ?_⟩
  rw [hlen] at h3
  have hone : 1 ≤ U64LIMIT ^ a.length := Nat.one_le_pow _ _ U64LIMIT_pos
  by_cases hz : limbsVal a = 0
  · -- negating zero wraps around to zero
    rw [hz] at hmv ⊢
    have hbig : limbsVal (bigNegate a) +
        U64LIMIT ^ a.length * bitN (bigAddU64 (a.map
          (fun x => x ^^^ 0xffffffffffffffff)) 1).2 = U64LIMIT ^ a.length := by
      unfold bigNegate
      omega
    rcases hc : (bigAddU64 (a.map (fun x => x ^^^ 0xffffffffffffffff)) 1).2 with _ | _
    · rw [hc] at hbig
      simp only [bitN, Bool.false_eq_true, if_false, Nat.mul_zero, Nat.add_zero] at hbig
      omega
    · rw [hc] at hbig
      simp only [bitN, if_true, Nat.mul_one] at hbig
      simp [Nat.mod_self]
      omega
  · have hsub : U64LIMIT ^ a.length - 1 - limbsVal a + 1 =
        U64LIMIT ^ a.length - limbsVal a := by omega
    have hbig : limbsVal (bigNegate a) +
        U64LIMIT ^ a.length * bitN (bigAddU64 (a.map
          (fun x => x ^^^ 0xffffffffffffffff)) 1).2 =
        U64LIMIT ^ a.length - limbsVal a := by
      unfold bigNegate
      omega
    rcases hc : (bigAddU64 (a.map (fun x => x ^^^ 0xffffffffffffffff)) 1).2 with _ | _
    · rw [hc] at hbig
      simp only [bitN, Bool.false_eq_true, if_false, Nat.mul_zero, Nat.add_zero] at hbig
      rw [hbig, Nat.mod_eq_of_lt (by omega)]
    · rw [hc] at hbig
      simp only [bitN, if_true, Nat.mul_one] at hbig
      omega

/-- Specification of `sub_abs`: absolute difference together with the sign
of the (signed) difference. -/
theorem sub_abs_spec (a b : List Nat) (hlen : a.length = b.length)
    (hne : a ≠ []) (ha : limbsOK a) (hb : limbsOK b) :
    (sub_abs a b).1.length = a.length ∧ limbsOK (sub_abs a b).1 ∧
    (limbsVal (sub_abs a b).1 =
      max (limbsVal a) (limbsVal b) - min (limbsVal a) (limbsVal b)) ∧
    (sub_abs a b).2 = decide (limbsVal a < limbsVal b) := by
  obtain ⟨h1, h2, h3⟩ := bigSub_spec a b hlen ha hb
  have hbor := bigSub_borrow a b hlen ha hb
  have hane : (bigSub a b).1 ≠ [] := by
    intro hcon
    have h0 : a.length = 0 := by rw [← h1, hcon]; rfl
    exact hne (List.length_eq_zero.mp h0)
  have hunfold : sub_abs a b =
      (if (bigSub a b).2 = true then (bigNegate (bigSub a b).1, (bigSub a b).2)
       else ((bigSub a b).1, (bigSub a b).2)) := rfl
  rcases hlt : decide (limbsVal a < limbsVal b) with _ | _
  · -- a ≥ b: no borrow, result is a - b
    rw [hlt] at hbor
    have hge : limbsVal b ≤ limbsVal a := by
      have := of_decide_eq_false hlt
      omega
    have hstep : sub_abs a b = ((bigSub a b).1, false) := by
      rw [hunfold, hbor]
      simp
    rw [hstep]
    rw [hbor] at h3
    simp only [bitN, Bool.false_eq_true, if_false, Nat.mul_zero, Nat.add_zero] at h3
    refine ⟨h1, h2, ?_, by simp [hlt]⟩
    simp only
    omega
  · -- a < b: borrow then negate
    rw [hlt] at hbor
    have hltv : limbsVal a < limbsVal b := of_decide_eq_true hlt
    have hstep : sub_abs a b = (bigNegate (bigSub a b).1, true) := by
      rw [hunfold, hbor]
      simp
    obtain ⟨n1, n2, n3⟩ := bigNegate_spec (bigSub a b).1 h2 hane
    rw [hbor] at h3
    simp only [bitN, if_true, Nat.mul_one] at h3
    have hblt : limbsVal b < U64LIMIT ^ a.length := by
      have := limbsVal_lt b hb
      rwa [← hlen] at this
    have halt : limbsVal a < U64LIMIT ^ a.length := limbsVal_lt a ha
    rw [hstep]
    refine ⟨by rw [n1, h1], n2, ?_, by simp [hlt]⟩
    simp only
    rw [n3, h1]
    have hval : limbsVal (bigSub a b).1 =
        limbsVal a + U64LIMIT ^ a.length - limbsVal b := by omega
    rw [hval]
    have : U64LIMIT ^ a.length - (limbsVal a + U64LIMIT ^ a.length - limbsVal b) =
        limbsVal b - limbsVal a := by omega
    rw [this, Nat.mod_eq_of_lt (by omega)]
    omega

-- ## 128-bit arithmetic model and the `mul_2` base case

/-- Base of a `u128`. -/
def U128LIMIT : Nat := 2 ^ 128

/-- Model of `u128::overflowing_add`. -/
def owAdd128 (x y : Nat) : Nat × Bool :=
  ((x + y) % U128LIMIT, decide (U128LIMIT ≤ x + y))

/-- Model of `((z >> 0) & 0xffff_ffff_ffff_ffff) as u64` on a `u128` value:
shifting is division by a power of two and masking 64 ones is `% 2^64`. -/
def u128lo (z : Nat) : Nat := z % U64LIMIT

/-- Model of `((z >> 64) & 0xffff_ffff_ffff_ffff) as u64`. -/
def u128hi (z : Nat) : Nat := z / U64LIMIT % U64LIMIT

/-- Model of `add_mul_2_parts`: assembles the three 128-bit partial products
(and the carry of the middle sum) into a 4-limb big-endian result. -/
def add_mul_2_parts (z2 z1 z0 : Nat) (i_carry_a : Bool) : List Nat :=
  let z2a := u128hi z2
  let z1a := u128hi z1
  let z0a := u128hi z0
  let z2b := u128lo z2
  let z1b := u128lo z1
  let z0b := u128lo z0
  let l := z0b
  let (k, j_carry) := owAdd z0a z1b
  let (j1, i_carry_b) := owAdd z1a z2b
  let (j, i_carry_c) := owAdd j1 (bitN j_carry)
  let i_carry := bitN i_carry_a + bitN i_carry_b + bitN i_carry_c
  let (i, _must_not_overflow) := owAdd z2a i_carry
  [i, j, k, l]

/-- Model of `mul_2`: gradeschool multiplication of two 2-limb integers via
native 128-bit products. -/
def mul_2 : List Nat → List Nat → List Nat
  | [a0, a1], [b0, b1] =>
    let z2 := a0 * b0
    let z1i := a0 * b1
    let z1j := b0 * a1
    let (z1, i_carry_a) := owAdd128 z1i z1j
    let z0 := a1 * b1
    add_mul_2_parts z2 z1 z0 i_carry_a
  | _, _ => []

/-- Value form of `owAdd` for in-range operands. -/
theorem owAdd_val (x y : Nat) (hx : x < U64LIMIT) (hy : y < U64LIMIT) :
    (owAdd x y).1 + U64LIMIT * bitN (owAdd x y).2 = x + y ∧
    (owAdd x y).1 < U64LIMIT := by
  simp only [owAdd]
  rcases Nat.lt_or_ge (x + y) U64LIMIT with h | h
  · rw [Nat.mod_eq_of_lt h]
    have : ¬ U64LIMIT ≤ x + y := Nat.not_le.mpr h
    simp [this, bitN]
    omega
  · have e : (x + y) % U64LIMIT = x + y - U64LIMIT := by
      rw [Nat.mod_eq_sub_mod h, Nat.mod_eq_of_lt (by omega)]
    rw [e]
    simp [h, bitN]
    omega

/-- Value form of `owAdd128` for in-range operands. -/
theorem owAdd128_val (x y : Nat) (hx : x < U128LIMIT) (hy : y < U128LIMIT) :
    (owAdd128 x y).1 + U128LIMIT * bitN (owAdd128 x y).2 = x + y ∧
    (owAdd128 x y).1 < U128LIMIT := by
  simp only [owAdd128]
  rcases Nat.lt_or_ge (x + y) U128LIMIT with h | h
  · rw [Nat.mod_eq_of_lt h]
    have : ¬ U128LIMIT ≤ x + y := Nat.not_le.mpr h
    simp [this, bitN]
    omega
  · have e : (x + y) % U128LIMIT = x + y - U128LIMIT := by
      rw [Nat.mod_eq_sub_mod h, Nat.mod_eq_of_lt (by omega)]
    rw [e]
    simp [h, bitN]
    omega

/-- High/low decomposition of a `u128` value. -/
theorem u128_decomp (z : Nat) (h : z < U128LIMIT) :
    z = u128hi z * U64LIMIT + u128lo z ∧ u128hi z < U64LIMIT ∧
    u128lo z < U64LIMIT := by
  have hdm := Nat.div_add_mod z U64LIMIT
  have hlt : z / U64LIMIT < U64LIMIT := by
    have : z < U64LIMIT * U64LIMIT := by
      simp only [U64LIMIT]
      simpa [U128LIMIT] using h
    exact Nat.div_lt_of_lt_mul this
  refine ⟨?_, ?_, Nat.mod_lt _ U64LIMIT_pos⟩
  · simp only [u128hi, u128lo]
    rw [Nat.mod_eq_of_lt hlt, Nat.mul_comm]
    exact (Nat.div_add_mod z U64LIMIT).symm
  · simp only [u128hi]
    rw [Nat.mod_eq_of_lt hlt]
    exact hlt

/-- Specification of `add_mul_2_parts`: provided the final 256-bit value
fits, the assembly with all its carries is exact. -/
theorem add_mul_2_parts_spec (z2 z1 z0 : Nat) (cA : Bool)
    (h2 : z2 < U128LIMIT) (h1 : z1 < U128LIMIT) (h0 : z0 < U128LIMIT)
    (hb : z2 * U128LIMIT + (z1 + bitN cA * U128LIMIT) * U64LIMIT + z0 <
      U64LIMIT ^ 4) :
    (add_mul_2_parts z2 z1 z0 cA).length = 4 ∧
    limbsOK (add_mul_2_parts z2 z1 z0 cA) ∧
    limbsVal (add_mul_2_parts z2 z1 z0 cA) =
      z2 * U128LIMIT + (z1 + bitN cA * U128LIMIT) * U64LIMIT + z0 := by
  obtain ⟨hd2, hd2a, hd2b⟩ := u128_decomp z2 h2
  obtain ⟨hd1, hd1a, hd1b⟩ := u128_decomp z1 h1
  obtain ⟨hd0, hd0a, hd0b⟩ := u128_decomp z0 h0
  obtain ⟨hk, hklt⟩ := owAdd_val (u128hi z0) (u128lo z1) hd0a hd1b
  obtain ⟨hj1, hj1lt⟩ := owAdd_val (u128hi z1) (u128lo z2) hd1a hd2b
  have hbt : bitN (owAdd (u128hi z0) (u128lo z1)).2 < U64LIMIT := by
    rcases (owAdd (u128hi z0) (u128lo z1)).2 <;> simp [bitN, U64LIMIT]
  obtain ⟨hj, hjlt⟩ := owAdd_val (owAdd (u128hi z1) (u128lo z2)).1
    (bitN (owAdd (u128hi z0) (u128lo z1)).2) hj1lt hbt
  -- name all components
  set k := (owAdd (u128hi z0) (u128lo z1)).1 with hkdef
  set jc := (owAdd (u128hi z0) (u128lo z1)).2 with hjcdef
  set j1 := (owAdd (u128hi z1) (u128lo z2)).1 with hj1def
  set icb := (owAdd (u128hi z1) (u128lo z2)).2 with hicbdef
  set j := (owAdd j1 (bitN jc)).1 with hjdef
  set icc := (owAdd j1 (bitN jc)).2 with hiccdef
  set icar := bitN cA + bitN icb + bitN icc with hicardef
  have hicar : icar ≤ 3 := by
    rcases cA <;> rcases icb <;> rcases icc <;> simp [hicardef, bitN]
  obtain ⟨hi, hilt⟩ := owAdd_val (u128hi z2) icar hd2a (by
    have : (3 : Nat) < U64LIMIT := by simp [U64LIMIT]
    omega)
  set i := (owAdd (u128hi z2) icar).1 with hidef
  set iov := (owAdd (u128hi z2) icar).2 with hiovdef
  have hstep : add_mul_2_parts z2 z1 z0 cA = [i, j, k, u128lo z0] := rfl
  -- the top limb cannot overflow, because the total is below 2^256
  have hiov0 : bitN iov = 0 := by
    rcases hcase : iov with _ | _
    · rfl
    · exfalso
      rw [hcase] at hi
      simp only [bitN, if_true, Nat.mul_one] at hi
      -- the total value would then be at least 2^256
      have hBle : U64LIMIT ≤ u128hi z2 + icar := by
        have := hi
        omega
      have hexp : z2 * U128LIMIT + (z1 + bitN cA * U128LIMIT) * U64LIMIT + z0 =
          (u128hi z2 + bitN cA + bitN icb + bitN icc) * (U64LIMIT ^ 3) +
          j * (U64LIMIT ^ 2) + k * U64LIMIT + u128lo z0 := by
        simp only [U64LIMIT, U128LIMIT] at hd2 hd1 hd0 hk hj1 hj ⊢
        omega
      rw [hexp] at hb
      have : U64LIMIT * U64LIMIT ^ 3 ≤
          (u128hi z2 + bitN cA + bitN icb + bitN icc) * U64LIMIT ^ 3 := by
        apply Nat.mul_le_mul_right
        simp only [hicardef] at hBle
        omega
      have hcontra : U64LIMIT ^ 4 ≤
          (u128hi z2 + bitN cA + bitN icb + bitN icc) * U64LIMIT ^ 3 := by
        calc U64LIMIT ^ 4 = U64LIMIT * U64LIMIT ^ 3 := by ring
          _ ≤ _ := this
      omega
  have hieq : i = u128hi z2 + icar := by
    rw [hiov0] at hi
    omega
  refine ⟨by rw [hstep]; rfl, ?_, ?_⟩
  · rw [hstep]
    intro z hz
    simp only [List.mem_cons, List.not_mem_nil, or_false] at hz
    rcases hz with rfl | rfl | rfl | rfl
    · exact hilt
    · exact hjlt
    · exact hklt
    · exact hd0b
  · rw [hstep]
    have hval : limbsVal [i, j, k, u128lo z0] =
        i * U64LIMIT ^ 3 + j * U64LIMIT ^ 2 + k * U64LIMIT + u128lo z0 := by
      simp [limbsVal_cons, limbsVal_nil]
      ring
    rw [hval, hieq]
    simp only [hicardef]
    simp only [U64LIMIT, U128LIMIT] at hd2 hd1 hd0 hk hj1 hj ⊢
    omega

/-- Specification of `mul_2`: the 2-limb base multiplication is exact. -/
theorem mul_2_spec (a0 a1 b0 b1 : Nat) (ha0 : a0 < U64LIMIT) (ha1 : a1 < U64LIMIT)
    (hb0 : b0 < U64LIMIT) (hb1 : b1 < U64LIMIT) :
    (mul_2 [a0, a1] [b0, b1]).length = 4 ∧ limbsOK (mul_2 [a0, a1] [b0, b1]) ∧
    limbsVal (mul_2 [a0, a1] [b0, b1]) = limbsVal [a0, a1] * limbsVal [b0, b1] := by
  have hz2 : a0 * b0 < U128LIMIT := by
    have := Nat.mul_le_mul (by omega : a0 ≤ U64LIMIT - 1) (by omega : b0 ≤ U64LIMIT - 1)
    simp only [U64LIMIT, U128LIMIT] at *
    omega
  have hz1i : a0 * b1 < U128LIMIT := by
    have := Nat.mul_le_mul (by omega : a0 ≤ U64LIMIT - 1) (by omega : b1 ≤ U64LIMIT - 1)
    simp only [U64LIMIT, U128LIMIT] at *
    omega
  have hz1j : b0 * a1 < U128LIMIT := by
    have := Nat.mul_le_mul (by omega : b0 ≤ U64LIMIT - 1) (by omega : a1 ≤ U64LIMIT - 1)
    simp only [U64LIMIT, U128LIMIT] at *
    omega
  have hz0 : a1 * b1 < U128LIMIT := by
    have := Nat.mul_le_mul (by omega : a1 ≤ U64LIMIT - 1) (by omega : b1 ≤ U64LIMIT - 1)
    simp only [U64LIMIT, U128LIMIT] at *
    omega
  obtain ⟨hmid, hmidlt⟩ := owAdd128_val (a0 * b1) (b0 * a1) hz1i hz1j
  set z1 := (owAdd128 (a0 * b1) (b0 * a1)).1 with hz1def
  set cA := (owAdd128 (a0 * b1) (b0 * a1)).2 with hcadef
  have hstep : mul_2 [a0, a1] [b0, b1] = add_mul_2_parts (a0 * b0) z1 (a1 * b1) cA :=
    rfl
  have hprod : a0 * b0 * U128LIMIT + (z1 + bitN cA * U128LIMIT) * U64LIMIT +
      a1 * b1 = limbsVal [a0, a1] * limbsVal [b0, b1] := by
    have hmid2 : z1 + bitN cA * U128LIMIT = a0 * b1 + b0 * a1 := by
      rw [Nat.mul_comm (bitN cA) U128LIMIT]
      omega
    rw [hmid2]
    have hB : U128LIMIT = U64LIMIT ^ 2 := by norm_num [U128LIMIT, U64LIMIT]
    rw [hB]
    simp [limbsVal_cons, limbsVal_nil]
    ring
  have hbound : a0 * b0 * U128LIMIT + (z1 + bitN cA * U128LIMIT) * U64LIMIT +
      a1 * b1 < U64LIMIT ^ 4 := by
    rw [hprod]
    have hva : limbsVal [a0, a1] < U64LIMIT ^ 2 := by
      have : limbsOK [a0, a1] := by
        intro z hz
        simp only [List.mem_cons, List.not_mem_nil, or_false] at hz
        rcases hz with rfl | rfl
        · exact ha0
        · exact ha1
      simpa using limbsVal_lt [a0, a1] this
    have hvb : limbsVal [b0, b1] < U64LIMIT ^ 2 := by
      have : limbsOK [b0, b1] := by
        intro z hz
        simp only [List.mem_cons, List.not_mem_nil, or_false] at hz
        rcases hz with rfl | rfl
        · exact hb0
        · exact hb1
      simpa using limbsVal_lt [b0, b1] this
    have := Nat.mul_le_mul (by omega : limbsVal [a0, a1] ≤ U64LIMIT ^ 2 - 1)
      (by omega : limbsVal [b0, b1] ≤ U64LIMIT ^ 2 - 1)
    simp only [U64LIMIT] at *
    omega
  obtain ⟨hl, hok, hv⟩ := add_mul_2_parts_spec (a0 * b0) z1 (a1 * b1) cA hz2 hmidlt
    hz0 hbound
  rw [hstep]
  exact ⟨hl, hok, by rw [hv, hprod]⟩

/-- One step of the pairwise carry-collecting addition used by `mul_3`:
an `overflowing_add` whose carry boolean is added (as a `u64`) to the
running carry count. -/
def owStep (acc : Nat × Nat) (y : Nat) : Nat × Nat :=
  let s := owAdd acc.1 y
  (s.1, acc.2 + bitN s.2)

/-- Chained `overflowing_add`s collecting the carry count, exactly as
`mul_3` adds each group of partial limbs pairwise and sums the carry
booleans as `u64`s. -/
def owAddMany (first : Nat) (rest : List Nat) : Nat × Nat :=
  rest.foldl owStep (first, 0)

theorem owStep_fold_spec (rest : List Nat) (acc : Nat × Nat)
    (hacc : acc.1 < U64LIMIT) (hrest : ∀ x ∈ rest, x < U64LIMIT) :
    (rest.foldl owStep acc).1 + U64LIMIT * (rest.foldl owStep acc).2 =
      acc.1 + U64LIMIT * acc.2 + rest.sum ∧
    (rest.foldl owStep acc).1 < U64LIMIT ∧
    (rest.foldl owStep acc).2 ≤ acc.2 + rest.length := by
  induction rest generalizing acc with
  | nil => exact ⟨by simp, hacc, by simp⟩
  | cons y ys ih =>
    have hy : y < U64LIMIT := hrest y (List.mem_cons_self _ _)
    have hys : ∀ x ∈ ys, x < U64LIMIT := fun x hx => hrest x (List.mem_cons_of_mem _ hx)
    obtain ⟨hadd, hlt⟩ := owAdd_val acc.1 y hacc hy
    obtain ⟨ih1, ih2, ih3⟩ := ih ((owAdd acc.1 y).1, acc.2 + bitN (owAdd acc.1 y).2) hlt hys
    have hfold : (y :: ys).foldl owStep acc =
        ys.foldl owStep ((owAdd acc.1 y).1, acc.2 + bitN (owAdd acc.1 y).2) := rfl
    rw [hfold]
    refine ⟨?_, ih2, ?_⟩
    · rw [ih1]
      simp only [List.sum_cons]
      ring_nf
      omega
    · have hb1 : bitN (owAdd acc.1 y).2 ≤ 1 := by
        rcases (owAdd acc.1 y).2 <;> simp [bitN]
      calc (ys.foldl owStep ((owAdd acc.1 y).1, acc.2 + bitN (owAdd acc.1 y).2)).2
          ≤ acc.2 + bitN (owAdd acc.1 y).2 + ys.length := ih3
        _ ≤ acc.2 + (y :: ys).length := by
            simp only [List.length_cons]
            omega

theorem owAddMany_spec (first : Nat) (rest : List Nat) (hf : first < U64LIMIT)
    (hrest : ∀ x ∈ rest, x < U64LIMIT) :
    (owAddMany first rest).1 + U64LIMIT * (owAddMany first rest).2 =
      first + rest.sum ∧
    (owAddMany first rest).1 < U64LIMIT ∧
    (owAddMany first rest).2 ≤ rest.length := by
  obtain ⟨h1, h2, h3⟩ := owStep_fold_spec rest (first, 0) hf hrest
  exact ⟨by simpa [owAddMany] using h1, h2, by simpa [owAddMany] using h3⟩

/-- Model of `mul_3`: gradeschool multiplication of two 3-limb integers.
The nine 128-bit partial products are split into their halves `rKx` and
summed columnwise with pairwise `overflowing_add`s whose carry booleans are
accumulated into the next column. -/
def mul_3 : List Nat → List Nat → List Nat
  | [a0, a1, a2], [b0, b1, b2] =>
    let m4 := a2 * b2
    let m3a := a2 * b1
    let m3b := a1 * b2
    let m2a := a2 * b0
    let m2b := a1 * b1
    let m2c := a0 * b2
    let m1a := a1 * b0
    let m1b := a0 * b1
    let m0 := a0 * b0
    let r5 := u128lo m4
    let r4a := u128hi m4
    let r4b := u128lo m3a
    let r4c := u128lo m3b
    let r3a := u128hi m3a
    let r3b := u128hi m3b
    let r3c := u128lo m2a
    let r3d := u128lo m2b
    let r3e := u128lo m2c
    let r2a := u128hi m2a
    let r2b := u128hi m2b
    let r2c := u128hi m2c
    let r2d := u128lo m1a
    let r2e := u128lo m1b
    let r1a := u128hi m1a
    let r1b := u128hi m1b
    let r1c := u128lo m0
    let r0a := u128hi m0
    let (r4, r3_c) := owAddMany r4a [r4b, r4c]
    let (r3, r2_c) := owAddMany r3a [r3b, r3c, r3d, r3e, r3_c]
    let (r2, r1_c) := owAddMany r2a [r2b, r2c, r2d, r2e, r2_c]
    let (r1, r0_c) := owAddMany r1a [r1b, r1c, r1_c]
    let (r0, _must_not_overflow) := owAdd r0a r0_c
    [r0, r1, r2, r3, r4, r5]
  | _, _ => []

/-- A product of two `u64`s fits in a `u128`. -/
theorem mul_lt_u128 (x y : Nat) (hx : x < U64LIMIT) (hy : y < U64LIMIT) :
    x * y < U128LIMIT := by
  have := Nat.mul_le_mul (by omega : x ≤ U64LIMIT - 1) (by omega : y ≤ U64LIMIT - 1)
  simp only [U64LIMIT, U128LIMIT] at *
  omega

/-- Specification of `mul_3`: the 3-limb gradeschool multiplication is
exact. -/
theorem mul_3_spec (a0 a1 a2 b0 b1 b2 : Nat)
    (ha0 : a0 < U64LIMIT) (ha1 : a1 < U64LIMIT) (ha2 : a2 < U64LIMIT)
    (hb0 : b0 < U64LIMIT) (hb1 : b1 < U64LIMIT) (hb2 : b2 < U64LIMIT) :
    (mul_3 [a0, a1, a2] [b0, b1, b2]).length = 6 ∧
    limbsOK (mul_3 [a0, a1, a2] [b0, b1, b2]) ∧
    limbsVal (mul_3 [a0, a1, a2] [b0, b1, b2]) =
      limbsVal [a0, a1, a2] * limbsVal [b0, b1, b2] := by
  obtain ⟨e4, e4h, e4l⟩ := u128_decomp (a2 * b2) (mul_lt_u128 _ _ ha2 hb2)
  obtain ⟨e3a, e3ah, e3al⟩ := u128_decomp (a2 * b1) (mul_lt_u128 _ _ ha2 hb1)
  obtain ⟨e3b, e3bh, e3bl⟩ := u128_decomp (a1 * b2) (mul_lt_u128 _ _ ha1 hb2)
  obtain ⟨e2a, e2ah, e2al⟩ := u128_decomp (a2 * b0) (mul_lt_u128 _ _ ha2 hb0)
  obtain ⟨e2b, e2bh, e2bl⟩ := u128_decomp (a1 * b1) (mul_lt_u128 _ _ ha1 hb1)
  obtain ⟨e2c, e2ch, e2cl⟩ := u128_decomp (a0 * b2) (mul_lt_u128 _ _ ha0 hb2)
  obtain ⟨e1a, e1ah, e1al⟩ := u128_decomp (a1 * b0) (mul_lt_u128 _ _ ha1 hb0)
  obtain ⟨e1b, e1bh, e1bl⟩ := u128_decomp (a0 * b1) (mul_lt_u128 _ _ ha0 hb1)
  obtain ⟨e0, e0h, e0l⟩ := u128_decomp (a0 * b0) (mul_lt_u128 _ _ ha0 hb0)
  -- chain 1 (the B^1 column)
  obtain ⟨s1, s1lt, s1len⟩ := owAddMany_spec (u128hi (a2 * b2))
    [u128lo (a2 * b1), u128lo (a1 * b2)] e4h (by
      intro x hx
      simp only [List.mem_cons, List.not_mem_nil, or_false] at hx
      rcases hx with rfl | rfl
      · exact e3al
      · exact e3bl)
  -- chain 2 (the B^2 column, receiving chain 1's carries)
  obtain ⟨s2, s2lt, s2len⟩ := owAddMany_spec (u128hi (a2 * b1))
    [u128hi (a1 * b2), u128lo (a2 * b0), u128lo (a1 * b1), u128lo (a0 * b2),
      (owAddMany (u128hi (a2 * b2)) [u128lo (a2 * b1), u128lo (a1 * b2)]).2]
    e3ah (by
      intro x hx
      simp only [List.mem_cons, List.not_mem_nil, or_false] at hx
      have hc : (owAddMany (u128hi (a2 * b2))
          [u128lo (a2 * b1), u128lo (a1 * b2)]).2 < U64LIMIT := by
        have h2 : ((2 : Nat)) < U64LIMIT := by simp [U64LIMIT]
        simp only [List.length_cons, List.length_nil] at s1len
        omega
      rcases hx with rfl | rfl | rfl | rfl | rfl
      · exact e3bh
      · exact e2al
      · exact e2bl
      · exact e2cl
      · exact hc)
  -- chain 3 (the B^3 column)
  obtain ⟨s3, s3lt, s3len⟩ := owAddMany_spec (u128hi (a2 * b0))
    [u128hi (a1 * b1), u128hi (a0 * b2), u128lo (a1 * b0), u128lo (a0 * b1),
      (owAddMany (u128hi (a2 * b1))
        [u128hi (a1 * b2), u128lo (a2 * b0), u128lo (a1 * b1), u128lo (a0 * b2),
          (owAddMany (u128hi (a2 * b2)) [u128lo (a2 * b1), u128lo (a1 * b2)]).2]).2]
    e2ah (by
      intro x hx
      simp only [List.mem_cons, List.not_mem_nil, or_false] at hx
      have hc : (owAddMany (u128hi (a2 * b1))
          [u128hi (a1 * b2), u128lo (a2 * b0), u128lo (a1 * b1), u128lo (a0 * b2),
            (owAddMany (u128hi (a2 * b2)) [u128lo (a2 * b1), u128lo (a1 * b2)]).2]).2 <
          U64LIMIT := by
        have h5 : ((5 : Nat)) < U64LIMIT := by simp [U64LIMIT]
        simp only [List.length_cons, List.length_nil] at s2len
        omega
      rcases hx with rfl | rfl | rfl | rfl | rfl
      · exact e2bh
      · exact e2ch
      · exact e1al
      · exact e1bl
      · exact hc)
  -- chain 4 (the B^4 column)
  obtain ⟨s4, s4lt, s4len⟩ := owAddMany_spec (u128hi (a1 * b0))
    [u128hi (a0 * b1), u128lo (a0 * b0),
      (owAddMany (u128hi (a2 * b0))
        [u128hi (a1 * b1), u128hi (a0 * b2), u128lo (a1 * b0), u128lo (a0 * b1),
          (owAddMany (u128hi (a2 * b1))
            [u128hi (a1 * b2), u128lo (a2 * b0), u128lo (a1 * b1), u128lo (a0 * b2),
              (owAddMany (u128hi (a2 * b2)) [u128lo (a2 * b1), u128lo (a1 * b2)]).2]).2]).2]
    e1ah (by
      intro x hx
      simp only [List.mem_cons, List.not_mem_nil, or_false] at hx
      have hc : (owAddMany (u128hi (a2 * b0))
          [u128hi (a1 * b1), u128hi (a0 * b2), u128lo (a1 * b0), u128lo (a0 * b1),
            (owAddMany (u128hi (a2 * b1))
              [u128hi (a1 * b2), u128lo (a2 * b0), u128lo (a1 * b1), u128lo (a0 * b2),
                (owAddMany (u128hi (a2 * b2))
                  [u128lo (a2 * b1), u128lo (a1 * b2)]).2]).2]).2 < U64LIMIT := by
        have h5 : ((5 : Nat)) < U64LIMIT := by simp [U64LIMIT]
        simp only [List.length_cons, List.length_nil] at s3len
        omega
      rcases hx with rfl | rfl | rfl
      · exact e1bh
      · exact e0l
      · exact hc)
  -- the expanded product
  have hP : limbsVal [a0, a1, a2] * limbsVal [b0, b1, b2] =
      a0 * b0 * U64LIMIT ^ 4 + (a1 * b0 + a0 * b1) * U64LIMIT ^ 3 +
      (a2 * b0 + a1 * b1 + a0 * b2) * U64LIMIT ^ 2 +
      (a2 * b1 + a1 * b2) * U64LIMIT + a2 * b2 := by
    simp [limbsVal_cons, limbsVal_nil]
    ring
  have hPlt : limbsVal [a0, a1, a2] * limbsVal [b0, b1, b2] < U64LIMIT ^ 6 := by
    have hva : limbsVal [a0, a1, a2] < U64LIMIT ^ 3 := by
      have hok : limbsOK [a0, a1, a2] := by
        intro z hz
        simp only [List.mem_cons, List.not_mem_nil, or_false] at hz
        rcases hz with rfl | rfl | rfl
        · exact ha0
        · exact ha1
        · exact ha2
      simpa using limbsVal_lt [a0, a1, a2] hok
    have hvb : limbsVal [b0, b1, b2] < U64LIMIT ^ 3 := by
      have hok : limbsOK [b0, b1, b2] := by
        intro z hz
        simp only [List.mem_cons, List.not_mem_nil, or_false] at hz
        rcases hz with rfl | rfl | rfl
        · exact hb0
        · exact hb1
        · exact hb2
      simpa using limbsVal_lt [b0, b1, b2] hok
    have := Nat.mul_le_mul (by omega : limbsVal [a0, a1, a2] ≤ U64LIMIT ^ 3 - 1)
      (by omega : limbsVal [b0, b1, b2] ≤ U64LIMIT ^ 3 - 1)
    simp only [U64LIMIT] at *
    omega
  -- unfold the definition and name the chains
  simp only [mul_3]
  generalize hg1 : owAddMany (u128hi (a2 * b2)) [u128lo (a2 * b1), u128lo (a1 * b2)] = c1
    at s1 s1lt s1len s2 s2lt s2len s3 s3lt s3len s4 s4lt s4len ⊢
  generalize hg2 : owAddMany (u128hi (a2 * b1))
    [u128hi (a1 * b2), u128lo (a2 * b0), u128lo (a1 * b1), u128lo (a0 * b2), c1.2] = c2
    at s2 s2lt s2len s3 s3lt s3len s4 s4lt s4len ⊢
  generalize hg3 : owAddMany (u128hi (a2 * b0))
    [u128hi (a1 * b1), u128hi (a0 * b2), u128lo (a1 * b0), u128lo (a0 * b1), c2.2] = c3
    at s3 s3lt s3len s4 s4lt s4len ⊢
  generalize hg4 : owAddMany (u128hi (a1 * b0)) [u128hi (a0 * b1), u128lo (a0 * b0), c3.2] = c4
    at s4 s4lt s4len ⊢
  -- the top limb addition
  have hc4lt : c4.2 < U64LIMIT := by
    have h3 : ((3 : Nat)) < U64LIMIT := by simp [U64LIMIT]
    simp only [List.length_cons, List.length_nil] at s4len
    omega
  obtain ⟨htop, htoplt⟩ := owAdd_val (u128hi (a0 * b0)) c4.2 e0h hc4lt
  simp only [List.sum_cons, List.sum_nil] at s1 s2 s3 s4
  -- exclude overflow of the top limb
  have hiden : limbsVal [a0, a1, a2] * limbsVal [b0, b1, b2] =
      (u128hi (a0 * b0) + c4.2) * U64LIMIT ^ 5 + c4.1 * U64LIMIT ^ 4 +
      c3.1 * U64LIMIT ^ 3 + c2.1 * U64LIMIT ^ 2 + c1.1 * U64LIMIT +
      u128lo (a2 * b2) := by
    rw [hP]
    simp only [U64LIMIT] at e4 e3a e3b e2a e2b e2c e1a e1b e0 s1 s2 s3 s4 ⊢
    omega
  have hov : bitN (owAdd (u128hi (a0 * b0)) c4.2).2 = 0 := by
    rcases hcase : (owAdd (u128hi (a0 * b0)) c4.2).2 with _ | _
    · rfl
    · exfalso
      rw [hcase] at htop
      simp only [bitN, if_true, Nat.mul_one] at htop
      have hge : U64LIMIT ≤ u128hi (a0 * b0) + c4.2 := by omega
      have : U64LIMIT ^ 6 ≤ (u128hi (a0 * b0) + c4.2) * U64LIMIT ^ 5 := by
        calc U64LIMIT ^ 6 = U64LIMIT * U64LIMIT ^ 5 := by ring
          _ ≤ (u128hi (a0 * b0) + c4.2) * U64LIMIT ^ 5 :=
            Nat.mul_le_mul_right _ hge
      have hle : (u128hi (a0 * b0) + c4.2) * U64LIMIT ^ 5 ≤
          limbsVal [a0, a1, a2] * limbsVal [b0, b1, b2] := by
        rw [hiden]
        omega
      omega
  have htopeq : (owAdd (u128hi (a0 * b0)) c4.2).1 = u128hi (a0 * b0) + c4.2 := by
    rw [hov] at htop
    omega
  refine ⟨rfl, ?_, ?_⟩
  · intro z hz
    simp only [List.mem_cons, List.not_mem_nil, or_false] at hz
    rcases hz with rfl | rfl | rfl | rfl | rfl | rfl
    · exact htoplt
    · exact s4lt
    · exact s3lt
    · exact s2lt
    · exact s1lt
    · exact e4l
  · have hval : limbsVal [(owAdd (u128hi (a0 * b0)) c4.2).1, c4.1, c3.1, c2.1, c1.1,
        u128lo (a2 * b2)] =
        (owAdd (u128hi (a0 * b0)) c4.2).1 * U64LIMIT ^ 5 + c4.1 * U64LIMIT ^ 4 +
        c3.1 * U64LIMIT ^ 3 + c2.1 * U64LIMIT ^ 2 + c1.1 * U64LIMIT +
        u128lo (a2 * b2) := by
      simp [limbsVal_cons, limbsVal_nil]
      ring
    rw [hval, htopeq, hiden]

-- ## Karatsuba multiplication (the `define_mul!` macro)

/-- The middle-term computation of the `define_mul!` macro body: signed
absolute differences of the halves, the sub-multiplication `z1m`, and the
assembly `z0 + z2 ∓ z1m` with its carry bit (`z1_carry` is flipped by an
underflowing subtraction and set by an overflowing addition). -/
def karatsuba_z1 (f : List Nat → List Nat → List Nat)
    (a0 a1 b0 b1 z0 z2 : List Nat) : List Nat × Bool :=
  let z1a_sign := slice_greater_than a1 a0
  let z1b_sign := slice_greater_than b1 b0
  let z1a := if z1a_sign then bigSub a1 a0 else bigSub a0 a1
  let z1b := if z1b_sign then bigSub b1 b0 else bigSub b0 b1
  let z1m_sign := z1a_sign == z1b_sign
  let z1m := f z1a.1 z1b.1
  let z1n := bigAdd z0 z2
  let z1_carry0 := z1n.2
  if z1m_sign then
    let r := bigSub z1n.1 z1m
    (r.1, if r.2 then !z1_carry0 else z1_carry0)
  else
    let r := bigAdd z1n.1 z1m
    (r.1, if r.2 then true else z1_carry0)

/-- The final assembly of the `define_mul!` macro body: the four
quarter-width segments `i`, `j`, `k`, `l` with their carry corrections,
concatenated into the `2 len`-limb big-endian result. -/
def karatsuba_assemble (h : Nat) (z0 z1 z2 : List Nat) (z1_carry : Bool) :
    List Nat :=
  let l := z0.drop h
  let (k, j_carry) := bigAdd (z0.take h) (z1.drop h)
  let (j0, i_carry_a) := bigAdd (z1.take h) (z2.drop h)
  let (j, i_carry_b) := if j_carry then bigAddU64 j0 1 else (j0, false)
  let i0 := z2.take h
  let i_carry := bitN i_carry_a + bitN i_carry_b + bitN z1_carry
  let i := if i_carry ≠ 0 then (bigAddU64 i0 i_carry).1 else i0
  i ++ j ++ k ++ l

/-- Model of the `define_mul!` macro: one level of Karatsuba over the
half-width submultiplier `f` (the `const_subarr` calls on the low/high
halves become `take`/`drop`). -/
def mul_karatsuba (f : List Nat → List Nat → List Nat) (a b : List Nat) :
    List Nat :=
  let half := a.length / 2
  let a0 := a.take half
  let a1 := a.drop half
  let b0 := b.take half
  let b1 := b.drop half
  let z2 := f a0 b0
  let z0 := f a1 b1
  let (z1, z1_carry) := karatsuba_z1 f a0 a1 b0 b1 z0 z2
  karatsuba_assemble half z0 z1 z2 z1_carry

/-- Model of `mul_4` through `mul_64`. -/
def mul_4 (a b : List Nat) : List Nat := mul_karatsuba mul_2 a b

def mul_6 (a b : List Nat) : List Nat := mul_karatsuba mul_3 a b

def mul_8 (a b : List Nat) : List Nat := mul_karatsuba mul_4 a b

def mul_16 (a b : List Nat) : List Nat := mul_karatsuba mul_8 a b

def mul_32 (a b : List Nat) : List Nat := mul_karatsuba mul_16 a b

def mul_64 (a b : List Nat) : List Nat := mul_karatsuba mul_32 a b

/-- Correctness predicate for an `N`-limb multiplier. -/
def SubmulOK (f : List Nat → List Nat → List Nat) (n : Nat) : Prop :=
  ∀ a b : List Nat, a.length = n → b.length = n → limbsOK a → limbsOK b →
    (f a b).length = 2 * n ∧ limbsOK (f a b) ∧
    limbsVal (f a b) = limbsVal a * limbsVal b

/-- Branch analysis for the subtracting (equal signs) case of `z1`. -/
theorem z1_sub_case (z1n1 z1mL : List Nat) (c1 : Bool) (m : Nat)
    (hlen : z1mL.length = z1n1.length) (hn : limbsOK z1n1) (hmk : limbsOK z1mL)
    (hval : m + limbsVal z1mL = limbsVal z1n1 + U64LIMIT ^ z1n1.length * bitN c1) :
    (bigSub z1n1 z1mL).1.length = z1n1.length ∧
    limbsOK (bigSub z1n1 z1mL).1 ∧
    limbsVal (bigSub z1n1 z1mL).1 +
      U64LIMIT ^ z1n1.length * bitN (if (bigSub z1n1 z1mL).2 then !c1 else c1) =
      m := by
  obtain ⟨s1, s2, s3⟩ := bigSub_spec z1n1 z1mL hlen.symm hn hmk
  have hrlt : limbsVal (bigSub z1n1 z1mL).1 < U64LIMIT ^ z1n1.length := by
    have := limbsVal_lt (bigSub z1n1 z1mL).1 s2
    rwa [s1] at this
  refine ⟨s1, s2, ?_⟩
  rcases hbor : (bigSub z1n1 z1mL).2 with _ | _ <;>
    rcases hc : c1 with _ | _ <;>
      rw [hbor] at s3 <;> rw [hc] at hval <;>
        simp only [bitN, Bool.not_true, Bool.not_false, if_true, if_false,
          Bool.false_eq_true, Nat.mul_zero, Nat.add_zero, Nat.mul_one] at s3 hval ⊢ <;>
          omega

/-- Branch analysis for the adding (opposite signs) case of `z1`. -/
theorem z1_add_case (z1n1 z1mL : List Nat) (c1 : Bool) (m : Nat)
    (hlen : z1mL.length = z1n1.length) (hn : limbsOK z1n1) (hmk : limbsOK z1mL)
    (hval : m = limbsVal z1n1 + U64LIMIT ^ z1n1.length * bitN c1 + limbsVal z1mL)
    (hmlt : m < 2 * U64LIMIT ^ z1n1.length) :
    (bigAdd z1n1 z1mL).1.length = z1n1.length ∧
    limbsOK (bigAdd z1n1 z1mL).1 ∧
    limbsVal (bigAdd z1n1 z1mL).1 +
      U64LIMIT ^ z1n1.length * bitN (if (bigAdd z1n1 z1mL).2 then true else c1) =
      m := by
  obtain ⟨s1, s2, s3⟩ := bigAdd_spec z1n1 z1mL hlen.symm hn hmk
  have hrlt : limbsVal (bigAdd z1n1 z1mL).1 < U64LIMIT ^ z1n1.length := by
    have := limbsVal_lt (bigAdd z1n1 z1mL).1 s2
    rwa [s1] at this
  refine ⟨s1, s2, ?_⟩
  rcases hbor : (bigAdd z1n1 z1mL).2 with _ | _ <;>
    rcases hc : c1 with _ | _ <;>
      rw [hbor] at s3 <;> rw [hc] at hval <;>
        simp only [bitN, if_true, if_false, Bool.false_eq_true,
          Nat.mul_zero, Nat.add_zero, Nat.mul_one] at s3 hval ⊢ <;>
          omega

/-- Specification of `karatsuba_z1`: the computed pair represents the exact
Karatsuba middle term `a0·b1 + a1·b0`. -/
theorem karatsuba_z1_spec (f : List Nat → List Nat → List Nat) (half : Nat)
    (hf : SubmulOK f half) (a0 a1 b0 b1 z0 z2 : List Nat)
    (ha0 : a0.length = half) (ha1 : a1.length = half)
    (hb0 : b0.length = half) (hb1 : b1.length = half)
    (ha0k : limbsOK a0) (ha1k : limbsOK a1) (hb0k : limbsOK b0) (hb1k : limbsOK b1)
    (hz0len : z0.length = 2 * half) (hz2len : z2.length = 2 * half)
    (hz0k : limbsOK z0) (hz2k : limbsOK z2)
    (hz0v : limbsVal z0 = limbsVal a1 * limbsVal b1)
    (hz2v : limbsVal z2 = limbsVal a0 * limbsVal b0) :
    (karatsuba_z1 f a0 a1 b0 b1 z0 z2).1.length = 2 * half ∧
    limbsOK (karatsuba_z1 f a0 a1 b0 b1 z0 z2).1 ∧
    limbsVal (karatsuba_z1 f a0 a1 b0 b1 z0 z2).1 +
      U64LIMIT ^ (2 * half) * bitN (karatsuba_z1 f a0 a1 b0 b1 z0 z2).2 =
      limbsVal a0 * limbsVal b1 + limbsVal a1 * limbsVal b0 := by
  have hga : slice_greater_than a1 a0 = decide (limbsVal a0 < limbsVal a1) :=
    slice_greater_than_spec a1 a0 (by omega) ha1k ha0k
  have hgb : slice_greater_than b1 b0 = decide (limbsVal b0 < limbsVal b1) :=
    slice_greater_than_spec b1 b0 (by omega) hb1k hb0k
  obtain ⟨n1, n2, n3⟩ := bigAdd_spec z0 z2 (by omega) hz0k hz2k
  have hn1len : (bigAdd z0 z2).1.length = 2 * half := by rw [n1, hz0len]
  have hmbound : limbsVal a0 * limbsVal b1 + limbsVal a1 * limbsVal b0 <
      2 * U64LIMIT ^ (2 * half) := by
    have hva0 : limbsVal a0 < U64LIMIT ^ half := by
      have := limbsVal_lt a0 ha0k; rwa [ha0] at this
    have hva1 : limbsVal a1 < U64LIMIT ^ half := by
      have := limbsVal_lt a1 ha1k; rwa [ha1] at this
    have hvb0 : limbsVal b0 < U64LIMIT ^ half := by
      have := limbsVal_lt b0 hb0k; rwa [hb0] at this
    have hvb1 : limbsVal b1 < U64LIMIT ^ half := by
      have := limbsVal_lt b1 hb1k; rwa [hb1] at this
    have hp1 : limbsVal a0 * limbsVal b1 < U64LIMIT ^ half * U64LIMIT ^ half :=
      Nat.mul_lt_mul'' hva0 hvb1
    have hp2 : limbsVal a1 * limbsVal b0 < U64LIMIT ^ half * U64LIMIT ^ half :=
      Nat.mul_lt_mul'' hva1 hvb0
    have hexp : U64LIMIT ^ half * U64LIMIT ^ half = U64LIMIT ^ (2 * half) := by
      rw [← pow_add]
      congr 1
      omega
    omega
  by_cases hca : limbsVal a0 < limbsVal a1 <;> by_cases hcb : limbsVal b0 < limbsVal b1
  · -- both low halves larger: signs equal, subtract
    have e1 : slice_greater_than a1 a0 = true := by
      rw [hga]; exact decide_eq_true hca
    have e2 : slice_greater_than b1 b0 = true := by
      rw [hgb]; exact decide_eq_true hcb
    have hu : karatsuba_z1 f a0 a1 b0 b1 z0 z2 =
        ((bigSub (bigAdd z0 z2).1 (f (bigSub a1 a0).1 (bigSub b1 b0).1)).1,
         if (bigSub (bigAdd z0 z2).1 (f (bigSub a1 a0).1 (bigSub b1 b0).1)).2
         then !(bigAdd z0 z2).2 else (bigAdd z0 z2).2) := by
      simp [karatsuba_z1, e1, e2]
    obtain ⟨da1, da2, da3⟩ := bigSub_spec a1 a0 (by omega) ha1k ha0k
    obtain ⟨db1, db2, db3⟩ := bigSub_spec b1 b0 (by omega) hb1k hb0k
    have hdab : (bigSub a1 a0).2 = false := by
      rw [bigSub_borrow a1 a0 (by omega) ha1k ha0k]
      simp
      omega
    have hdbb : (bigSub b1 b0).2 = false := by
      rw [bigSub_borrow b1 b0 (by omega) hb1k hb0k]
      simp
      omega
    rw [hdab] at da3
    rw [hdbb] at db3
    simp only [bitN, Bool.false_eq_true, if_false, Nat.mul_zero, Nat.add_zero] at da3 db3
    obtain ⟨p1, p2, p3⟩ := hf (bigSub a1 a0).1 (bigSub b1 b0).1
      (by rw [da1, ha1]) (by rw [db1, hb1]) da2 db2
    have hsum : limbsVal a0 * limbsVal b1 + limbsVal a1 * limbsVal b0 +
        limbsVal (f (bigSub a1 a0).1 (bigSub b1 b0).1) =
        limbsVal (bigAdd z0 z2).1 +
          U64LIMIT ^ (2 * half) * bitN (bigAdd z0 z2).2 := by
      rw [p3]
      have hz0l : limbsVal z0 + limbsVal z2 = limbsVal (bigAdd z0 z2).1 +
          U64LIMIT ^ (2 * half) * bitN (bigAdd z0 z2).2 := by
        rw [← n3, hz0len]
      rw [← hz0l, hz0v, hz2v, ← da3, ← db3]
      ring
    obtain ⟨q1, q2, q3⟩ := z1_sub_case (bigAdd z0 z2).1
      (f (bigSub a1 a0).1 (bigSub b1 b0).1) (bigAdd z0 z2).2
      (limbsVal a0 * limbsVal b1 + limbsVal a1 * limbsVal b0)
      (by rw [p1, hn1len]) n2 p2 (by rw [hn1len]; omega)
    rw [hu]
    rw [hn1len] at q1 q3
    exact ⟨q1, q2, q3⟩
  · -- a-low larger, b-high larger or equal: signs differ, add
    have e1 : slice_greater_than a1 a0 = true := by
      rw [hga]; exact decide_eq_true hca
    have e2 : slice_greater_than b1 b0 = false := by
      rw [hgb]; exact decide_eq_false hcb
    have hu : karatsuba_z1 f a0 a1 b0 b1 z0 z2 =
        ((bigAdd (bigAdd z0 z2).1 (f (bigSub a1 a0).1 (bigSub b0 b1).1)).1,
         if (bigAdd (bigAdd z0 z2).1 (f (bigSub a1 a0).1 (bigSub b0 b1).1)).2
         then true else (bigAdd z0 z2).2) := by
      simp [karatsuba_z1, e1, e2]
    obtain ⟨da1, da2, da3⟩ := bigSub_spec a1 a0 (by omega) ha1k ha0k
    obtain ⟨db1, db2, db3⟩ := bigSub_spec b0 b1 (by omega) hb0k hb1k
    have hdab : (bigSub a1 a0).2 = false := by
      rw [bigSub_borrow a1 a0 (by omega) ha1k ha0k]
      simp
      omega
    have hdbb : (bigSub b0 b1).2 = false := by
      rw [bigSub_borrow b0 b1 (by omega) hb0k hb1k]
      simp
      omega
    rw [hdab] at da3
    rw [hdbb] at db3
    simp only [bitN, Bool.false_eq_true, if_false, Nat.mul_zero, Nat.add_zero] at da3 db3
    obtain ⟨p1, p2, p3⟩ := hf (bigSub a1 a0).1 (bigSub b0 b1).1
      (by rw [da1, ha1]) (by rw [db1, hb0]) da2 db2
    have hsum : limbsVal a0 * limbsVal b1 + limbsVal a1 * limbsVal b0 =
        limbsVal (bigAdd z0 z2).1 +
          U64LIMIT ^ (2 * half) * bitN (bigAdd z0 z2).2 +
          limbsVal (f (bigSub a1 a0).1 (bigSub b0 b1).1) := by
      rw [p3]
      have hz0l : limbsVal z0 + limbsVal z2 = limbsVal (bigAdd z0 z2).1 +
          U64LIMIT ^ (2 * half) * bitN (bigAdd z0 z2).2 := by
        rw [← n3, hz0len]
      rw [← hz0l, hz0v, hz2v, ← da3, ← db3]
      ring
    obtain ⟨q1, q2, q3⟩ := z1_add_case (bigAdd z0 z2).1
      (f (bigSub a1 a0).1 (bigSub b0 b1).1) (bigAdd z0 z2).2
      (limbsVal a0 * limbsVal b1 + limbsVal a1 * limbsVal b0)
      (by rw [p1, hn1len]) n2 p2 (by rw [hn1len]; omega)
      (by rw [hn1len]; omega)
    rw [hu]
    rw [hn1len] at q1 q3
    exact ⟨q1, q2, q3⟩
  · -- a-high larger or equal, b-low larger: signs differ, add
    have e1 : slice_greater_than a1 a0 = false := by
      rw [hga]; exact decide_eq_false hca
    have e2 : slice_greater_than b1 b0 = true := by
      rw [hgb]; exact decide_eq_true hcb
    have hu : karatsuba_z1 f a0 a1 b0 b1 z0 z2 =
        ((bigAdd (bigAdd z0 z2).1 (f (bigSub a0 a1).1 (bigSub b1 b0).1)).1,
         if (bigAdd (bigAdd z0 z2).1 (f (bigSub a0 a1).1 (bigSub b1 b0).1)).2
         then true else (bigAdd z0 z2).2) := by
      simp [karatsuba_z1, e1, e2]
    obtain ⟨da1, da2, da3⟩ := bigSub_spec a0 a1 (by omega) ha0k ha1k
    obtain ⟨db1, db2, db3⟩ := bigSub_spec b1 b0 (by omega) hb1k hb0k
    have hdab : (bigSub a0 a1).2 = false := by
      rw [bigSub_borrow a0 a1 (by omega) ha0k ha1k]
      simp
      omega
    have hdbb : (bigSub b1 b0).2 = false := by
      rw [bigSub_borrow b1 b0 (by omega) hb1k hb0k]
      simp
      omega
    rw [hdab] at da3
    rw [hdbb] at db3
    simp only [bitN, Bool.false_eq_true, if_false, Nat.mul_zero, Nat.add_zero] at da3 db3
    obtain ⟨p1, p2, p3⟩ := hf (bigSub a0 a1).1 (bigSub b1 b0).1
      (by rw [da1, ha0]) (by rw [db1, hb1]) da2 db2
    have hsum : limbsVal a0 * limbsVal b1 + limbsVal a1 * limbsVal b0 =
        limbsVal (bigAdd z0 z2).1 +
          U64LIMIT ^ (2 * half) * bitN (bigAdd z0 z2).2 +
          limbsVal (f (bigSub a0 a1).1 (bigSub b1 b0).1) := by
      rw [p3]
      have hz0l : limbsVal z0 + limbsVal z2 = limbsVal (bigAdd z0 z2).1 +
          U64LIMIT ^ (2 * half) * bitN (bigAdd z0 z2).2 := by
        rw [← n3, hz0len]
      rw [← hz0l, hz0v, hz2v, ← da3, ← db3]
      ring
    obtain ⟨q1, q2, q3⟩ := z1_add_case (bigAdd z0 z2).1
      (f (bigSub a0 a1).1 (bigSub b1 b0).1) (bigAdd z0 z2).2
      (limbsVal a0 * limbsVal b1 + limbsVal a1 * limbsVal b0)
      (by rw [p1, hn1len]) n2 p2 (by rw [hn1len]; omega)
      (by rw [hn1len]; omega)
    rw [hu]
    rw [hn1len] at q1 q3
    exact ⟨q1, q2, q3⟩
  · -- both high halves larger or equal: signs equal, subtract
    have e1 : slice_greater_than a1 a0 = false := by
      rw [hga]; exact decide_eq_false hca
    have e2 : slice_greater_than b1 b0 = false := by
      rw [hgb]; exact decide_eq_false hcb
    have hu : karatsuba_z1 f a0 a1 b0 b1 z0 z2 =
        ((bigSub (bigAdd z0 z2).1 (f (bigSub a0 a1).1 (bigSub b0 b1).1)).1,
         if (bigSub (bigAdd z0 z2).1 (f (bigSub a0 a1).1 (bigSub b0 b1).1)).2
         then !(bigAdd z0 z2).2 else (bigAdd z0 z2).2) := by
      simp [karatsuba_z1, e1, e2]
    obtain ⟨da1, da2, da3⟩ := bigSub_spec a0 a1 (by omega) ha0k ha1k
    obtain ⟨db1, db2, db3⟩ := bigSub_spec b0 b1 (by omega) hb0k hb1k
    have hdab : (bigSub a0 a1).2 = false := by
      rw [bigSub_borrow a0 a1 (by omega) ha0k ha1k]
      simp
      omega
    have hdbb : (bigSub b0 b1).2 = false := by
      rw [bigSub_borrow b0 b1 (by omega) hb0k hb1k]
      simp
      omega
    rw [hdab] at da3
    rw [hdbb] at db3
    simp only [bitN, Bool.false_eq_true, if_false, Nat.mul_zero, Nat.add_zero] at da3 db3
    obtain ⟨p1, p2, p3⟩ := hf (bigSub a0 a1).1 (bigSub b0 b1).1
      (by rw [da1, ha0]) (by rw [db1, hb0]) da2 db2
    have hsum : limbsVal a0 * limbsVal b1 + limbsVal a1 * limbsVal b0 +
        limbsVal (f (bigSub a0 a1).1 (bigSub b0 b1).1) =
        limbsVal (bigAdd z0 z2).1 +
          U64LIMIT ^ (2 * half) * bitN (bigAdd z0 z2).2 := by
      rw [p3]
      have hz0l : limbsVal z0 + limbsVal z2 = limbsVal (bigAdd z0 z2).1 +
          U64LIMIT ^ (2 * half) * bitN (bigAdd z0 z2).2 := by
        rw [← n3, hz0len]
      rw [← hz0l, hz0v, hz2v, ← da3, ← db3]
      ring
    obtain ⟨q1, q2, q3⟩ := z1_sub_case (bigAdd z0 z2).1
      (f (bigSub a0 a1).1 (bigSub b0 b1).1) (bigAdd z0 z2).2
      (limbsVal a0 * limbsVal b1 + limbsVal a1 * limbsVal b0)
      (by rw [p1, hn1len]) n2 p2 (by rw [hn1len]; omega)
    rw [hu]
    rw [hn1len] at q1 q3
    exact ⟨q1, q2, q3⟩

theorem limbsOK_take (l : List Nat) (n : Nat) (h : limbsOK l) :
    limbsOK (l.take n) := fun x hx => h x (List.take_subset n l hx)

theorem limbsOK_drop (l : List Nat) (n : Nat) (h : limbsOK l) :
    limbsOK (l.drop n) := fun x hx => h x (List.drop_subset n l hx)

/-- Splitting a big-endian array into its first `n` limbs and the rest. -/
theorem limbsVal_take_drop (l : List Nat) (n : Nat) :
    limbsVal l = limbsVal (l.take n) * U64LIMIT ^ (l.drop n).length +
      limbsVal (l.drop n) := by
  conv_lhs => rw [← List.take_append_drop n l]
  rw [limbsVal_append]

/-- Specification of `karatsuba_assemble`. -/
theorem karatsuba_assemble_spec (half : Nat) (z0 z1 z2 : List Nat) (z1c : Bool)
    (hpos : 0 < half)
    (hz0 : z0.length = 2 * half) (hz1 : z1.length = 2 * half)
    (hz2 : z2.length = 2 * half)
    (k0 : limbsOK z0) (k1 : limbsOK z1) (k2 : limbsOK z2)
    (hlt : limbsVal z2 * U64LIMIT ^ (2 * half) +
      (limbsVal z1 + U64LIMIT ^ (2 * half) * bitN z1c) * U64LIMIT ^ half +
      limbsVal z0 < U64LIMIT ^ (4 * half)) :
    (karatsuba_assemble half z0 z1 z2 z1c).length = 4 * half ∧
    limbsOK (karatsuba_assemble half z0 z1 z2 z1c) ∧
    limbsVal (karatsuba_assemble half z0 z1 z2 z1c) =
      limbsVal z2 * U64LIMIT ^ (2 * half) +
      (limbsVal z1 + U64LIMIT ^ (2 * half) * bitN z1c) * U64LIMIT ^ half +
      limbsVal z0 := by
  -- lengths of the halves
  have ht0 : (z0.take half).length = half := by
    rw [List.length_take]; omega
  have hd0 : (z0.drop half).length = half := by
    rw [List.length_drop]; omega
  have ht1 : (z1.take half).length = half := by
    rw [List.length_take]; omega
  have hd1 : (z1.drop half).length = half := by
    rw [List.length_drop]; omega
  have ht2 : (z2.take half).length = half := by
    rw [List.length_take]; omega
  have hd2 : (z2.drop half).length = half := by
    rw [List.length_drop]; omega
  -- value splits
  have hs0 : limbsVal z0 = limbsVal (z0.take half) * U64LIMIT ^ half +
      limbsVal (z0.drop half) := by
    have := limbsVal_take_drop z0 half
    rwa [hd0] at this
  have hs1 : limbsVal z1 = limbsVal (z1.take half) * U64LIMIT ^ half +
      limbsVal (z1.drop half) := by
    have := limbsVal_take_drop z1 half
    rwa [hd1] at this
  have hs2 : limbsVal z2 = limbsVal (z2.take half) * U64LIMIT ^ half +
      limbsVal (z2.drop half) := by
    have := limbsVal_take_drop z2 half
    rwa [hd2] at this
  -- the k addition
  obtain ⟨hk1, hk2, hk3⟩ := bigAdd_spec (z0.take half) (z1.drop half)
    (by rw [ht0, hd1]) (limbsOK_take _ _ k0) (limbsOK_drop _ _ k1)
  rw [ht0] at hk1 hk3
  -- the j0 addition
  obtain ⟨hj01, hj02, hj03⟩ := bigAdd_spec (z1.take half) (z2.drop half)
    (by rw [ht1, hd2]) (limbsOK_take _ _ k1) (limbsOK_drop _ _ k2)
  rw [ht1] at hj01 hj03
  -- name every assembled component
  set kseg := (bigAdd (z0.take half) (z1.drop half)).1 with hksegdef
  set jc := (bigAdd (z0.take half) (z1.drop half)).2 with hjcdef
  set j0 := (bigAdd (z1.take half) (z2.drop half)).1 with hj0def
  set ia := (bigAdd (z1.take half) (z2.drop half)).2 with hiadef
  set jseg := (if jc then bigAddU64 j0 1 else (j0, false)).1 with hjsegdef
  set icb := (if jc then bigAddU64 j0 1 else (j0, false)).2 with hicbdef
  set icar := bitN ia + bitN icb + bitN z1c with hicardef
  set iseg := (if icar ≠ 0 then (bigAddU64 (z2.take half) icar).1
    else z2.take half) with hisegdef
  set iov := (if icar ≠ 0 then (bigAddU64 (z2.take half) icar).2
    else false) with hiovdef
  -- the conditional j correction
  have hjspec : jseg.length = half ∧ limbsOK jseg ∧
      limbsVal jseg + U64LIMIT ^ half * bitN icb = limbsVal j0 + bitN jc := by
    rcases hjc : jc with _ | _
    · rw [hjsegdef, hicbdef, hjc]
      simp only [Bool.false_eq_true, if_false]
      exact ⟨hj01, hj02, by simp [bitN]⟩
    · rw [hjsegdef, hicbdef, hjc]
      simp only [if_true]
      obtain ⟨ha1, ha2, ha3⟩ := bigAddU64_spec j0 1 hj02 (by decide)
        (by intro hcon; rw [hcon] at hj01; simp at hj01; omega)
      rw [hj01] at ha1 ha3
      exact ⟨ha1, ha2, by rw [ha3]; simp [bitN]⟩
  obtain ⟨hjlen, hjok, hjval⟩ := hjspec
  have hicar3 : icar ≤ 3 := by
    rcases ia <;> rcases icb <;> rcases z1c <;> simp [hicardef, bitN]
  -- the top segment
  have hispec : iseg.length = half ∧ limbsOK iseg ∧
      limbsVal iseg + U64LIMIT ^ half * bitN iov =
        limbsVal (z2.take half) + icar := by
    by_cases hic : icar = 0
    · rw [hisegdef, hiovdef]
      simp only [hic, ne_eq, not_true_eq_false, if_false]
      exact ⟨ht2, limbsOK_take _ _ k2, by simp [bitN, hic]⟩
    · rw [hisegdef, hiovdef]
      simp only [ne_eq, hic, not_false_eq_true, if_true]
      obtain ⟨ha1, ha2, ha3⟩ := bigAddU64_spec (z2.take half) icar
        (limbsOK_take _ _ k2)
        (by have h3 : (3:Nat) < U64LIMIT := by simp [U64LIMIT]
            omega)
        (by intro hcon; rw [hcon] at ht2; simp at ht2; omega)
      rw [ht2] at ha1 ha3
      exact ⟨ha1, ha2, ha3⟩
  obtain ⟨hilen, hiok, hival⟩ := hispec
  -- the assembled result
  have hres : karatsuba_assemble half z0 z1 z2 z1c =
      iseg ++ jseg ++ kseg ++ z0.drop half := rfl
  -- power bookkeeping
  set Hn := U64LIMIT ^ half with hHdef
  have e2p : U64LIMIT ^ (2 * half) = Hn * Hn := by
    rw [hHdef, ← pow_add]; congr 1; omega
  have e4p : U64LIMIT ^ (4 * half) = Hn * Hn * Hn * Hn := by
    rw [hHdef, ← pow_add, ← pow_add, ← pow_add]; congr 1; omega
  -- total value identity
  have htotal : limbsVal z2 * U64LIMIT ^ (2 * half) +
      (limbsVal z1 + U64LIMIT ^ (2 * half) * bitN z1c) * U64LIMIT ^ half +
      limbsVal z0 =
      (limbsVal (z2.take half) + icar) * (Hn * Hn * Hn) +
      limbsVal jseg * (Hn * Hn) + limbsVal kseg * Hn +
      limbsVal (z0.drop half) := by
    rw [e2p]
    have h0z : (limbsVal z0 : ℤ) =
        limbsVal (z0.take half) * (Hn : ℤ) + limbsVal (z0.drop half) := by
      exact_mod_cast hs0
    have h1z : (limbsVal z1 : ℤ) =
        limbsVal (z1.take half) * (Hn : ℤ) + limbsVal (z1.drop half) := by
      exact_mod_cast hs1
    have h2z : (limbsVal z2 : ℤ) =
        limbsVal (z2.take half) * (Hn : ℤ) + limbsVal (z2.drop half) := by
      exact_mod_cast hs2
    have hkz : (limbsVal kseg : ℤ) + (Hn : ℤ) * bitN jc =
        limbsVal (z0.take half) + limbsVal (z1.drop half) := by
      exact_mod_cast hk3
    have hj0z : (limbsVal j0 : ℤ) + (Hn : ℤ) * bitN ia =
        limbsVal (z1.take half) + limbsVal (z2.drop half) := by
      exact_mod_cast hj03
    have hjz : (limbsVal jseg : ℤ) + (Hn : ℤ) * bitN icb =
        (limbsVal j0 : ℤ) + bitN jc := by
      exact_mod_cast hjval
    have hicz : (icar : ℤ) = bitN ia + bitN icb + bitN z1c := by
      exact_mod_cast hicardef
    have goalz : (limbsVal z2 : ℤ) * ((Hn : ℤ) * Hn) +
        ((limbsVal z1 : ℤ) + ((Hn : ℤ) * Hn) * bitN z1c) * Hn + limbsVal z0 =
        ((limbsVal (z2.take half) : ℤ) + icar) * ((Hn : ℤ) * Hn * Hn) +
        (limbsVal jseg : ℤ) * ((Hn : ℤ) * Hn) + (limbsVal kseg : ℤ) * Hn +
        limbsVal (z0.drop half) := by
      linear_combination ((Hn : ℤ) * Hn) * h2z + (Hn : ℤ) * h1z + h0z -
        (Hn : ℤ) * hkz - ((Hn : ℤ) * Hn) * hj0z - ((Hn : ℤ) * Hn) * hjz -
        ((Hn : ℤ) * Hn * Hn) * hicz
    exact_mod_cast goalz
  -- exclude the top overflow
  have hiov0 : bitN iov = 0 := by
    rcases hio : iov with _ | _
    · rfl
    · exfalso
      rw [hio] at hival
      simp only [bitN, if_true, Nat.mul_one] at hival
      have hge : Hn ≤ limbsVal (z2.take half) + icar := by omega
      have hbig : U64LIMIT ^ (4 * half) ≤
          (limbsVal (z2.take half) + icar) * (Hn * Hn * Hn) := by
        rw [e4p]
        calc Hn * Hn * Hn * Hn = Hn * (Hn * Hn * Hn) := by ring
          _ ≤ (limbsVal (z2.take half) + icar) * (Hn * Hn * Hn) :=
            Nat.mul_le_mul_right _ hge
      have hle : (limbsVal (z2.take half) + icar) * (Hn * Hn * Hn) ≤
          limbsVal z2 * U64LIMIT ^ (2 * half) +
          (limbsVal z1 + U64LIMIT ^ (2 * half) * bitN z1c) * U64LIMIT ^ half +
          limbsVal z0 := by
        rw [htotal]
        omega
      exact absurd (Nat.lt_of_le_of_lt (Nat.le_trans hbig hle) hlt)
        (lt_irrefl _)
  have hieqv : limbsVal iseg = limbsVal (z2.take half) + icar := by
    rw [hiov0] at hival
    omega
  refine ⟨?_, ?_, ?_⟩
  · rw [hres]
    simp only [List.length_append, hilen, hjlen, hd0]
    have : kseg.length = half := hk1
    omega
  · rw [hres]
    intro x hx
    simp only [List.mem_append] at hx
    rcases hx with ((hx | hx) | hx) | hx
    · exact hiok x hx
    · exact hjok x hx
    · exact hk2 x hx
    · exact limbsOK_drop _ _ k0 x hx
  · rw [hres, htotal, ← hieqv]
    rw [limbsVal_append, limbsVal_append, limbsVal_append]
    simp only [List.length_append, hjlen, hd0, hk1]
    rw [hHdef]
    ring

/-- One Karatsuba level preserves multiplier correctness (the generic body
of the `define_mul!` macro). -/
theorem mul_karatsuba_ok (f : List Nat → List Nat → List Nat) (half : Nat)
    (hf : SubmulOK f half) (hpos : 0 < half) :
    SubmulOK (mul_karatsuba f) (2 * half) := by
  intro a b hla hlb hka hkb
  have hdiv : a.length / 2 = half := by omega
  have hu : mul_karatsuba f a b =
      karatsuba_assemble half (f (a.drop half) (b.drop half))
        (karatsuba_z1 f (a.take half) (a.drop half) (b.take half) (b.drop half)
          (f (a.drop half) (b.drop half)) (f (a.take half) (b.take half))).1
        (f (a.take half) (b.take half))
        (karatsuba_z1 f (a.take half) (a.drop half) (b.take half) (b.drop half)
          (f (a.drop half) (b.drop half)) (f (a.take half) (b.take half))).2 := by
    unfold mul_karatsuba
    rw [hdiv]
  have hta : (a.take half).length = half := by rw [List.length_take]; omega
  have hda : (a.drop half).length = half := by rw [List.length_drop]; omega
  have htb : (b.take half).length = half := by rw [List.length_take]; omega
  have hdb : (b.drop half).length = half := by rw [List.length_drop]; omega
  obtain ⟨z21, z22, z23⟩ := hf (a.take half) (b.take half) hta htb
    (limbsOK_take _ _ hka) (limbsOK_take _ _ hkb)
  obtain ⟨z01, z02, z03⟩ := hf (a.drop half) (b.drop half) hda hdb
    (limbsOK_drop _ _ hka) (limbsOK_drop _ _ hkb)
  obtain ⟨m1, m2, m3⟩ := karatsuba_z1_spec f half hf (a.take half) (a.drop half)
    (b.take half) (b.drop half) (f (a.drop half) (b.drop half))
    (f (a.take half) (b.take half)) hta hda htb hdb
    (limbsOK_take _ _ hka) (limbsOK_drop _ _ hka)
    (limbsOK_take _ _ hkb) (limbsOK_drop _ _ hkb)
    z01 z21 z02 z22 z03 z23
  -- the total is the full product
  have hsa : limbsVal a = limbsVal (a.take half) * U64LIMIT ^ half +
      limbsVal (a.drop half) := by
    have := limbsVal_take_drop a half
    rwa [hda] at this
  have hsb : limbsVal b = limbsVal (b.take half) * U64LIMIT ^ half +
      limbsVal (b.drop half) := by
    have := limbsVal_take_drop b half
    rwa [hdb] at this
  have htot : limbsVal (f (a.take half) (b.take half)) * U64LIMIT ^ (2 * half) +
      (limbsVal (karatsuba_z1 f (a.take half) (a.drop half) (b.take half)
          (b.drop half) (f (a.drop half) (b.drop half))
          (f (a.take half) (b.take half))).1 +
        U64LIMIT ^ (2 * half) * bitN (karatsuba_z1 f (a.take half) (a.drop half)
          (b.take half) (b.drop half) (f (a.drop half) (b.drop half))
          (f (a.take half) (b.take half))).2) * U64LIMIT ^ half +
      limbsVal (f (a.drop half) (b.drop half)) =
      limbsVal a * limbsVal b := by
    rw [m3, z23, z03, hsa, hsb]
    have e2p : U64LIMIT ^ (2 * half) = U64LIMIT ^ half * U64LIMIT ^ half := by
      rw [← pow_add]; congr 1; omega
    rw [e2p]
    ring
  have hprodlt : limbsVal a * limbsVal b < U64LIMIT ^ (4 * half) := by
    have hva : limbsVal a < U64LIMIT ^ (2 * half) := by
      have := limbsVal_lt a hka
      rwa [hla] at this
    have hvb : limbsVal b < U64LIMIT ^ (2 * half) := by
      have := limbsVal_lt b hkb
      rwa [hlb] at this
    have := Nat.mul_lt_mul'' hva hvb
    have e4p : U64LIMIT ^ (2 * half) * U64LIMIT ^ (2 * half) =
        U64LIMIT ^ (4 * half) := by
      rw [← pow_add]; congr 1; omega
    rwa [e4p] at this
  obtain ⟨g1, g2, g3⟩ := karatsuba_assemble_spec half
    (f (a.drop half) (b.drop half))
    (karatsuba_z1 f (a.take half) (a.drop half) (b.take half) (b.drop half)
      (f (a.drop half) (b.drop half)) (f (a.take half) (b.take half))).1
    (f (a.take half) (b.take half))
    (karatsuba_z1 f (a.take half) (a.drop half) (b.take half) (b.drop half)
      (f (a.drop half) (b.drop half)) (f (a.take half) (b.take half))).2
    hpos z01 m1 z21 z02 m2 z22 (by rw [htot]; exact hprodlt)
  rw [hu]
  refine ⟨by rw [g1]; omega, g2, by rw [g3, htot]⟩

/-- The 2-limb base multiplier satisfies the correctness predicate. -/
theorem mul_2_ok : SubmulOK mul_2 2 := by
  intro a b hla hlb hka hkb
  rcases a with _ | ⟨a0, _ | ⟨a1, _ | ⟨x, t⟩⟩⟩ <;> simp at hla
  rcases b with _ | ⟨b0, _ | ⟨b1, _ | ⟨y, u⟩⟩⟩ <;> simp at hlb
  exact mul_2_spec a0 a1 b0 b1 (hka a0 (by simp)) (hka a1 (by simp))
    (hkb b0 (by simp)) (hkb b1 (by simp))

/-- The 3-limb base multiplier satisfies the correctness predicate. -/
theorem mul_3_ok : SubmulOK mul_3 3 := by
  intro a b hla hlb hka hkb
  rcases a with _ | ⟨a0, _ | ⟨a1, _ | ⟨a2, _ | ⟨x, t⟩⟩⟩⟩ <;> simp at hla
  rcases b with _ | ⟨b0, _ | ⟨b1, _ | ⟨b2, _ | ⟨y, u⟩⟩⟩⟩ <;> simp at hlb
  exact mul_3_spec a0 a1 a2 b0 b1 b2 (hka a0 (by simp)) (hka a1 (by simp))
    (hka a2 (by simp)) (hkb b0 (by simp)) (hkb b1 (by simp)) (hkb b2 (by simp))

theorem mul_4_ok : SubmulOK mul_4 4 := by
  have := mul_karatsuba_ok mul_2 2 mul_2_ok (by decide)
  simpa [mul_4] using this

theorem mul_6_ok : SubmulOK mul_6 6 := by
  have := mul_karatsuba_ok mul_3 3 mul_3_ok (by decide)
  simpa [mul_6] using this

theorem mul_8_ok : SubmulOK mul_8 8 := by
  have := mul_karatsuba_ok mul_4 4 mul_4_ok (by decide)
  simpa [mul_8] using this

theorem mul_16_ok : SubmulOK mul_16 16 := by
  have := mul_karatsuba_ok mul_8 8 mul_8_ok (by decide)
  simpa [mul_16] using this

theorem mul_32_ok : SubmulOK mul_32 32 := by
  have := mul_karatsuba_ok mul_16 16 mul_16_ok (by decide)
  simpa [mul_32] using this

theorem mul_64_ok : SubmulOK mul_64 64 := by
  have := mul_karatsuba_ok mul_32 32 mul_32_ok (by decide)
  simpa [mul_64] using this

/-- C2: for every width `N` in `{2, 3, 4, 6, 8, 16, 32, 64}` and all
`N`-limb big-endian operands `a` and `b`, `mul_N(a, b)` returns exactly the
`2N`-limb big-endian representation of the integer product `a·b`
(`SubmulOK f N` states: for all wellformed `N`-limb inputs the output has
`2N` limbs, every output limb is a valid `u64`, and the big-endian value of
the output equals the product of the input values — the one-level Karatsuba
recursion and the grade-school base cases `mul_2`/`mul_3` are exact with
all carries propagated). -/
theorem c2_mul_N_exact :
    SubmulOK mul_2 2 ∧ SubmulOK mul_3 3 ∧ SubmulOK mul_4 4 ∧
    SubmulOK mul_6 6 ∧ SubmulOK mul_8 8 ∧ SubmulOK mul_16 16 ∧
    SubmulOK mul_32 32 ∧ SubmulOK mul_64 64 :=
  ⟨mul_2_ok, mul_3_ok, mul_4_ok, mul_6_ok, mul_8_ok, mul_16_ok,
   mul_32_ok, mul_64_ok⟩

/-- Witness for C2: the multiplication theorems applied at concrete
inputs. -/
theorem c2_mul_N_exact_witness :
    limbsVal (mul_2 [1, 2] [3, 4]) = limbsVal [1, 2] * limbsVal [3, 4] ∧
    limbsVal (mul_4 [1, 2, 3, 4] [5, 6, 7, 8]) =
      limbsVal [1, 2, 3, 4] * limbsVal [5, 6, 7, 8] ∧
    limbsVal (mul_6 [1, 2, 3, 4, 5, 6] [7, 8, 9, 10, 11, 12]) =
      limbsVal [1, 2, 3, 4, 5, 6] * limbsVal [7, 8, 9, 10, 11, 12] :=
  ⟨(c2_mul_N_exact.1 [1, 2] [3, 4] rfl rfl (by decide) (by decide)).2.2,
   (c2_mul_N_exact.2.2.1 [1, 2, 3, 4] [5, 6, 7, 8] rfl rfl (by decide)
     (by decide)).2.2,
   (c2_mul_N_exact.2.2.2.1 [1, 2, 3, 4, 5, 6] [7, 8, 9, 10, 11, 12] rfl rfl
     (by decide) (by decide)).2.2⟩

-- ## Division with remainder (the `define_div_rem!` macro)

/-- OR-ing 1 into an even number sets its lowest bit. -/
theorem lor_one_of_even (m : Nat) : 2 * m ||| 1 = 2 * m + 1 := by
  have h1 : (2 * m) = Nat.bit false m := by simp [Nat.bit_val]
  have h2 : (1 : Nat) = Nat.bit true 0 := by simp [Nat.bit_val]
  rw [h1, h2, Nat.lor_bit]
  simp [Nat.bit_val]

/-- Model of `quot[$len - 1] |= 1`: OR the least significant limb with 1. -/
def setLowBit (quot : List Nat) : List Nat :=
  match quot.reverse with
  | [] => quot
  | x :: rest => ((x ||| 1) :: rest).reverse

/-- The doubling loop of `define_div_rem!`: store successive doublings of
the divisor while the dividend is strictly greater, stopping after a
doubling overflows.  The structural fuel only bounds the loop; `64·N`
steps always suffice (see `buildPow2s_spec`). -/
def buildPow2s (fuel : Nat) (a b_pow : List Nat) : List (List Nat) :=
  match fuel with
  | 0 => []
  | fuel + 1 =>
    if slice_greater_than a b_pow then
      let d := bigDouble b_pow
      if d.2 then [b_pow] else b_pow :: buildPow2s fuel a d.1
    else []

/-- The subtraction loop of `define_div_rem!`, iterating over the stored
doublings from the largest down: double the quotient, and where the
doubling fits into the running remainder subtract it and set the low
quotient bit. -/
def divRemLoop : List (List Nat) → List Nat → List Nat → List Nat × List Nat
  | [], quot, rem => (quot, rem)
  | bp :: rest, quot, rem =>
    let quot2 := (bigDouble quot).1
    if slice_greater_than rem bp then
      divRemLoop rest (setLowBit quot2) (bigSub rem bp).1
    else
      divRemLoop rest quot2 rem

/-- Model of the `define_div_rem!` macro: binary long division.  Fails iff
the divisor is zero.  The storage of the doublings (stack array for the
small widths, heap vector for `div_rem_64`) is a `List` here; the final
check turns a remainder equal to the divisor into an incremented quotient
and a zero remainder. -/
def div_rem (a b : List Nat) : Except Unit (List Nat × List Nat) :=
  if slice_equal b (List.replicate b.length 0) then Except.error ()
  else
    let pow2s := buildPow2s (64 * a.length) a b
    let qr := divRemLoop pow2s.reverse (List.replicate a.length 0) a
    if slice_equal qr.2 b then
      Except.ok ((bigAddU64 qr.1 1).1, List.replicate a.length 0)
    else Except.ok (qr.1, qr.2)

/-- Model of `div_rem_4` (4 limbs, stack storage). -/
def div_rem_4 (a b : List Nat) : Except Unit (List Nat × List Nat) := div_rem a b

/-- Model of `div_rem_6` (6 limbs, stack storage). -/
def div_rem_6 (a b : List Nat) : Except Unit (List Nat × List Nat) := div_rem a b

/-- Model of `div_rem_64` (64 limbs, heap storage). -/
def div_rem_64 (a b : List Nat) : Except Unit (List Nat × List Nat) := div_rem a b

/-- Setting the low bit of a nonempty wellformed even-valued limb array
adds one to its value. -/
theorem setLowBit_spec (q : List Nat) (hq : limbsOK q) (hne : q ≠ [])
    (heven : limbsVal q % 2 = 0) :
    (setLowBit q).length = q.length ∧ limbsOK (setLowBit q) ∧
    limbsVal (setLowBit q) = limbsVal q + 1 := by
  obtain ⟨x, rest, hx⟩ : ∃ x rest, q.reverse = x :: rest := by
    cases hqr : q.reverse with
    | nil => exact absurd (by simpa using congrArg List.reverse hqr) hne
    | cons x rest => exact ⟨x, rest, rfl⟩
  have hval : limbsVal q = x + U64LIMIT * valLE rest := by
    rw [limbsVal, hx, valLE]
  have hxlt : x < U64LIMIT := by
    apply hq
    have : x ∈ q.reverse := by rw [hx]; exact List.mem_cons_self _ _
    simpa using this
  have hU : U64LIMIT = 2 * 2 ^ 63 := by norm_num [U64LIMIT]
  have hxeven : x % 2 = 0 := by rw [hU] at hval; omega
  have hor : x ||| 1 = x + 1 := by
    obtain ⟨m, hm⟩ : ∃ m, x = 2 * m := ⟨x / 2, by omega⟩
    rw [hm]; exact lor_one_of_even m
  have hset : setLowBit q = ((x ||| 1) :: rest).reverse := by
    rw [setLowBit, hx]
  have hqlen : q.length = rest.length + 1 := by
    have := congrArg List.length hx
    simpa using this
  refine ⟨?_, ?_, ?_⟩
  · rw [hset]; simp [hqlen]
  · intro y hy
    rw [hset] at hy
    simp only [List.mem_reverse, List.mem_cons] at hy
    rcases hy with h | h
    · subst h; omega
    · apply hq
      have : y ∈ q.reverse := by rw [hx]; exact List.mem_cons_of_mem _ h
      simpa using this
  · have : (setLowBit q).reverse = (x ||| 1) :: rest := by
      rw [hset, List.reverse_reverse]
    rw [limbsVal, this, valLE, hor, hval]
    ring

/-- The shape of the stored divisor doublings once reversed (largest
first): `k` wellformed `N`-limb arrays of values `bv·2^(k-1), …, bv·2^0`. -/
def chainOK (N bv : Nat) : List (List Nat) → Prop
  | [] => True
  | e :: rest => e.length = N ∧ limbsOK e ∧
      limbsVal e = bv * 2 ^ rest.length ∧ chainOK N bv rest

/-- Appending a smallest element to a doubled chain extends the chain. -/
theorem chainOK_append (N bv : Nat) (e : List Nat) (heN : e.length = N)
    (heOK : limbsOK e) (hev : limbsVal e = bv) :
    ∀ l, chainOK N (2 * bv) l → chainOK N bv (l ++ [e]) := by
  intro l
  induction l with
  | nil => intro _; exact ⟨heN, heOK, by simpa using hev, trivial⟩
  | cons x rest ih =>
    rintro ⟨hxN, hxOK, hxv, hrest⟩
    refine ⟨hxN, hxOK, ?_, ih hrest⟩
    rw [hxv]; simp [pow_succ]; ring

/-- Characterization of the doubling loop: with sufficient fuel it stores
(read in reverse, largest first) a chain of doublings of the divisor, and
enough of them that the dividend no longer strictly exceeds the last
doubled value. -/
theorem buildPow2s_spec (a : List Nat) (ha : limbsOK a) :
    ∀ (fuel : Nat) (bp : List Nat), limbsOK bp → bp.length = a.length →
      0 < limbsVal bp →
      U64LIMIT ^ a.length ≤ limbsVal bp * 2 ^ fuel →
      chainOK a.length (limbsVal bp) (buildPow2s fuel a bp).reverse ∧
      limbsVal a ≤ limbsVal bp * 2 ^ (buildPow2s fuel a bp).length := by
  intro fuel
  induction fuel with
  | zero =>
    intro bp hbpOK hbplen _ hfuel
    have := limbsVal_lt bp hbpOK
    rw [hbplen] at this
    simp only [pow_zero, Nat.mul_one] at hfuel
    omega
  | succ fuel ih =>
    intro bp hbpOK hbplen hbppos hfuel
    have hstep : buildPow2s (fuel + 1) a bp =
        (if slice_greater_than a bp then
          (if (bigDouble bp).2 then [bp]
           else bp :: buildPow2s fuel a (bigDouble bp).1)
         else []) := rfl
    have hav := limbsVal_lt a ha
    by_cases hgt : slice_greater_than a bp
    · have hgtv : limbsVal bp < limbsVal a := by
        have hsp := slice_greater_than_spec a bp hbplen.symm ha hbpOK
        rw [hsp] at hgt
        exact of_decide_eq_true hgt
      obtain ⟨hd1, hd2, hd3⟩ := bigDouble_spec bp hbpOK
      by_cases hov : (bigDouble bp).2
      · have hres : buildPow2s (fuel + 1) a bp = [bp] := by
          rw [hstep, if_pos hgt, if_pos hov]
        rw [hres]
        have hbig : U64LIMIT ^ bp.length ≤ 2 * limbsVal bp := by
          rw [hov] at hd3
          simp [bitN] at hd3
          omega
        refine ⟨⟨hbplen, hbpOK, by simp, trivial⟩, ?_⟩
        rw [hbplen] at hbig
        simp only [List.length_cons, List.length_nil]
        calc limbsVal a ≤ U64LIMIT ^ a.length := le_of_lt hav
          _ ≤ 2 * limbsVal bp := hbig
          _ = limbsVal bp * 2 ^ (0 + 1) := by ring
      · have hres : buildPow2s (fuel + 1) a bp =
            bp :: buildPow2s fuel a (bigDouble bp).1 := by
          rw [hstep, if_pos hgt, if_neg hov]
        have hovf : (bigDouble bp).2 = false := by
          simpa using hov
        have hdval : limbsVal (bigDouble bp).1 = 2 * limbsVal bp := by
          rw [hovf] at hd3
          simp [bitN] at hd3
          omega
        obtain ⟨hchain, hbound⟩ := ih (bigDouble bp).1 hd2
          (hd1.trans hbplen) (by omega)
          (by rw [hdval]
              calc U64LIMIT ^ a.length ≤ limbsVal bp * 2 ^ (fuel + 1) := hfuel
                _ = 2 * limbsVal bp * 2 ^ fuel := by ring)
        rw [hdval] at hchain hbound
        rw [hres]
        constructor
        · rw [List.reverse_cons]
          exact chainOK_append a.length (limbsVal bp) bp hbplen hbpOK rfl _ hchain
        · simp only [List.length_cons]
          calc limbsVal a
              ≤ 2 * limbsVal bp * 2 ^ (buildPow2s fuel a (bigDouble bp).1).length :=
                hbound
            _ = limbsVal bp * 2 ^ ((buildPow2s fuel a (bigDouble bp).1).length + 1) := by
                ring
    · have hres : buildPow2s (fuel + 1) a bp = [] := by
        rw [hstep, if_neg hgt]
      have hlev : limbsVal a ≤ limbsVal bp := by
        have hsp := slice_greater_than_spec a bp hbplen.symm ha hbpOK
        have hf : slice_greater_than a bp = false := by
          simpa using hgt
        rw [hf] at hsp
        have := of_decide_eq_false hsp.symm
        omega
      rw [hres]
      exact ⟨trivial, by simpa using hlev⟩


/-- Invariant of the subtraction loop: processing a descending chain of `k`
doublings turns a quotient/remainder pair satisfying
`q·(bv·2^k) + r = a` with `r ≤ bv·2^k` into one satisfying
`q·bv + r = a` with `r ≤ bv`, never overflowing the quotient. -/
theorem divRemLoop_spec (N bv : Nat) (hbv : 0 < bv) :
    ∀ (l : List (List Nat)) (quot rem : List Nat),
      chainOK N bv l →
      quot.length = N → limbsOK quot → rem.length = N → limbsOK rem →
      limbsVal rem ≤ bv * 2 ^ l.length →
      limbsVal quot * (bv * 2 ^ l.length) + limbsVal rem < U64LIMIT ^ N →
      (divRemLoop l quot rem).1.length = N ∧ limbsOK (divRemLoop l quot rem).1 ∧
      (divRemLoop l quot rem).2.length = N ∧ limbsOK (divRemLoop l quot rem).2 ∧
      limbsVal (divRemLoop l quot rem).1 * bv + limbsVal (divRemLoop l quot rem).2 =
        limbsVal quot * (bv * 2 ^ l.length) + limbsVal rem ∧
      limbsVal (divRemLoop l quot rem).2 ≤ bv := by
  intro l
  induction l with
  | nil =>
    intro quot rem _ hqlen hqOK hrlen hrOK hrb _
    simp only [divRemLoop]
    refine ⟨hqlen, hqOK, hrlen, hrOK, by simp, by simpa using hrb⟩
  | cons e rest ih =>
    rintro quot rem ⟨heN, heOK, hev, hchain⟩ hqlen hqOK hrlen hrOK hrb hov
    set B := bv * 2 ^ rest.length with hB
    have hBpos : 0 < B := by
      rw [hB]; exact Nat.mul_pos hbv (by positivity)
    have h2B : bv * 2 ^ (e :: rest).length = 2 * B := by
      rw [hB, List.length_cons]; ring
    rw [h2B] at hrb hov ⊢
    have hZ : limbsVal quot * (2 * B) = 2 * (limbsVal quot * B) := by ring
    rw [hZ] at hov ⊢
    have hqle : limbsVal quot ≤ limbsVal quot * B :=
      Nat.le_mul_of_pos_right _ hBpos
    obtain ⟨hq1, hq2, hq3⟩ := bigDouble_spec quot hqOK
    rw [hqlen] at hq3
    have hqv2 : 2 * limbsVal quot < U64LIMIT ^ N := by omega
    have hdq : limbsVal (bigDouble quot).1 = 2 * limbsVal quot := by
      cases hc : (bigDouble quot).2
      · rw [hc] at hq3; simp [bitN] at hq3; omega
      · rw [hc] at hq3; simp [bitN] at hq3; omega
    have hdlen : (bigDouble quot).1.length = N := hq1.trans hqlen
    have hN : 0 < N := by
      rcases Nat.eq_zero_or_pos N with h | h
      · have hlt := limbsVal_lt e heOK
        rw [heN, h] at hlt
        simp only [pow_zero] at hlt
        omega
      · exact h
    have hstep : divRemLoop (e :: rest) quot rem =
        (if slice_greater_than rem e then
          divRemLoop rest (setLowBit (bigDouble quot).1) (bigSub rem e).1
         else divRemLoop rest (bigDouble quot).1 rem) := rfl
    have hsp := slice_greater_than_spec rem e (hrlen.trans heN.symm) hrOK heOK
    by_cases hgt : slice_greater_than rem e
    · have hgt2 := hgt
      rw [hsp] at hgt2
      have hgtv : limbsVal e < limbsVal rem := of_decide_eq_true hgt2
      rw [hev] at hgtv
      obtain ⟨hs1, hs2, hs3⟩ := bigSub_spec rem e (hrlen.trans heN.symm) hrOK heOK
      have hsbf : (bigSub rem e).2 = false := by
        rw [bigSub_borrow rem e (hrlen.trans heN.symm) hrOK heOK]
        rw [hev]
        simp only [decide_eq_false_iff_not, Nat.not_lt]
        omega
      rw [hsbf] at hs3
      simp only [bitN, Bool.false_eq_true, if_false, Nat.mul_zero,
        Nat.add_zero] at hs3
      rw [hev] at hs3
      have hdne : (bigDouble quot).1 ≠ [] := by
        rw [← List.length_pos, hdlen]; exact hN
      obtain ⟨hsl1, hsl2, hsl3⟩ := setLowBit_spec (bigDouble quot).1 hq2 hdne
        (by rw [hdq]; omega)
      have hslv : limbsVal (setLowBit (bigDouble quot).1) =
          2 * limbsVal quot + 1 := by rw [hsl3, hdq]
      have hW : (2 * limbsVal quot + 1) * B = 2 * (limbsVal quot * B) + B := by
        ring
      obtain ⟨i1, i2, i3, i4, i5, i6⟩ := ih (setLowBit (bigDouble quot).1)
        (bigSub rem e).1 hchain (hsl1.trans hdlen) hsl2 (hs1.trans hrlen) hs2
        (by omega)
        (by rw [hslv, hW]; omega)
      rw [hstep, if_pos hgt]
      refine ⟨i1, i2, i3, i4, ?_, i6⟩
      rw [i5, hslv, hW]
      omega
    · have hf : slice_greater_than rem e = false := by
        simpa using hgt
      rw [hf] at hsp
      have hlev : limbsVal rem ≤ limbsVal e := by
        have := of_decide_eq_false hsp.symm
        omega
      rw [hev] at hlev
      have hW : 2 * limbsVal quot * B = 2 * (limbsVal quot * B) := by ring
      obtain ⟨i1, i2, i3, i4, i5, i6⟩ := ih (bigDouble quot).1 rem hchain
        hdlen hq2 hrlen hrOK hlev
        (by rw [hdq, hW]; omega)
      rw [hstep, if_neg hgt]
      refine ⟨i1, i2, i3, i4, ?_, i6⟩
      rw [i5, hdq, hW]

/-- Full correctness of `define_div_rem!`: failure exactly on a zero
divisor, and a Euclidean quotient/remainder otherwise (the `rem == b`
fixup included). -/
theorem div_rem_spec (a b : List Nat) (hlen : a.length = b.length)
    (ha : limbsOK a) (hb : limbsOK b) :
    (div_rem a b = Except.error () ↔ limbsVal b = 0) ∧
    ∀ q r, div_rem a b = Except.ok (q, r) →
      q.length = a.length ∧ limbsOK q ∧ r.length = a.length ∧ limbsOK r ∧
      limbsVal a = limbsVal q * limbsVal b + limbsVal r ∧
      limbsVal r < limbsVal b := by
  by_cases hbz : limbsVal b = 0
  · have hcond : slice_equal b (List.replicate b.length 0) = true := by
      rw [slice_equal_zero b hb]
      simpa using hbz
    have hres : div_rem a b = Except.error () := by
      rw [div_rem, if_pos hcond]
    refine ⟨by rw [hres]; simp [hbz], ?_⟩
    intro q r hqr
    rw [hres] at hqr
    exact absurd hqr (by simp)
  · have hcond : slice_equal b (List.replicate b.length 0) = false := by
      rw [slice_equal_zero b hb]
      simpa using hbz
    have hbv : 0 < limbsVal b := Nat.pos_of_ne_zero hbz
    have hNpos : 0 < a.length := by
      rcases Nat.eq_zero_or_pos a.length with h | h
      · have hlt := limbsVal_lt b hb
        rw [← hlen, h] at hlt
        simp only [pow_zero] at hlt
        omega
      · exact h
    have hNpow : U64LIMIT ^ a.length = 2 ^ (64 * a.length) :=
      (pow_mul 2 64 a.length).symm
    obtain ⟨hchain, hbound⟩ := buildPow2s_spec a ha (64 * a.length) b hb
      hlen.symm hbv
      (by rw [hNpow]
          calc 2 ^ (64 * a.length) = 1 * 2 ^ (64 * a.length) := by ring
            _ ≤ limbsVal b * 2 ^ (64 * a.length) :=
              Nat.mul_le_mul_right _ hbv)
    set qr := divRemLoop (buildPow2s (64 * a.length) a b).reverse
      (List.replicate a.length 0) a with hqrdef
    obtain ⟨j1, j2, j3, j4, j5, j6⟩ := divRemLoop_spec a.length (limbsVal b)
      hbv (buildPow2s (64 * a.length) a b).reverse (List.replicate a.length 0)
      a hchain (by simp) (limbsOK_replicate_zero _) rfl ha
      (by rw [List.length_reverse]; exact hbound)
      (by rw [limbsVal_replicate_zero]
          simpa using limbsVal_lt a ha)
    rw [limbsVal_replicate_zero] at j5
    simp only [Nat.zero_mul, Nat.zero_add] at j5
    rw [← hqrdef] at j1 j2 j3 j4 j5 j6
    have hred : div_rem a b =
        (if slice_equal qr.2 b then
           Except.ok ((bigAddU64 qr.1 1).1, List.replicate a.length 0)
         else Except.ok (qr.1, qr.2)) := by
      rw [div_rem, if_neg (by rw [hcond]; exact Bool.false_ne_true)]
    have hspq := slice_equal_spec qr.2 b (j3.trans hlen)
    by_cases heq : slice_equal qr.2 b
    · have heq2 := heq
      rw [hspq] at heq2
      have heql : qr.2 = b := of_decide_eq_true heq2
      have heqv : limbsVal qr.2 = limbsVal b := by rw [heql]
      have hne : qr.1 ≠ [] := by
        rw [← List.length_pos, j1]; exact hNpos
      obtain ⟨k1, k2, k3⟩ := bigAddU64_spec qr.1 1 j2
        (by norm_num [U64LIMIT]) hne
      rw [j1] at k3
      have hq1lt : limbsVal qr.1 + 1 ≤ limbsVal a := by
        have h1 : limbsVal qr.1 + 1 ≤ (limbsVal qr.1 + 1) * limbsVal b :=
          Nat.le_mul_of_pos_right _ hbv
        have h2 : (limbsVal qr.1 + 1) * limbsVal b =
            limbsVal qr.1 * limbsVal b + limbsVal b := by ring
        omega
      have havlt := limbsVal_lt a ha
      have hkval : limbsVal (bigAddU64 qr.1 1).1 = limbsVal qr.1 + 1 := by
        cases hc : (bigAddU64 qr.1 1).2
        · rw [hc] at k3; simp [bitN] at k3; omega
        · rw [hc] at k3; simp [bitN] at k3; omega
      have hres : div_rem a b =
          Except.ok ((bigAddU64 qr.1 1).1, List.replicate a.length 0) := by
        rw [hred, if_pos heq]
      refine ⟨by rw [hres]; simp [hbz], ?_⟩
      intro q r hqr2
      rw [hres] at hqr2
      simp only [Except.ok.injEq, Prod.mk.injEq] at hqr2
      obtain ⟨hq, hr⟩ := hqr2
      subst hq; subst hr
      refine ⟨k1.trans j1, k2, by simp, limbsOK_replicate_zero _, ?_, ?_⟩
      · rw [limbsVal_replicate_zero, hkval]
        have h2 : (limbsVal qr.1 + 1) * limbsVal b =
            limbsVal qr.1 * limbsVal b + limbsVal b := by ring
        omega
      · rw [limbsVal_replicate_zero]; exact hbv
    · have hf : slice_equal qr.2 b = false := by simpa using heq
      rw [hf] at hspq
      have hneq : qr.2 ≠ b := of_decide_eq_false hspq.symm
      have hneqv : limbsVal qr.2 ≠ limbsVal b := fun hv =>
        hneq (limbsVal_inj qr.2 b (j3.trans hlen) j4 hb hv)
      have hres : div_rem a b = Except.ok (qr.1, qr.2) := by
        rw [hred, if_neg heq]
      refine ⟨by rw [hres]; simp [hbz], ?_⟩
      intro q r hqr2
      rw [hres] at hqr2
      simp only [Except.ok.injEq, Prod.mk.injEq] at hqr2
      obtain ⟨hq, hr⟩ := hqr2
      subst hq; subst hr
      exact ⟨j1, j2, j3, j4, by omega, by omega⟩

/-- Correctness predicate for a `define_div_rem!` instance: it fails iff
the divisor is zero, and any successful result is the Euclidean
quotient/remainder pair (so on exact division the remainder is zero, not
`b`, thanks to the final fixup). -/
def DivRemOK (f : List Nat → List Nat → Except Unit (List Nat × List Nat)) :
    Prop :=
  ∀ a b : List Nat, a.length = b.length → limbsOK a → limbsOK b →
    (f a b = Except.error () ↔ limbsVal b = 0) ∧
    ∀ q r, f a b = Except.ok (q, r) →
      q.length = a.length ∧ limbsOK q ∧ r.length = a.length ∧ limbsOK r ∧
      limbsVal a = limbsVal q * limbsVal b + limbsVal r ∧
      limbsVal r < limbsVal b

/-- C3: for each provided width N, `div_rem_N(a, b)` fails if and only if
`b` is zero, and for every `b ≠ 0` it returns `Ok((q, r))` with
`a = q·b + r` and `r < b` (the remainder is reduced to zero, not left
equal to `b`, when `b` exactly divides `a`). -/
theorem c3_div_rem_euclidean :
    DivRemOK div_rem_4 ∧ DivRemOK div_rem_6 ∧ DivRemOK div_rem_64 := by
  have h : DivRemOK div_rem := by
    intro a b hlen ha hb
    exact div_rem_spec a b hlen ha hb
  exact ⟨h, h, h⟩

/-- C3 witness: `div_rem_4` divides 9 by 3 exactly, with the remainder
reduced to 0 rather than left at 3. -/
theorem c3_div_rem_euclidean_witness :
    limbsVal [0, 0, 0, 9] =
      limbsVal [0, 0, 0, 3] * limbsVal [0, 0, 0, 3] + limbsVal [0, 0, 0, 0] ∧
    limbsVal [0, 0, 0, 0] < limbsVal [0, 0, 0, 3] :=
  ⟨((c3_div_rem_euclidean.1 [0, 0, 0, 9] [0, 0, 0, 3] rfl (by decide)
      (by decide)).2 [0, 0, 0, 3] [0, 0, 0, 0] (by rfl)).2.2.2.2.1,
   ((c3_div_rem_euclidean.1 [0, 0, 0, 9] [0, 0, 0, 3] rfl (by decide)
      (by decide)).2 [0, 0, 0, 3] [0, 0, 0, 0] (by rfl)).2.2.2.2.2⟩

-- ## Modular inverse (the `define_mod_inv!` macro)

/-- The signed value of a magnitude/negative-flag pair, as tracked by
`define_mod_inv!`. -/
def sgnz (neg : Bool) (v : Nat) : ℤ := if neg then -(v : ℤ) else (v : ℤ)

/-- The extended-Euclid loop of `define_mod_inv!`, parametrized by the
width's division and multiplication helpers.  State order mirrors the
source: `s`, `old_s`, `r`, `old_r` and the two sign flags; on exit it
returns `old_r` (the GCD), `old_s` and its sign.  A division failure is
propagated (`debug_unwrap!` returns the error); fuel exhaustion also
reports an error but is proven unreachable from the entry fuel. -/
def modInvLoop (dv : List Nat → List Nat → Except Unit (List Nat × List Nat))
    (ml : List Nat → List Nat → List Nat) (N : Nat) :
    Nat → List Nat → List Nat → List Nat → List Nat → Bool → Bool →
      Except Unit (List Nat × List Nat × Bool)
  | 0, _, _, _, _, _, _ => Except.error ()
  | fuel + 1, s, old_s, r, old_r, s_neg, old_s_neg =>
    if slice_equal r (List.replicate N 0) then
      Except.ok (old_r, old_s, old_s_neg)
    else
      match dv old_r r with
      | Except.error e => Except.error e
      | Except.ok (quot, new_r) =>
        let new_sa := ml quot s
        let lowHalf := new_sa.drop N
        let p : List Nat × Bool :=
          match old_s_neg, s_neg with
          | true, true => ((bigAdd old_s lowHalf).1, true)
          | false, true => ((bigAdd old_s lowHalf).1, false)
          | true, false => ((bigAdd old_s lowHalf).1, true)
          | false, false => sub_abs old_s lowHalf
        modInvLoop dv ml N fuel p.1 s new_r r p.2 s_neg

/-- Model of the `define_mod_inv!` macro: zero guard, extended-Euclid loop
(entered with `old_s = 1`, `r = m`, `old_r = a`), GCD-is-one check on the
limbs of `old_r`, and final sign fixup `m - old_s` for a negative
coefficient. -/
def mod_inv (dv : List Nat → List Nat → Except Unit (List Nat × List Nat))
    (ml : List Nat → List Nat → List Nat) (N : Nat) (a m : List Nat) :
    Except Unit (List Nat) :=
  if slice_equal a (List.replicate N 0) || slice_equal m (List.replicate N 0)
  then Except.error ()
  else
    match modInvLoop dv ml N (limbsVal m + 1) (List.replicate N 0)
        (List.replicate (N - 1) 0 ++ [1]) m a false false with
    | Except.error e => Except.error e
    | Except.ok (old_r, old_s, old_s_neg) =>
      if !slice_equal (old_r.take (N - 1)) (List.replicate (N - 1) 0)
          || old_r.getD (N - 1) 0 != 1 then Except.error ()
      else if old_s_neg then Except.ok (sub_abs m old_s).1
      else Except.ok old_s

/-- Model of `mod_inv_4` (4 limbs, using `div_rem_4` and `mul_4`). -/
def mod_inv_4 (a m : List Nat) : Except Unit (List Nat) :=
  mod_inv div_rem_4 mul_4 4 a m

/-- Model of `mod_inv_6` (6 limbs, using `div_rem_6` and `mul_6`). -/
def mod_inv_6 (a m : List Nat) : Except Unit (List Nat) :=
  mod_inv div_rem_6 mul_6 6 a m



/-- Invariant preservation and full correctness of the extended-Euclid
loop of `define_mod_inv!`: with sufficient fuel it returns the GCD of the
original inputs in `old_r`, together with a signed Bézout coefficient for
`a` modulo `m` of magnitude at most `m`. -/
theorem modInvLoop_spec
    (dv : List Nat → List Nat → Except Unit (List Nat × List Nat))
    (ml : List Nat → List Nat → List Nat) (N : Nat)
    (hdv : DivRemOK dv) (hml : SubmulOK ml N) (hN : 0 < N)
    (av mv : Nat) (hmlt : mv < U64LIMIT ^ N) :
    ∀ (fuel : Nat) (s old_s r old_r : List Nat) (s_neg old_s_neg : Bool),
      s.length = N → old_s.length = N → r.length = N → old_r.length = N →
      limbsOK s → limbsOK old_s → limbsOK r → limbsOK old_r →
      (s_neg && old_s_neg) = false →
      (s_neg = false → old_s_neg = false →
        limbsVal s * limbsVal old_s = 0) →
      1 ≤ limbsVal old_r →
      limbsVal old_s ≤ mv →
      limbsVal s * limbsVal old_r + limbsVal old_s * limbsVal r = mv →
      Nat.gcd (limbsVal old_r) (limbsVal r) = Nat.gcd av mv →
      Int.ModEq (mv : ℤ) (sgnz s_neg (limbsVal s) * (av : ℤ))
        (limbsVal r : ℤ) →
      Int.ModEq (mv : ℤ) (sgnz old_s_neg (limbsVal old_s) * (av : ℤ))
        (limbsVal old_r : ℤ) →
      limbsVal r < fuel →
      ∃ gl sl sn, modInvLoop dv ml N fuel s old_s r old_r s_neg old_s_neg =
          Except.ok (gl, sl, sn) ∧
        gl.length = N ∧ limbsOK gl ∧ sl.length = N ∧ limbsOK sl ∧
        limbsVal gl = Nat.gcd av mv ∧
        limbsVal sl ≤ mv ∧
        Int.ModEq (mv : ℤ) (sgnz sn (limbsVal sl) * (av : ℤ))
          (limbsVal gl : ℤ) := by
  intro fuel
  induction fuel with
  | zero =>
    intro s old_s r old_r s_neg old_s_neg _ _ _ _ _ _ _ _ _ _ _ _ _ _ _ _
      hfuel
    exact absurd hfuel (Nat.not_lt_zero _)
  | succ fuel ih =>
    intro s old_s r old_r s_neg old_s_neg hs hos hr hor hsOK hosOK hrOK horOK
      hsn hff hor1 hosm hid hgcd hcs hcos hfuel
    by_cases hrz : limbsVal r = 0
    · have hc : slice_equal r (List.replicate N 0) = true := by
        rw [← hr, slice_equal_zero r hrOK]
        simpa using hrz
      have hres : modInvLoop dv ml N (fuel + 1) s old_s r old_r s_neg
          old_s_neg = Except.ok (old_r, old_s, old_s_neg) := by
        rw [modInvLoop, if_pos hc]
      refine ⟨old_r, old_s, old_s_neg, hres, hor, horOK, hos, hosOK, ?_,
        hosm, hcos⟩
      rw [hrz] at hgcd
      simpa using hgcd
    · have hc : slice_equal r (List.replicate N 0) = false := by
        rw [← hr, slice_equal_zero r hrOK]
        simpa using hrz
      have hrv1 : 1 ≤ limbsVal r := Nat.one_le_iff_ne_zero.mpr hrz
      obtain ⟨hiff, hok⟩ := hdv old_r r (hor.trans hr.symm) horOK hrOK
      cases hd : dv old_r r with
      | error e =>
        exact absurd (hiff.mp (by rw [hd])) hrz
      | ok p =>
        obtain ⟨q, nr⟩ := p
        obtain ⟨hq1, hq2, hnr1, hnr2, horv, hnrlt⟩ := hok q nr hd
        rw [hor] at hq1 hnr1
        obtain ⟨hsa1, hsa2, hsa3⟩ := hml q s hq1 hs hq2 hsOK
        have hlhlen : ((ml q s).drop N).length = N := by
          rw [List.length_drop, hsa1]
          omega
        have hlhOK : limbsOK ((ml q s).drop N) := limbsOK_drop _ _ hsa2
        have hqr_le : limbsVal q * limbsVal r ≤ limbsVal old_r := by omega
        have hsor_le : limbsVal s * limbsVal old_r ≤ mv := by omega
        have hqs_le : limbsVal q * limbsVal s ≤ mv := by
          calc limbsVal q * limbsVal s
              ≤ limbsVal q * limbsVal s * limbsVal r :=
                Nat.le_mul_of_pos_right _ hrv1
            _ = limbsVal s * (limbsVal q * limbsVal r) := by ring
            _ ≤ limbsVal s * limbsVal old_r :=
                Nat.mul_le_mul_left _ hqr_le
            _ ≤ mv := hsor_le
        have hvdrop : limbsVal ((ml q s).drop N) =
            limbsVal q * limbsVal s := by
          have htd := limbsVal_take_drop (ml q s) N
          rw [hlhlen, hsa3] at htd
          rcases Nat.eq_zero_or_pos (limbsVal ((ml q s).take N)) with h0 | h0
          · rw [h0] at htd
            omega
          · have hge : U64LIMIT ^ N ≤
                limbsVal ((ml q s).take N) * U64LIMIT ^ N :=
              Nat.le_mul_of_pos_left _ h0
            omega
        have he1 : limbsVal s * limbsVal old_r =
            limbsVal q * limbsVal s * limbsVal r +
              limbsVal s * limbsVal nr := by
          rw [horv]; ring
        have he2 : (limbsVal old_s + limbsVal q * limbsVal s) * limbsVal r =
            limbsVal old_s * limbsVal r +
              limbsVal q * limbsVal s * limbsVal r := by ring
        have hMid : (limbsVal old_s + limbsVal q * limbsVal s) * limbsVal r +
            limbsVal s * limbsVal nr = mv := by omega
        have hM_le : limbsVal old_s + limbsVal q * limbsVal s ≤ mv := by
          have h3 : limbsVal old_s + limbsVal q * limbsVal s ≤
              (limbsVal old_s + limbsVal q * limbsVal s) * limbsVal r :=
            Nat.le_mul_of_pos_right _ hrv1
          omega
        have hsv_le : limbsVal s ≤ mv := by
          have h3 : limbsVal s ≤ limbsVal s * limbsVal old_r :=
            Nat.le_mul_of_pos_right _ hor1
          omega
        obtain ⟨ha1, ha2, ha3⟩ := bigAdd_spec old_s ((ml q s).drop N)
          (hos.trans hlhlen.symm) hosOK hlhOK
        rw [hos, hvdrop] at ha3
        have haval : limbsVal (bigAdd old_s ((ml q s).drop N)).1 =
            limbsVal old_s + limbsVal q * limbsVal s := by
          cases hcb : (bigAdd old_s ((ml q s).drop N)).2
          · rw [hcb] at ha3; simp [bitN] at ha3; omega
          · rw [hcb] at ha3; simp [bitN] at ha3; omega
        have hccomb : Int.ModEq (mv : ℤ)
            ((sgnz old_s_neg (limbsVal old_s) -
              (limbsVal q : ℤ) * sgnz s_neg (limbsVal s)) * (av : ℤ))
            ((limbsVal nr : ℤ)) := by
          have hsub := Int.ModEq.sub hcos
            (Int.ModEq.mul_left (limbsVal q : ℤ) hcs)
          have hr1 : (sgnz old_s_neg (limbsVal old_s) -
              (limbsVal q : ℤ) * sgnz s_neg (limbsVal s)) * (av : ℤ) =
              sgnz old_s_neg (limbsVal old_s) * (av : ℤ) -
                (limbsVal q : ℤ) * (sgnz s_neg (limbsVal s) * (av : ℤ)) := by
            ring
          have hr2 : (limbsVal old_r : ℤ) -
              (limbsVal q : ℤ) * (limbsVal r : ℤ) = (limbsVal nr : ℤ) := by
            have h4 : (limbsVal old_r : ℤ) =
                (limbsVal q : ℤ) * (limbsVal r : ℤ) + (limbsVal nr : ℤ) := by
              exact_mod_cast horv
            rw [h4]; ring
          rw [hr1, ← hr2]
          exact hsub
        have hmodr : limbsVal old_r % limbsVal r = limbsVal nr := by
          rw [horv, Nat.add_comm, Nat.add_mul_mod_self_right]
          exact Nat.mod_eq_of_lt hnrlt
        have hgcd2 : Nat.gcd (limbsVal r) (limbsVal nr) = Nat.gcd av mv := by
          rw [← hmodr, Nat.gcd_comm, ← Nat.gcd_rec, Nat.gcd_comm]
          exact hgcd
        have hfuel2 : limbsVal nr < fuel := by omega
        cases s_neg
        · cases old_s_neg
          · have hff0 : limbsVal s * limbsVal old_s = 0 := hff rfl rfl
            have hosne : old_s ≠ [] := by
              rw [← List.length_pos, hos]; exact hN
            obtain ⟨hp1, hp2, hp3, hp4⟩ := sub_abs_spec old_s
              ((ml q s).drop N) (hos.trans hlhlen.symm) hosne hosOK hlhOK
            rw [hvdrop] at hp3 hp4
            have hpv : limbsVal (sub_abs old_s ((ml q s).drop N)).1 =
                limbsVal old_s + limbsVal q * limbsVal s := by
              rcases Nat.mul_eq_zero.mp hff0 with h0 | h0
              · rw [h0] at hp3 ⊢
                simp only [Nat.mul_zero] at hp3 ⊢
                simpa using hp3
              · rw [h0] at hp3 ⊢
                simpa using hp3
            have hagree : sgnz (sub_abs old_s ((ml q s).drop N)).2
                (limbsVal (sub_abs old_s ((ml q s).drop N)).1) =
                sgnz false (limbsVal old_s) -
                  (limbsVal q : ℤ) * sgnz false (limbsVal s) := by
              rw [hp4, hp3]
              rcases le_or_lt (limbsVal q * limbsVal s) (limbsVal old_s)
                with hle | hlt
              · rw [decide_eq_false (by omega : ¬ limbsVal old_s <
                  limbsVal q * limbsVal s)]
                simp only [sgnz, Bool.false_eq_true, if_false]
                rw [Nat.max_eq_left hle, Nat.min_eq_right hle]
                push_cast [hle]
                ring
              · rw [decide_eq_true hlt]
                simp only [sgnz, if_true]
                rw [Nat.max_eq_right (le_of_lt hlt),
                  Nat.min_eq_left (le_of_lt hlt)]
                push_cast [le_of_lt hlt]
                ring
            have hff' : (sub_abs old_s ((ml q s).drop N)).2 = false →
                false = false →
                limbsVal (sub_abs old_s ((ml q s).drop N)).1 * limbsVal s =
                  0 := by
              intro hflag _
              rcases Nat.mul_eq_zero.mp hff0 with h0 | h0
              · rw [h0, Nat.mul_zero]
              · rw [hflag] at hp4
                have hle : limbsVal q * limbsVal s ≤ limbsVal old_s := by
                  have h5 := of_decide_eq_false hp4.symm
                  omega
                rw [h0] at hle
                rw [hpv, h0]
                simp only [Nat.zero_add]
                have h6 : limbsVal q * limbsVal s = 0 := by omega
                rw [h6, Nat.zero_mul]
            obtain ⟨gl, sl, sn, hrun, w1, w2, w3, w4, w5, w6, w7⟩ :=
              ih (sub_abs old_s ((ml q s).drop N)).1 s nr r
                (sub_abs old_s ((ml q s).drop N)).2 false
                (hp1.trans hos) hs hnr1 hr hp2 hsOK hnr2 hrOK
                (by rw [Bool.and_false])
                hff' hrv1 hsv_le
                (by rw [hpv]; exact hMid)
                hgcd2
                (by rw [hagree]; exact hccomb)
                hcs
                hfuel2
            refine ⟨gl, sl, sn, ?_, w1, w2, w3, w4, w5, w6, w7⟩
            rw [modInvLoop, if_neg (by rw [hc]; exact Bool.false_ne_true),
              hd]
            exact hrun
          · obtain ⟨gl, sl, sn, hrun, w1, w2, w3, w4, w5, w6, w7⟩ :=
              ih (bigAdd old_s ((ml q s).drop N)).1 s nr r true false
                (ha1.trans hos) hs hnr1 hr ha2 hsOK hnr2 hrOK
                (by rw [Bool.and_false])
                (by intro h1 _; exact absurd h1 (by simp))
                hrv1 hsv_le
                (by rw [haval]; exact hMid)
                hgcd2
                (by
                  have hagree : sgnz true
                      (limbsVal (bigAdd old_s ((ml q s).drop N)).1) =
                      sgnz true (limbsVal old_s) -
                        (limbsVal q : ℤ) * sgnz false (limbsVal s) := by
                    rw [haval]
                    simp only [sgnz, if_true, Bool.false_eq_true, if_false]
                    push_cast
                    ring
                  rw [hagree]
                  exact hccomb)
                hcs
                hfuel2
            refine ⟨gl, sl, sn, ?_, w1, w2, w3, w4, w5, w6, w7⟩
            rw [modInvLoop, if_neg (by rw [hc]; exact Bool.false_ne_true),
              hd]
            exact hrun
        · cases old_s_neg
          · obtain ⟨gl, sl, sn, hrun, w1, w2, w3, w4, w5, w6, w7⟩ :=
              ih (bigAdd old_s ((ml q s).drop N)).1 s nr r false true
                (ha1.trans hos) hs hnr1 hr ha2 hsOK hnr2 hrOK
                (by rw [Bool.false_and])
                (by intro _ h2; exact absurd h2 (by simp))
                hrv1 hsv_le
                (by rw [haval]; exact hMid)
                hgcd2
                (by
                  have hagree : sgnz false
                      (limbsVal (bigAdd old_s ((ml q s).drop N)).1) =
                      sgnz false (limbsVal old_s) -
                        (limbsVal q : ℤ) * sgnz true (limbsVal s) := by
                    rw [haval]
                    simp only [sgnz, if_true, Bool.false_eq_true, if_false]
                    push_cast
                    ring
                  rw [hagree]
                  exact hccomb)
                hcs
                hfuel2
            refine ⟨gl, sl, sn, ?_, w1, w2, w3, w4, w5, w6, w7⟩
            rw [modInvLoop, if_neg (by rw [hc]; exact Bool.false_ne_true),
              hd]
            exact hrun
          · simp at hsn

/-- A coefficient congruent to an inverse and bounded by the modulus is the
canonical inverse: nonzero, strictly below the modulus, and exact. -/
theorem inverse_bounds (av mv x : Nat) (hm2 : 2 ≤ mv) (hle : x ≤ mv)
    (hcong : Int.ModEq (mv : ℤ) ((x : ℤ) * (av : ℤ)) 1) :
    1 ≤ x ∧ x < mv ∧ (av * x) % mv = 1 := by
  have hd : (mv : ℤ) ∣ 1 - (x : ℤ) * (av : ℤ) := Int.ModEq.dvd hcong
  have hm2z : (2 : ℤ) ≤ (mv : ℤ) := by exact_mod_cast hm2
  have hx1 : 1 ≤ x := by
    by_contra h
    have hx0 : x = 0 := by omega
    rw [hx0] at hd
    simp only [Nat.cast_zero, Int.zero_mul, sub_zero] at hd
    have h2 := Int.le_of_dvd (by norm_num) hd
    omega
  have hxm : x < mv := by
    rcases Nat.lt_or_ge x mv with h | h
    · exact h
    · exfalso
      have hxe : x = mv := by omega
      rw [hxe] at hd
      have hd2 : (mv : ℤ) ∣ ((mv : ℤ)) * (av : ℤ) := dvd_mul_right _ _
      have hd3 : (mv : ℤ) ∣ 1 := by
        have h4 := dvd_add hd hd2
        simpa using h4
      have h2 := Int.le_of_dvd (by norm_num) hd3
      omega
  refine ⟨hx1, hxm, ?_⟩
  have h1 : Int.ModEq (((mv : ℕ)) : ℤ) (((x * av : ℕ)) : ℤ)
      (((1 : ℕ)) : ℤ) := by
    push_cast
    exact hcong
  have h2 : (x * av) % mv = 1 % mv := Int.natCast_modEq_iff.mp h1
  rw [Nat.mul_comm]
  rw [h2, Nat.mod_eq_of_lt (by omega)]

/-- Correctness predicate for a `define_mod_inv!` instance. -/
def ModInvOK (N : Nat) (f : List Nat → List Nat → Except Unit (List Nat)) :
    Prop :=
  ∀ a m : List Nat, a.length = N → m.length = N → limbsOK a → limbsOK m →
    limbsVal a < limbsVal m →
    ((limbsVal a = 0 ∨ Nat.gcd (limbsVal a) (limbsVal m) ≠ 1) →
      f a m = Except.error ()) ∧
    (0 < limbsVal a → Nat.gcd (limbsVal a) (limbsVal m) = 1 →
      ∃ x, f a m = Except.ok x ∧ 1 ≤ limbsVal x ∧
        limbsVal x < limbsVal m ∧
        limbsVal a * limbsVal x % limbsVal m = 1)

/-- Full correctness of `define_mod_inv!` for any faithful division and
multiplication helpers. -/
theorem mod_inv_spec (dv : List Nat → List Nat →
      Except Unit (List Nat × List Nat))
    (ml : List Nat → List Nat → List Nat) (N : Nat)
    (hdv : DivRemOK dv) (hml : SubmulOK ml N) :
    ModInvOK N (mod_inv dv ml N) := by
  intro a m ha hm haOK hmOK ham
  have hmv : 0 < limbsVal m := by omega
  have hN : 0 < N := by
    rcases Nat.eq_zero_or_pos N with h | h
    · have hlt := limbsVal_lt m hmOK
      rw [hm, h] at hlt
      simp only [pow_zero] at hlt
      omega
    · exact h
  by_cases haz : limbsVal a = 0
  · have hg : (slice_equal a (List.replicate N 0) ||
        slice_equal m (List.replicate N 0)) = true := by
      rw [← ha, slice_equal_zero a haOK]
      simp [haz]
    have hres : mod_inv dv ml N a m = Except.error () := by
      rw [mod_inv, if_pos hg]
    exact ⟨fun _ => hres, fun h0 _ => absurd haz (by omega)⟩
  · have hga : slice_equal a (List.replicate N 0) = false := by
      rw [← ha, slice_equal_zero a haOK]
      simpa using haz
    have hgm : slice_equal m (List.replicate N 0) = false := by
      rw [← hm, slice_equal_zero m hmOK]
      simp
      omega
    have hg : (slice_equal a (List.replicate N 0) ||
        slice_equal m (List.replicate N 0)) = false := by
      rw [hga, hgm]
      rfl
    have hosl : (List.replicate (N - 1) 0 ++ [1]).length = N := by
      simp
      omega
    have hosOK : limbsOK (List.replicate (N - 1) 0 ++ [1]) := by
      intro x hx
      rcases List.mem_append.mp hx with h | h
      · rw [List.eq_of_mem_replicate h]
        norm_num [U64LIMIT]
      · simp at h
        rw [h]
        norm_num [U64LIMIT]
    have hosv : limbsVal (List.replicate (N - 1) 0 ++ [1]) = 1 := by
      rw [limbsVal_append, limbsVal_replicate_zero]
      norm_num [limbsVal, valLE]
    obtain ⟨gl, sl, sn, hrun, w1, w2, w3, w4, w5, w6, w7⟩ :=
      modInvLoop_spec dv ml N hdv hml hN (limbsVal a) (limbsVal m)
        (by rw [← hm]; exact limbsVal_lt m hmOK)
        (limbsVal m + 1) (List.replicate N 0)
        (List.replicate (N - 1) 0 ++ [1]) m a false false
        (by simp) hosl hm ha
        (limbsOK_replicate_zero _) hosOK hmOK haOK
        rfl
        (fun _ _ => by rw [limbsVal_replicate_zero, Nat.zero_mul])
        (by omega)
        (by rw [hosv]; omega)
        (by rw [limbsVal_replicate_zero, hosv]; ring)
        rfl
        (by rw [limbsVal_replicate_zero]
            have h0 : sgnz false 0 = 0 := by simp [sgnz]
            rw [h0, Int.zero_mul]
            exact (Int.modEq_zero_iff_dvd.mpr dvd_rfl).symm)
        (by rw [hosv]
            have h0 : sgnz false 1 = 1 := by simp [sgnz]
            rw [h0, Int.one_mul])
        (Nat.lt_succ_self _)
    have hred : mod_inv dv ml N a m =
        (if !slice_equal (gl.take (N - 1)) (List.replicate (N - 1) 0)
            || gl.getD (N - 1) 0 != 1 then Except.error ()
        else if sn then Except.ok (sub_abs m sl).1
        else Except.ok sl) := by
      rw [mod_inv, if_neg (by rw [hg]; exact Bool.false_ne_true), hrun]
    have htl : (gl.take (N - 1)).length = N - 1 := by
      rw [List.length_take, w1]
      omega
    have hdlen1 : (gl.drop (N - 1)).length = 1 := by
      rw [List.length_drop, w1]
      omega
    obtain ⟨x, hx⟩ := List.length_eq_one.mp hdlen1
    have htd := limbsVal_take_drop gl (N - 1)
    rw [hx] at htd
    have hlx : ([x] : List Nat).length = 1 := rfl
    have hvx : limbsVal [x] = x := by
      rw [limbsVal_cons, limbsVal_nil]
      simp
    rw [hlx, pow_one, hvx] at htd
    have hgx : gl.getD (N - 1) 0 = x := by
      conv_lhs => rw [← List.take_append_drop (N - 1) gl, hx]
      rw [List.getD_append_right _ _ _ _ (le_of_eq htl)]
      rw [htl]
      simp
    have hse := slice_equal_spec (gl.take (N - 1))
      (List.replicate (N - 1) 0) (by rw [htl]; simp)
    have hU2 : 2 ≤ U64LIMIT := by norm_num [U64LIMIT]
    by_cases hgcd1 : Nat.gcd (limbsVal a) (limbsVal m) = 1
    · have hgl1 : limbsVal gl = 1 := by rw [w5, hgcd1]
      have htake0 : limbsVal (gl.take (N - 1)) = 0 ∧ x = 1 := by
        rcases Nat.eq_zero_or_pos (limbsVal (gl.take (N - 1))) with h0 | h0
        · rw [h0] at htd
          rw [hgl1] at htd
          simp only [Nat.zero_mul, Nat.zero_add] at htd
          exact ⟨h0, htd.symm⟩
        · exfalso
          have hgeU : U64LIMIT ≤ limbsVal (gl.take (N - 1)) * U64LIMIT :=
            Nat.le_mul_of_pos_left _ h0
          rw [hgl1] at htd
          omega
      have hcheck : (!slice_equal (gl.take (N - 1))
          (List.replicate (N - 1) 0) || gl.getD (N - 1) 0 != 1) = false := by
        rw [hse, hgx, htake0.2]
        have heq : gl.take (N - 1) = List.replicate (N - 1) 0 :=
          limbsVal_inj _ _ (by rw [htl]; simp) (limbsOK_take _ _ w2)
            (limbsOK_replicate_zero _)
            (by rw [htake0.1, limbsVal_replicate_zero])
        rw [heq]
        simp
      have hm2 : 2 ≤ limbsVal m := by omega
      refine ⟨fun hcon => ?_, fun _ _ => ?_⟩
      · rcases hcon with h | h
        · exact absurd h haz
        · exact absurd hgcd1 h
      · rw [hgl1] at w7
        cases sn
        · have hres : mod_inv dv ml N a m = Except.ok sl := by
            rw [hred, hcheck]
            simp
          have hcong : Int.ModEq (limbsVal m : ℤ)
              ((limbsVal sl : ℤ) * (limbsVal a : ℤ)) 1 := by
            have h0 : sgnz false (limbsVal sl) = (limbsVal sl : ℤ) := by
              simp [sgnz]
            rw [h0] at w7
            simpa using w7
          obtain ⟨b1, b2, b3⟩ := inverse_bounds (limbsVal a) (limbsVal m)
            (limbsVal sl) hm2 w6 hcong
          exact ⟨sl, hres, b1, b2, b3⟩
        · have hmne : m ≠ [] := by
            rw [← List.length_pos, hm]
            exact hN
          obtain ⟨hq1, hq2, hq3, hq4⟩ := sub_abs_spec m sl
            (hm.trans w3.symm) hmne hmOK w4
          have hqval : limbsVal (sub_abs m sl).1 =
              limbsVal m - limbsVal sl := by
            rw [hq3, Nat.max_eq_left w6, Nat.min_eq_right w6]
          have hres : mod_inv dv ml N a m = Except.ok (sub_abs m sl).1 := by
            rw [hred, hcheck]
            simp
          have hcong : Int.ModEq (limbsVal m : ℤ)
              (((limbsVal m - limbsVal sl : ℕ) : ℤ) * (limbsVal a : ℤ))
              1 := by
            have h0 : sgnz true (limbsVal sl) = -(limbsVal sl : ℤ) := by
              simp [sgnz]
            rw [h0] at w7
            have hcast : ((limbsVal m - limbsVal sl : ℕ) : ℤ) =
                (limbsVal m : ℤ) - (limbsVal sl : ℤ) := by
              push_cast [w6]
              ring
            rw [hcast]
            have hsplit : ((limbsVal m : ℤ) - (limbsVal sl : ℤ)) *
                (limbsVal a : ℤ) =
                (limbsVal m : ℤ) * (limbsVal a : ℤ) +
                  (-(limbsVal sl : ℤ)) * (limbsVal a : ℤ) := by ring
            rw [hsplit]
            have hstep : Int.ModEq (limbsVal m : ℤ)
                ((limbsVal m : ℤ) * (limbsVal a : ℤ) +
                  (-(limbsVal sl : ℤ)) * (limbsVal a : ℤ))
                (0 + (-(limbsVal sl : ℤ)) * (limbsVal a : ℤ)) :=
              Int.ModEq.add
                (Int.modEq_zero_iff_dvd.mpr (dvd_mul_right _ _))
                (Int.ModEq.refl _)
            refine hstep.trans ?_
            rw [Int.zero_add]
            simpa using w7
          obtain ⟨b1, b2, b3⟩ := inverse_bounds (limbsVal a) (limbsVal m)
            (limbsVal m - limbsVal sl) hm2 (Nat.sub_le _ _) hcong
          exact ⟨(sub_abs m sl).1, hres, by rw [hqval]; exact b1,
            by rw [hqval]; exact b2, by rw [hqval]; exact b3⟩
    · have hcheck : (!slice_equal (gl.take (N - 1))
          (List.replicate (N - 1) 0) || gl.getD (N - 1) 0 != 1) = true := by
        rw [hse, hgx]
        by_cases he : gl.take (N - 1) = List.replicate (N - 1) 0
        · have hvt : limbsVal (gl.take (N - 1)) = 0 := by
            rw [he, limbsVal_replicate_zero]
          have hx1 : x ≠ 1 := by
            intro hx1
            rw [hvt, hx1] at htd
            simp only [Nat.zero_mul, Nat.zero_add] at htd
            exact hgcd1 (by rw [← w5, htd])
          simp [he, hx1]
        · simp [he]
      have hres : mod_inv dv ml N a m = Except.error () := by
        rw [hred, hcheck]
        rfl
      exact ⟨fun _ => hres, fun _ hg1 => absurd hg1 hgcd1⟩

/-- C4: for `N ∈ {4, 6}` and `N`-limb `a`, `m` with `a < m`:
`mod_inv_N(a, m)` returns `Ok(x)` with `1 ≤ x < m` and `(a·x) mod m = 1`
whenever `a ≠ 0` and `gcd(a, m) = 1`, and returns failure whenever
`gcd(a, m) ≠ 1` or the input is zero. -/
theorem c4_mod_inv_correct : ModInvOK 4 mod_inv_4 ∧ ModInvOK 6 mod_inv_6 := by
  constructor
  · exact mod_inv_spec div_rem_4 mul_4 4
      (fun p q hl hA hB => div_rem_spec p q hl hA hB) mul_4_ok
  · exact mod_inv_spec div_rem_6 mul_6 6
      (fun p q hl hA hB => div_rem_spec p q hl hA hB) mul_6_ok

/-- C4 witness: the inverse of 3 modulo 7 at width 4 exists, is in range
and multiplies back to 1. -/
theorem c4_mod_inv_correct_witness :
    ∃ x, mod_inv_4 [0, 0, 0, 3] [0, 0, 0, 7] = Except.ok x ∧
      1 ≤ limbsVal x ∧ limbsVal x < limbsVal [0, 0, 0, 7] ∧
      limbsVal [0, 0, 0, 3] * limbsVal x % limbsVal [0, 0, 0, 7] = 1 :=
  (c4_mod_inv_correct.1 [0, 0, 0, 3] [0, 0, 0, 7] rfl rfl (by decide)
    (by decide) (by decide)).2 (by decide)
    (by show Nat.gcd (limbsVal [0, 0, 0, 3]) (limbsVal [0, 0, 0, 7]) = 1
        norm_num [show limbsVal [0, 0, 0, 3] = 3 from rfl,
          show limbsVal [0, 0, 0, 7] = 7 from rfl])

-- ## Wire codec (`ser.rs`) and proof builder (`query.rs`)

/-- Model of `read_u8`: pop one byte, returning it and the advanced
cursor. -/
def read_u8 (inp : List Nat) : Except Unit (Nat × List Nat) :=
  match inp with
  | [] => Except.error ()
  | b :: rest => Except.ok (b, rest)

/-- Model of `read_u16` (big-endian). -/
def read_u16 (inp : List Nat) : Except Unit (Nat × List Nat) :=
  match inp with
  | b0 :: b1 :: rest => Except.ok (b0 * 256 + b1, rest)
  | _ => Except.error ()

/-- Model of `read_u32` (big-endian). -/
def read_u32 (inp : List Nat) : Except Unit (Nat × List Nat) :=
  match inp with
  | b0 :: b1 :: b2 :: b3 :: rest =>
    Except.ok (((b0 * 256 + b1) * 256 + b2) * 256 + b3, rest)
  | _ => Except.error ()

/-- Big-endian bytes of a `u16`. -/
def be16 (n : Nat) : List Nat := [n / 256 % 256, n % 256]

/-- Big-endian bytes of a `u32`. -/
def be32 (n : Nat) : List Nat :=
  [n / 16777216 % 256, n / 65536 % 256, n / 256 % 256, n % 256]

/-- Model of `core::str::from_utf8` validity on a byte sequence (the
standard UTF-8 well-formedness table: no overlongs, no surrogates, at
most U+10FFFF). -/
def utf8Valid : List Nat → Bool
  | [] => true
  | b :: rest =>
    if b < 0x80 then utf8Valid rest
    else if 0xC2 ≤ b ∧ b ≤ 0xDF then
      match rest with
      | c1 :: r => decide (0x80 ≤ c1 ∧ c1 ≤ 0xBF) && utf8Valid r
      | [] => false
    else if b = 0xE0 then
      match rest with
      | c1 :: c2 :: r =>
        decide (0xA0 ≤ c1 ∧ c1 ≤ 0xBF) && decide (0x80 ≤ c2 ∧ c2 ≤ 0xBF) &&
          utf8Valid r
      | _ => false
    else if (0xE1 ≤ b ∧ b ≤ 0xEC) ∨ b = 0xEE ∨ b = 0xEF then
      match rest with
      | c1 :: c2 :: r =>
        decide (0x80 ≤ c1 ∧ c1 ≤ 0xBF) && decide (0x80 ≤ c2 ∧ c2 ≤ 0xBF) &&
          utf8Valid r
      | _ => false
    else if b = 0xED then
      match rest with
      | c1 :: c2 :: r =>
        decide (0x80 ≤ c1 ∧ c1 ≤ 0x9F) && decide (0x80 ≤ c2 ∧ c2 ≤ 0xBF) &&
          utf8Valid r
      | _ => false
    else if b = 0xF0 then
      match rest with
      | c1 :: c2 :: c3 :: r =>
        decide (0x90 ≤ c1 ∧ c1 ≤ 0xBF) && decide (0x80 ≤ c2 ∧ c2 ≤ 0xBF) &&
          decide (0x80 ≤ c3 ∧ c3 ≤ 0xBF) && utf8Valid r
      | _ => false
    else if 0xF1 ≤ b ∧ b ≤ 0xF3 then
      match rest with
      | c1 :: c2 :: c3 :: r =>
        decide (0x80 ≤ c1 ∧ c1 ≤ 0xBF) && decide (0x80 ≤ c2 ∧ c2 ≤ 0xBF) &&
          decide (0x80 ≤ c3 ∧ c3 ≤ 0xBF) && utf8Valid r
      | _ => false
    else if b = 0xF4 then
      match rest with
      | c1 :: c2 :: c3 :: r =>
        decide (0x80 ≤ c1 ∧ c1 ≤ 0x8F) && decide (0x80 ≤ c2 ∧ c2 ≤ 0xBF) &&
          decide (0x80 ≤ c3 ∧ c3 ≤ 0xBF) && utf8Valid r
      | _ => false
    else false

/-- Model of `do_read_wire_packet_labels` (`ser.rs`).  The unbounded
`loop` gets an explicit structural fuel, proven sufficient separately
(`doReadLabels_total`); `none` is fuel exhaustion.  The second component
of a returned pair is an instrumentation counter: the number of
compression-pointer indirections followed.  The name accumulator is the
byte string built so far (`46` is the dot). -/
def doReadLabels (wire : List Nat) :
    Nat → List Nat → List Nat → Nat →
      Option (Except Unit (List Nat × List Nat) × Nat)
  | 0, _, _, _ => none
  | fuel + 1, inp, name, recLimit =>
    match inp with
    | [] => some (Except.error (), 0)
    | len :: inp1 =>
      if len = 0 then
        some (Except.ok (inp1, if name = [] then [46] else name), 0)
      else if 0xc0 ≤ len ∧ 0 < recLimit then
        match inp1 with
        | [] => some (Except.error (), 0)
        | o2 :: inp2 =>
          if wire.length ≤ (len &&& 0x3f) <<< 8 ||| o2 then
            some (Except.error (), 0)
          else
            match doReadLabels wire fuel
                (wire.drop ((len &&& 0x3f) <<< 8 ||| o2)) name
                (recLimit - 1) with
            | none => none
            | some (Except.error e, c) => some (Except.error e, c + 1)
            | some (Except.ok (_, name2), c) =>
              some (Except.ok (inp2, name2), c + 1)
      else
        if inp1.length ≤ len then some (Except.error (), 0)
        else if utf8Valid (inp1.take len) then
          if 255 < (name ++ inp1.take len ++ [46]).length then
            some (Except.error (), 0)
          else
            doReadLabels wire fuel (inp1.drop len)
              (name ++ inp1.take len ++ [46]) recLimit
        else some (Except.error (), 0)

/-- The fuel budget used for `do_read_wire_packet_labels`: enough for the
whole input plus a full-packet pass per recursion level. -/
def labelsFuel (inp wire : List Nat) : Nat :=
  inp.length + 1 + 256 * (wire.length + 1)

/-- Model of `read_wire_packet_labels`: recursion limit 255, empty
accumulator. -/
def read_wire_packet_labels (inp wire : List Nat) :
    Option (Except Unit (List Nat × List Nat) × Nat) :=
  doReadLabels wire (labelsFuel inp wire) inp [] 255

/-- Split a byte string at every dot (46), keeping empty segments, as
Rust's `str::split('.')` does. -/
def splitOnDot : List Nat → List (List Nat)
  | [] => [[]]
  | b :: rest =>
    if b = 46 then [] :: splitOnDot rest
    else match splitOnDot rest with
      | [] => [[b]]
      | l :: ls => (b :: l) :: ls

/-- ASCII lowercasing of one byte (`to_ascii_lowercase`). -/
def toLowerByte (b : Nat) : Nat := if 65 ≤ b ∧ b ≤ 90 then b + 32 else b

/-- Modelled from the spec: validation performed by `Name::try_from`
(`rr.rs`, not present in the sources): a name is the single-dot root or a
dot-terminated ASCII string of at most 255 octets whose labels are
nonempty and at most 63 octets each. -/
def nameOK (n : List Nat) : Bool :=
  decide (n.length ≤ 255) &&
    (n == [46] ||
      (!(n == []) && (n.getLast? == some 46) && n.all (· < 128) &&
        (splitOnDot n).dropLast.all fun l =>
          decide (l.length ≤ 63) && !(l == [])))

/-- Model of `read_wire_packet_name`: decode labels then validate as a
`Name`.  Fuel exhaustion of the label decoder is collapsed into a parse
error; it is proven unreachable (`doReadLabels_total`). -/
def read_wire_packet_name (inp wire : List Nat) :
    Except Unit (List Nat × List Nat) :=
  match read_wire_packet_labels inp wire with
  | none => Except.error ()
  | some (Except.error _, _) => Except.error ()
  | some (Except.ok (rest, nm), _) =>
    if nameOK nm then Except.ok (nm, rest) else Except.error ()

/-- Model of `write_name`: lowercase, then either the root byte or
length-prefixed labels (the trailing empty segment of a dot-terminated
name yields the terminating zero byte). -/
def write_name (name : List Nat) : List Nat :=
  let canonical := name.map toLowerByte
  if canonical = [46] then [0]
  else (splitOnDot canonical).foldr
    (fun label acc => (label.length % 256) :: label ++ acc) []

/-- Modelled from the spec: the RR tagged union (`rr.rs`, not present in
the sources), reduced to what the proof-builder observes: RRSIG carries
the covered type and the signer name, NSEC/NSEC3 are distinguished for
the authority-section filter, and every other supported type is opaque.
Each variant stores its owner name and (canonical) RDATA bytes. -/
inductive RRm where
  | rrsig (name : List Nat) (tyCov : Nat) (key_name : List Nat)
      (rdata : List Nat)
  | nsec (name : List Nat) (rdata : List Nat)
  | nsec3 (name : List Nat) (rdata : List Nat)
  | other (name : List Nat) (ty : Nat) (rdata : List Nat)
deriving DecidableEq

def RRm.rname : RRm → List Nat
  | .rrsig n _ _ _ => n
  | .nsec n _ => n
  | .nsec3 n _ => n
  | .other n _ _ => n

def RRm.rty : RRm → Nat
  | .rrsig _ _ _ _ => 46
  | .nsec _ _ => 47
  | .nsec3 _ _ => 50
  | .other _ t _ => t

def RRm.rdata : RRm → List Nat
  | .rrsig _ _ _ d => d
  | .nsec _ d => d
  | .nsec3 _ d => d
  | .other _ _ d => d

/-- Modelled from the spec: `RRSig::read_from_data` (`rr.rs`, not present
in the sources), following the RFC 4034 field order the spec describes:
covered type (u16), algorithm, labels, original TTL, expiration,
inception, key tag (18 fixed bytes), then the signer name and the
signature; the canonical RDATA re-encodes the signer name uncompressed. -/
def read_rrsig_data (name data wire : List Nat) : Except Unit RRm :=
  if data.length < 18 then Except.error ()
  else
    match read_wire_packet_name (data.drop 18) wire with
    | Except.error _ => Except.error ()
    | Except.ok (kn, sig) =>
      Except.ok (RRm.rrsig name (data.getD 0 0 * 256 + data.getD 1 0) kn
        (data.take 18 ++ write_name kn ++ sig))

/-- Modelled from the spec: the per-type `read_from_data` dispatch of
`parse_wire_packet_rr` for the supported type codes
(A=1, NS=2, CNAME=5, DNAME=39, TXT=16, AAAA=28, TLSA=52, DNSKEY=48,
DS=43, RRSIG=46, NSEC=47, NSEC3=50); unknown types fail.  Types other
than RRSIG are kept opaque, as only the RRSIG fields and the
NSEC/NSEC3 tags are observable by the proof builder. -/
def read_rr_data (ty : Nat) (name data wire : List Nat) :
    Except Unit RRm :=
  if ty = 46 then read_rrsig_data name data wire
  else if ty = 47 then Except.ok (RRm.nsec name data)
  else if ty = 50 then Except.ok (RRm.nsec3 name data)
  else if ty = 1 ∨ ty = 2 ∨ ty = 5 ∨ ty = 39 ∨ ty = 16 ∨ ty = 28 ∨
      ty = 52 ∨ ty = 48 ∨ ty = 43 then
    Except.ok (RRm.other name ty data)
  else Except.error ()

/-- Model of `parse_wire_packet_rr`: name, type, class (must be IN=1),
TTL, length-prefixed RDATA, then the per-type reader. -/
def parse_wire_packet_rr (inp wire : List Nat) :
    Except Unit ((RRm × Nat) × List Nat) :=
  match read_wire_packet_name inp wire with
  | Except.error _ => Except.error ()
  | Except.ok (name, r1) =>
    match read_u16 r1 with
    | Except.error _ => Except.error ()
    | Except.ok (ty, r2) =>
      match read_u16 r2 with
      | Except.error _ => Except.error ()
      | Except.ok (cls, r3) =>
        if cls ≠ 1 then Except.error ()
        else match read_u32 r3 with
        | Except.error _ => Except.error ()
        | Except.ok (ttl, r4) =>
          match read_u16 r4 with
          | Except.error _ => Except.error ()
          | Except.ok (dlen, r5) =>
            if r5.length < dlen then Except.error ()
            else match read_rr_data ty name (r5.take dlen) wire with
              | Except.error _ => Except.error ()
              | Except.ok rr => Except.ok ((rr, ttl), r5.drop dlen)

/-- Model of `write_rr`: the RFC 9102 wire form of one record, with the
type-specific payload as length-prefixed RDATA. -/
def write_rr (rr : RRm) (ttl : Nat) : List Nat :=
  write_name rr.rname ++ be16 rr.rty ++ be16 1 ++ be32 ttl ++
    be16 rr.rdata.length ++ rr.rdata

/-- Model of `build_query` (`query.rs`): header with txid 0 and flags
0x0120, one question and one EDNS0 OPT additional. -/
def build_query (domain : List Nat) (ty : Nat) : List Nat :=
  [0, 0] ++ [0x01, 0x20] ++ [0, 1, 0, 0, 0, 0, 0, 1] ++
    write_name domain ++ be16 ty ++ [0, 1] ++ [0, 0, 0x29] ++ [0, 0] ++
    [0, 0] ++ [0x80, 0] ++ [0, 0]

/-- Model of `ProofBuildingError`. -/
inductive PBErr where
  | invalidResponse
  | serverFailure
  | noSuchName
  | missingRecord
  | unauthenticated
  | noResponseExpected
deriving DecidableEq

/-- `MAX_PROOF_STEPS` from `lib.rs`. -/
def MAX_PROOF_STEPS : Nat := 20

/-- The question-section read of `handle_response` (one name, type and
class per question; the question count is checked to be exactly one). -/
def readQuestion (inp wire : List Nat) : Except Unit (List Nat) :=
  match read_wire_packet_name inp wire with
  | Except.error _ => Except.error ()
  | Except.ok (_, r1) =>
    match read_u16 r1 with
    | Except.error _ => Except.error ()
    | Except.ok (_, r2) =>
      match read_u16 r2 with
      | Except.error _ => Except.error ()
      | Except.ok (_, r3) => Except.ok r3

/-- The answer-section loop of `handle_response`: every record is
appended to the proof, its TTL folded into the minimum, and RRSIG signer
names collected.  The second component of the result is the bytes
appended to the proof so far (also on a parse failure, matching the
in-place mutation of the Rust `proof` vector). -/
def readAnswers (wire : List Nat) :
    Nat → List Nat → Nat → List (List Nat) → List Nat →
      Except Unit (List Nat × Nat × List (List Nat)) × List Nat
  | 0, inp, mt, names, acc => (Except.ok (inp, mt, names), acc)
  | k + 1, inp, mt, names, acc =>
    match parse_wire_packet_rr inp wire with
    | Except.error _ => (Except.error (), acc)
    | Except.ok ((rr, ttl), rest) =>
      readAnswers wire k rest (min mt ttl)
        (match rr with
         | RRm.rrsig _ _ kn _ => names ++ [kn]
         | _ => names)
        (acc ++ write_rr rr ttl)

/-- The authority-section loop of `handle_response`: only NSEC, NSEC3 and
RRSIGs covering them are kept; everything else is skipped. -/
def readAuthorities (wire : List Nat) :
    Nat → List Nat → Nat → List (List Nat) → List Nat →
      Except Unit (List Nat × Nat × List (List Nat)) × List Nat
  | 0, inp, mt, names, acc => (Except.ok (inp, mt, names), acc)
  | k + 1, inp, mt, names, acc =>
    match parse_wire_packet_rr inp wire with
    | Except.error _ => (Except.error (), acc)
    | Except.ok ((rr, ttl), rest) =>
      if (match rr with
          | RRm.rrsig _ tc _ _ => tc == 47 || tc == 50
          | RRm.nsec _ _ => true
          | RRm.nsec3 _ _ => true
          | _ => false) then
        readAuthorities wire k rest (min mt ttl)
          (match rr with
           | RRm.rrsig _ _ kn _ => names ++ [kn]
           | _ => names)
          (acc ++ write_rr rr ttl)
      else readAuthorities wire k rest mt names acc

/-- Model of `handle_response`: header checks in source order, then the
question, answer and authority sections.  Returns the result together
with the bytes appended to the proof (partial appends are kept on
failure, as in the source). -/
def handle_response (resp : List Nat) :
    Except PBErr (Nat × List (List Nat)) × List Nat :=
  match read_u16 resp with
  | Except.error _ => (Except.error PBErr.invalidResponse, [])
  | Except.ok (txid, r1) =>
    if txid ≠ 0 then (Except.error PBErr.invalidResponse, [])
    else match read_u16 r1 with
    | Except.error _ => (Except.error PBErr.invalidResponse, [])
    | Except.ok (flags, r2) =>
      if flags &&& 0x8000 = 0 then (Except.error PBErr.invalidResponse, [])
      else if flags &&& 0xf = 2 ∨ flags &&& 0xf = 1 then
        (Except.error PBErr.serverFailure, [])
      else if flags &&& 0xf = 3 then (Except.error PBErr.missingRecord, [])
      else if flags &&& 0x7a0f ≠ 0 then
        (Except.error PBErr.invalidResponse, [])
      else if flags &&& 0x20 = 0 then
        (Except.error PBErr.unauthenticated, [])
      else match read_u16 r2 with
      | Except.error _ => (Except.error PBErr.invalidResponse, [])
      | Except.ok (questions, r3) =>
        if questions ≠ 1 then (Except.error PBErr.invalidResponse, [])
        else match read_u16 r3 with
        | Except.error _ => (Except.error PBErr.invalidResponse, [])
        | Except.ok (answers, r4) =>
          if answers = 0 then (Except.error PBErr.invalidResponse, [])
          else match read_u16 r4 with
          | Except.error _ => (Except.error PBErr.invalidResponse, [])
          | Except.ok (authorities, r5) =>
            match read_u16 r5 with
            | Except.error _ => (Except.error PBErr.invalidResponse, [])
            | Except.ok (_, r6) =>
              match readQuestion r6 resp with
              | Except.error _ => (Except.error PBErr.invalidResponse, [])
              | Except.ok r7 =>
                match readAnswers resp answers r7 4294967295 [] [] with
                | (Except.error _, acc) =>
                  (Except.error PBErr.invalidResponse, acc)
                | (Except.ok (r8, mt, names), acc) =>
                  match readAuthorities resp authorities r8 mt names acc with
                  | (Except.error _, acc2) =>
                    (Except.error PBErr.invalidResponse, acc2)
                  | (Except.ok (_, mt2, names2), acc2) =>
                    (Except.ok (mt2, names2), acc2)

/-- Lexicographic byte-string order, the `Ord` instance `sort_unstable`
uses on names. -/
def lexLe : List Nat → List Nat → Bool
  | [], _ => true
  | _ :: _, [] => false
  | x :: xs, y :: ys =>
    if x < y then true else if y < x then false else lexLe xs ys

def insertSorted (x : List Nat) : List (List Nat) → List (List Nat)
  | [] => [x]
  | y :: ys => if lexLe x y then x :: y :: ys else y :: insertSorted x ys

/-- Model of `rrsig_key_names.sort_unstable()` (stability is irrelevant:
only membership and adjacency of duplicates matter downstream). -/
def sortNames : List (List Nat) → List (List Nat)
  | [] => []
  | x :: xs => insertSorted x (sortNames xs)

/-- Model of `Vec::dedup`: collapse adjacent equal elements. -/
def dedupAdj : List (List Nat) → List (List Nat)
  | [] => []
  | [x] => [x]
  | x :: y :: rest =>
    if x == y then dedupAdj (y :: rest) else x :: dedupAdj (y :: rest)

/-- Model of the `ProofBuilder` state. -/
structure ProofBuilder where
  proof : List Nat
  min_ttl : Nat
  dnskeys_requested : List (List Nat)
  pending_queries : Nat
  queries_made : Nat
deriving DecidableEq

/-- Model of `ProofBuilder::new`. -/
def ProofBuilder.new (name : List Nat) (ty : Nat) :
    ProofBuilder × List Nat :=
  (⟨[], 4294967295, [], 1, 1⟩, build_query name ty)

/-- Model of `ProofBuilder::awaiting_responses`. -/
def ProofBuilder.awaiting_responses (pb : ProofBuilder) : Bool :=
  decide (0 < pb.pending_queries) && decide (pb.queries_made ≤ MAX_PROOF_STEPS)

/-- The follow-up query loop of `process_response`: one DNSKEY query per
new signer name, plus a DS query unless the name is the root. -/
def addQueries : ProofBuilder → List (List Nat) →
    ProofBuilder × List (List Nat)
  | pb, [] => (pb, [])
  | pb, kn :: rest =>
    if pb.dnskeys_requested.contains kn then addQueries pb rest
    else
      if kn ≠ [46] then
        let pb2 := { pb with
          pending_queries := pb.pending_queries + 2,
          queries_made := pb.queries_made + 2,
          dnskeys_requested := pb.dnskeys_requested ++ [kn] }
        let res := addQueries pb2 rest
        (res.1, build_query kn 48 :: build_query kn 43 :: res.2)
      else
        let pb2 := { pb with
          pending_queries := pb.pending_queries + 1,
          queries_made := pb.queries_made + 1,
          dnskeys_requested := pb.dnskeys_requested ++ [kn] }
        let res := addQueries pb2 rest
        (res.1, build_query kn 48 :: res.2)

/-- Model of `ProofBuilder::process_response`.  The error branch carries
the post-call state, whose proof keeps any partial appends made by
`handle_response` (as the Rust `&mut self.proof` does); the counters are
untouched on error. -/
def process_response (pb : ProofBuilder) (resp : List Nat) :
    Except (PBErr × ProofBuilder) (ProofBuilder × List (List Nat)) :=
  if pb.pending_queries = 0 then
    Except.error (PBErr.noResponseExpected, pb)
  else
    match handle_response resp with
    | (Except.error err, appended) =>
      let pb2 := { pb with proof := pb.proof ++ appended }
      if pb2.proof = [] ∧ err = PBErr.missingRecord then
        Except.error (PBErr.noSuchName, pb2)
      else Except.error (err, pb2)
    | (Except.ok (mt, names), appended) =>
      let pb2 := { pb with
        proof := pb.proof ++ appended,
        min_ttl := min pb.min_ttl mt,
        pending_queries := pb.pending_queries - 1 }
      let res := addQueries pb2 (dedupAdj (sortNames names))
      if res.1.queries_made ≤ MAX_PROOF_STEPS then Except.ok (res.1, res.2)
      else Except.ok (res.1, [])

/-- Model of `ProofBuilder::finish_proof`. -/
def finish_proof (pb : ProofBuilder) : Except Unit (List Nat × Nat) :=
  if 0 < pb.pending_queries ∨ MAX_PROOF_STEPS < pb.queries_made then
    Except.error ()
  else Except.ok (pb.proof, pb.min_ttl)

/-- The `ProofBuilder` states reachable from `ProofBuilder::new` by any
sequence of `process_response` calls with arbitrary response bytes. -/
inductive Reachable : ProofBuilder → Prop where
  | init : ∀ name ty, Reachable (ProofBuilder.new name ty).1
  | step_ok : ∀ pb resp pb2 qs, Reachable pb →
      process_response pb resp = Except.ok (pb2, qs) → Reachable pb2
  | step_err : ∀ pb resp e pb2, Reachable pb →
      process_response pb resp = Except.error (e, pb2) → Reachable pb2

/-- `STACK_BUF_LIMIT` (production value, `query.rs`). -/
def STACK_BUF_LIMIT : Nat := 2048

/-- Model of `u16::saturating_add`. -/
def saturatingAdd16 (a b : Nat) : Nat := min (a + b) 65535

/-- Model of the `QueryBuf` contents exposed by `Deref`: its first `len`
bytes.  `new_zeroed` takes a `u16` length. -/
def queryBufNewZeroed (len : Nat) : List Nat :=
  List.replicate (len % 65536) 0

/-- Model of `QueryBuf::extend_from_slice`.  The slice length is cast to
`u16` before the saturating add; the copy target holds `new_len - len`
bytes, and the final `copy_from_slice` panics — modelled as `none` —
unless that equals the slice's actual length.  (The stack-to-heap
transition only moves bytes and cannot itself panic.) -/
def extend_from_slice (buf sl : List Nat) : Option (List Nat) :=
  if saturatingAdd16 buf.length (sl.length % 65536) - buf.length = sl.length
  then some (buf ++ sl)
  else none

/-- C8: refuted — `extend_from_slice` does not saturate at 65535 without
panicking: appending one byte to a full 65535-byte buffer saturates
`new_len` at 65535, so the copy target is empty while the slice is not,
and `copy_from_slice` panics (despite the doc comment's claim that
pushing data beyond `u16::MAX` will not panic). -/
theorem c8_extend_saturation_panics :
    extend_from_slice (queryBufNewZeroed 65535) [0] = none := by
  have hlen : (queryBufNewZeroed 65535).length = 65535 := by
    rw [queryBufNewZeroed, List.length_replicate]
  rw [extend_from_slice, hlen]
  rw [if_neg (by norm_num [saturatingAdd16])]

/-- C6: `finish_proof` succeeds — returning the proof bytes and the
minimum TTL — if and only if no queries are pending and at most
`MAX_PROOF_STEPS = 20` queries were made; otherwise it fails.  Proven for
every state, hence a fortiori for every reachable one. -/
theorem c6_finish_proof_iff :
    ∀ pb : ProofBuilder,
      (finish_proof pb = Except.ok (pb.proof, pb.min_ttl) ↔
        pb.pending_queries = 0 ∧ pb.queries_made ≤ MAX_PROOF_STEPS) ∧
      (¬(pb.pending_queries = 0 ∧ pb.queries_made ≤ MAX_PROOF_STEPS) →
        finish_proof pb = Except.error ()) := by
  intro pb
  refine ⟨⟨?_, ?_⟩, ?_⟩
  · intro h
    by_cases hc : 0 < pb.pending_queries ∨ MAX_PROOF_STEPS < pb.queries_made
    · rw [finish_proof, if_pos hc] at h
      exact absurd h (by simp)
    · omega
  · intro h
    rw [finish_proof, if_neg (by omega)]
  · intro h
    rw [finish_proof, if_pos (by omega)]

/-- C6 witness: a drained builder with three queries made yields its
accumulated proof and TTL. -/
theorem c6_finish_proof_iff_witness :
    finish_proof ⟨[7], 5, [], 0, 3⟩ = Except.ok ([7], 5) :=
  (c6_finish_proof_iff ⟨[7], 5, [], 0, 3⟩).1.mpr ⟨rfl, by decide⟩

/-- C7 counterexample: the original claim quantifies over every response
whose RCODE is 3, but a response with RCODE 3 and the QR bit clear
(`[0, 0, 0, 3]`) is rejected as `InvalidResponse` — not promoted to
`NoSuchName` — although the builder has a pending query and an empty
proof accumulator. -/
theorem c7_counterexample :
    0 < (ProofBuilder.new [97, 46] 16).1.pending_queries ∧
    (ProofBuilder.new [97, 46] 16).1.proof = [] ∧
    (0 * 256 + 3) &&& 0xf = 3 ∧
    process_response (ProofBuilder.new [97, 46] 16).1 [0, 0, 0, 3] =
      Except.error (PBErr.invalidResponse, (ProofBuilder.new [97, 46] 16).1) :=
  ⟨by decide, rfl, by decide, rfl⟩

/-- C7 (amended): for a builder with at least one pending query and a
response whose header reads transaction id 0 and flags with the QR bit
set and RCODE 3, `process_response` fails with `NoSuchName` exactly when
the proof accumulator is empty and with `MissingRecord` otherwise,
leaving the state unchanged. -/
theorem c7_nxdomain_promotion (pb : ProofBuilder) (resp r1 r2 : List Nat)
    (flags : Nat) (hp : 0 < pb.pending_queries)
    (h1 : read_u16 resp = Except.ok (0, r1))
    (h2 : read_u16 r1 = Except.ok (flags, r2))
    (hqr : flags &&& 0x8000 ≠ 0) (hrc : flags &&& 0xf = 3) :
    process_response pb resp =
      Except.error
        ((if pb.proof = [] then PBErr.noSuchName else PBErr.missingRecord),
          pb) := by
  have hh : handle_response resp = (Except.error PBErr.missingRecord, []) := by
    simp [handle_response, h1, h2, hrc, hqr]
  rw [process_response, if_neg (by omega), hh]
  by_cases hc : pb.proof = []
  · simp [hc]
    rw [← hc]
  · simp [hc]

/-- C7 witness: a well-formed NXDOMAIN response (txid 0, flags 0x8023) to
the very first query surfaces as `NoSuchName`. -/
theorem c7_nxdomain_promotion_witness :
    process_response (ProofBuilder.new [97, 46] 16).1 [0, 0, 128, 35] =
      Except.error (PBErr.noSuchName, (ProofBuilder.new [97, 46] 16).1) :=
  c7_nxdomain_promotion (ProofBuilder.new [97, 46] 16).1 [0, 0, 128, 35]
    [128, 35] [] 32803 (by decide) rfl rfl (by decide) (by decide)

/-- A single adversarial response carrying ten RRSIG answers with ten
distinct signer names (`a.` through `j.`): header (txid 0, flags 0x8020,
1 question, 10 answers), the echoed question, then ten RRSIG records. -/
def c5resp : List Nat :=
  [0, 0, 128, 32, 0, 1, 0, 10, 0, 0, 0, 0, 1, 97, 0, 0, 16, 0, 1] ++
  (List.range 10).flatMap (fun i =>
    [1, 97, 0, 0, 46, 0, 1, 0, 0, 0, 0, 0, 21, 0, 16, 5, 1, 0, 0, 0, 0,
     0, 0, 0, 0, 0, 0, 0, 0, 0, 0, 1, 97 + i, 0])

set_option maxRecDepth 100000 in
/-- C5 counterexample: `queries_made ≤ MAX_PROOF_STEPS` is not an
invariant of reachable states — processing one response with ten fresh
RRSIG signer names from the initial builder drives the counter from 1 to
21. -/
theorem c5_counterexample :
    ∃ pb qs, process_response (ProofBuilder.new [97, 46] 16).1 c5resp =
        Except.ok (pb, qs) ∧ Reachable pb ∧
        MAX_PROOF_STEPS < pb.queries_made := by
  refine ⟨_, _, rfl, ?_, ?_⟩
  · exact Reachable.step_ok _ c5resp _ _ (Reachable.init [97, 46] 16) rfl
  · decide

/-- C5 (amended): the counter itself can exceed `MAX_PROOF_STEPS` (see
the counterexample), but the builder then goes quiet: a successful
`process_response` hands back a nonempty query list only when the
post-state satisfies `queries_made ≤ MAX_PROOF_STEPS`, and
`awaiting_responses` is false in any state exceeding the cap. -/
theorem c5_queries_made_cap (pb : ProofBuilder) :
    (∀ resp pb2 qs, process_response pb resp = Except.ok (pb2, qs) →
      qs ≠ [] → pb2.queries_made ≤ MAX_PROOF_STEPS) ∧
    (MAX_PROOF_STEPS < pb.queries_made →
      pb.awaiting_responses = false) := by
  constructor
  · intro resp pb2 qs hok hne
    rw [process_response] at hok
    by_cases hp : pb.pending_queries = 0
    · rw [if_pos hp] at hok
      exact absurd hok (by simp)
    · rw [if_neg hp] at hok
      rcases hh : handle_response resp with ⟨res, app⟩
      rw [hh] at hok
      cases res with
      | error e =>
        dsimp only [] at hok
        split at hok <;> exact absurd hok (by simp)
      | ok v =>
        obtain ⟨mt, names⟩ := v
        dsimp only [] at hok
        split at hok
        · next hq =>
          simp only [Except.ok.injEq, Prod.mk.injEq] at hok
          rw [← hok.1]
          exact hq
        · next hq =>
          simp only [Except.ok.injEq, Prod.mk.injEq] at hok
          exact absurd hok.2.symm hne
  · intro h
    rw [ProofBuilder.awaiting_responses]
    have h2 : decide (pb.queries_made ≤ MAX_PROOF_STEPS) = false := by
      simp
      omega
    rw [h2, Bool.and_false]

/-- A well-formed single-answer response: txid 0, flags 0x8020, one
question, one RRSIG answer with signer `a.` and TTL 100. -/
def c5okresp : List Nat :=
  [0, 0, 128, 32, 0, 1, 0, 1, 0, 0, 0, 0, 1, 97, 0, 0, 16, 0, 1] ++
  [1, 97, 0, 0, 46, 0, 1, 0, 0, 0, 100, 0, 21, 0, 16, 5, 1, 0, 0, 0, 0,
   0, 0, 0, 0, 0, 0, 0, 0, 0, 0, 1, 97, 0]

set_option maxRecDepth 100000 in
/-- C5 witness: processing one benign response returns a nonempty query
list, and the resulting counter 3 indeed respects the cap. -/
theorem c5_queries_made_cap_witness :
    ∃ pb2 qs, process_response (ProofBuilder.new [97, 46] 16).1 c5okresp =
        Except.ok (pb2, qs) ∧ pb2.queries_made ≤ MAX_PROOF_STEPS := by
  refine ⟨_, _, rfl, ?_⟩
  exact (c5_queries_made_cap (ProofBuilder.new [97, 46] 16).1).1 c5okresp _ _
    rfl (by decide)

/-- Whenever the label decoder returns (no fuel exhaustion), the number
of pointer indirections followed is at most the recursion limit, and a
successfully decoded name has at most 255 octets provided the
accumulator had at most 255. -/
theorem doReadLabels_bounds (wire : List Nat) :
    ∀ (fuel : Nat) (inp name : List Nat) (recLimit : Nat),
      name.length ≤ 255 →
      ∀ r c, doReadLabels wire fuel inp name recLimit = some (r, c) →
        c ≤ recLimit ∧
        ∀ rest nm, r = Except.ok (rest, nm) → nm.length ≤ 255 := by
  have herr : ∀ (rl : Nat) (r : Except Unit (List Nat × List Nat)) (c : Nat),
      (some (Except.error (), 0) :
        Option (Except Unit (List Nat × List Nat) × Nat)) = some (r, c) →
      c ≤ rl ∧ ∀ rest nm, r = Except.ok (rest, nm) → nm.length ≤ 255 := by
    intro rl r c h
    simp only [Option.some.injEq, Prod.mk.injEq] at h
    obtain ⟨hr, hc⟩ := h
    refine ⟨by omega, ?_⟩
    intro rest nm hok
    rw [← hr] at hok
    exact absurd hok (by simp)
  intro fuel
  induction fuel with
  | zero =>
    intro inp name rl _ r c h
    rw [show doReadLabels wire 0 inp name rl = none from rfl] at h
    exact absurd h (by simp)
  | succ fuel ih =>
    intro inp name rl hn r c h
    rw [doReadLabels.eq_def] at h
    cases inp with
    | nil =>
      dsimp only at h
      exact herr rl r c h
    | cons len inp1 =>
      dsimp only at h
      by_cases h0 : len = 0
      · rw [if_pos h0] at h
        simp only [Option.some.injEq, Prod.mk.injEq] at h
        obtain ⟨hr, hc⟩ := h
        refine ⟨by omega, ?_⟩
        intro rest nm hok
        rw [← hr] at hok
        simp only [Except.ok.injEq, Prod.mk.injEq] at hok
        rw [← hok.2]
        by_cases hne : name = []
        · rw [if_pos hne]
          simp
        · rw [if_neg hne]
          exact hn
      · rw [if_neg h0] at h
        by_cases hptr : 0xc0 ≤ len ∧ 0 < rl
        · rw [if_pos hptr] at h
          cases inp1 with
          | nil => exact herr rl r c h
          | cons o2 inp2 =>
            dsimp only at h
            by_cases hoffs : wire.length ≤ (len &&& 0x3f) <<< 8 ||| o2
            · rw [if_pos hoffs] at h
              exact herr rl r c h
            · rw [if_neg hoffs] at h
              rcases hrec : doReadLabels wire fuel
                  (wire.drop ((len &&& 0x3f) <<< 8 ||| o2)) name (rl - 1)
                with _ | ⟨r2, c2⟩
              · rw [hrec] at h
                exact absurd h (by simp)
              · rw [hrec] at h
                obtain ⟨hc2, himp⟩ := ih _ name (rl - 1) hn r2 c2 hrec
                cases r2 with
                | error e =>
                  simp only [Option.some.injEq, Prod.mk.injEq] at h
                  obtain ⟨hr, hc⟩ := h
                  refine ⟨by omega, ?_⟩
                  intro rest nm hok
                  rw [← hr] at hok
                  exact absurd hok (by simp)
                | ok p =>
                  obtain ⟨rest2, nm2⟩ := p
                  simp only [Option.some.injEq, Prod.mk.injEq] at h
                  obtain ⟨hr, hc⟩ := h
                  refine ⟨by omega, ?_⟩
                  intro rest nm hok
                  rw [← hr] at hok
                  simp only [Except.ok.injEq, Prod.mk.injEq] at hok
                  rw [← hok.2]
                  exact himp rest2 nm2 rfl
        · rw [if_neg hptr] at h
          by_cases hl1 : inp1.length ≤ len
          · rw [if_pos hl1] at h
            exact herr rl r c h
          · rw [if_neg hl1] at h
            by_cases hu : utf8Valid (inp1.take len) = true
            · rw [if_pos hu] at h
              by_cases h255 : 255 < (name ++ inp1.take len ++ [46]).length
              · rw [if_pos h255] at h
                exact herr rl r c h
              · rw [if_neg h255] at h
                exact ih _ _ rl (by omega) r c h
            · rw [if_neg hu] at h
              exact herr rl r c h

/-- Fuel sufficiency for the label decoder: one unit of fuel per input
byte plus a full-packet pass per remaining recursion level rules out
fuel exhaustion. -/
theorem doReadLabels_total (wire : List Nat) :
    ∀ (fuel : Nat) (inp name : List Nat) (recLimit : Nat),
      inp.length + 1 + recLimit * (wire.length + 1) ≤ fuel →
      doReadLabels wire fuel inp name recLimit ≠ none := by
  intro fuel
  induction fuel with
  | zero =>
    intro inp name rl h
    exact absurd h (by simp)
  | succ fuel ih =>
    intro inp name rl h
    rw [doReadLabels.eq_def]
    cases inp with
    | nil => dsimp only; simp
    | cons len inp1 =>
      dsimp only
      by_cases h0 : len = 0
      · rw [if_pos h0]
        simp
      · rw [if_neg h0]
        by_cases hptr : 0xc0 ≤ len ∧ 0 < rl
        · rw [if_pos hptr]
          cases inp1 with
          | nil => simp
          | cons o2 inp2 =>
            dsimp only
            by_cases hoffs : wire.length ≤ (len &&& 0x3f) <<< 8 ||| o2
            · rw [if_pos hoffs]
              simp
            · rw [if_neg hoffs]
              obtain ⟨rl2, rfl⟩ : ∃ rl2, rl = rl2 + 1 :=
                ⟨rl - 1, by omega⟩
              have hexp : (rl2 + 1) * (wire.length + 1) =
                  rl2 * (wire.length + 1) + (wire.length + 1) := by ring
              have hrec := ih (wire.drop ((len &&& 0x3f) <<< 8 ||| o2))
                name (rl2 + 1 - 1)
                (by
                  rw [List.length_drop]
                  simp only [Nat.add_sub_cancel]
                  simp only [List.length_cons] at h
                  omega)
              rcases hrec2 : doReadLabels wire fuel
                  (wire.drop ((len &&& 0x3f) <<< 8 ||| o2)) name
                  (rl2 + 1 - 1) with _ | ⟨r2, c2⟩
              · exact absurd hrec2 hrec
              · cases r2 with
                | error e => simp
                | ok p =>
                  obtain ⟨rest2, nm2⟩ := p
                  simp
        · rw [if_neg hptr]
          by_cases hl1 : inp1.length ≤ len
          · rw [if_pos hl1]
            simp
          · rw [if_neg hl1]
            by_cases hu : utf8Valid (inp1.take len) = true
            · rw [if_pos hu]
              by_cases h255 : 255 < (name ++ inp1.take len ++ [46]).length
              · rw [if_pos h255]
                simp
              · rw [if_neg h255]
                apply ih
                rw [List.length_drop]
                simp only [List.length_cons] at h
                omega
            · rw [if_neg hu]
              simp

/-- C9: name decoding terminates on every input — the label decoder never
exhausts its fuel budget and follows at most 255 compression-pointer
indirections — and whenever `read_wire_packet_name` succeeds the decoded
name has at most 255 octets. -/
theorem c9_name_decode_bounds :
    ∀ inp wire : List Nat,
      (∃ res, read_wire_packet_labels inp wire = some res ∧ res.2 ≤ 255) ∧
      (∀ nm rest, read_wire_packet_name inp wire = Except.ok (nm, rest) →
        nm.length ≤ 255) := by
  intro inp wire
  have htot := doReadLabels_total wire (labelsFuel inp wire) inp [] 255
    (by rw [labelsFuel]; omega)
  rcases hres : doReadLabels wire (labelsFuel inp wire) inp [] 255
    with _ | ⟨r, c⟩
  · exact absurd hres htot
  · obtain ⟨hc, himp⟩ := doReadLabels_bounds wire (labelsFuel inp wire) inp
      [] 255 (by simp) r c hres
    constructor
    · exact ⟨(r, c), by rw [read_wire_packet_labels]; exact hres, hc⟩
    · intro nm rest hok
      rw [read_wire_packet_name, read_wire_packet_labels, hres] at hok
      cases r with
      | error e => exact absurd hok (by simp)
      | ok p =>
        obtain ⟨rest2, nm2⟩ := p
        dsimp only at hok
        by_cases hno : nameOK nm2 = true
        · rw [if_pos hno] at hok
          simp only [Except.ok.injEq, Prod.mk.injEq] at hok
          rw [← hok.1]
          exact himp rest2 nm2 rfl
        · rw [if_neg hno] at hok
          exact absurd hok (by simp)

/-- C9 witness: decoding the label sequence `a.` in an empty packet
terminates with zero indirections, and the decoded two-octet name is
within the 255-octet cap. -/
theorem c9_name_decode_bounds_witness :
    (∃ res, read_wire_packet_labels [1, 97, 0] [] = some res ∧
      res.2 ≤ 255) ∧
    ([97, 46] : List Nat).length ≤ 255 :=
  ⟨(c9_name_decode_bounds [1, 97, 0] []).1,
   (c9_name_decode_bounds [1, 97, 0] []).2 [97, 46] [] (by rfl)⟩

/-- C10: once 255 pointer indirections have been followed
(`recLimit = 0`), a length byte with the top two bits set is neither
followed as a compression pointer nor rejected: it is consumed as a
literal label length of at least 192 and its bytes are read as label
text. -/
theorem c10_pointer_byte_at_limit (fuel : Nat) (inp1 wire name : List Nat)
    (len : Nat) (hlen : 0xc0 ≤ len) :
    doReadLabels wire (fuel + 1) (len :: inp1) name 0 =
      (if inp1.length ≤ len then some (Except.error (), 0)
       else if utf8Valid (inp1.take len) then
         (if 255 < (name ++ inp1.take len ++ [46]).length then
            some (Except.error (), 0)
          else doReadLabels wire fuel (inp1.drop len)
            (name ++ inp1.take len ++ [46]) 0)
       else some (Except.error (), 0)) := by
  rw [doReadLabels.eq_def]
  dsimp only
  rw [if_neg (by omega)]
  rw [if_neg (by omega)]

/-- C10 witness: with the budget exhausted, the byte 0xC0 at the head of
the input is treated as a literal label length of 192 whose bytes are
consumed as text. -/
theorem c10_pointer_byte_at_limit_witness :
    doReadLabels [] 5 (192 :: List.replicate 193 97) [] 0 =
      (if (List.replicate 193 97).length ≤ 192 then
         some (Except.error (), 0)
       else if utf8Valid ((List.replicate 193 97).take 192) then
         (if 255 < (([] : List Nat) ++ (List.replicate 193 97).take 192 ++
             [46]).length then
            some (Except.error (), 0)
          else doReadLabels [] 4 ((List.replicate 193 97).drop 192)
            (([] : List Nat) ++ (List.replicate 193 97).take 192 ++ [46]) 0)
       else some (Except.error (), 0)) :=
  c10_pointer_byte_at_limit 4 (List.replicate 193 97) [] [] 192 (by decide)

-- ## Squaring (`sqr_2` and the `define_sqr!` macro)

/-- Model of `sqr_2`: square of a 2-limb integer via native 128-bit
products; the cross term is doubled by a 128-bit shift whose carried-out
top bit is captured first. -/
def sqr_2 : List Nat → List Nat
  | [a0, a1] =>
    let z2 := a0 * a0
    let z1p := a0 * a1
    let i_carry_a := decide (z1p &&& (1 <<< 127) ≠ 0)
    let z1 := (z1p <<< 1) % U128LIMIT
    let z0 := a1 * a1
    add_mul_2_parts z2 z1 z0 i_carry_a
  | _ => []

/-- Correctness predicate for a squaring primitive of width `n`. -/
def SubsqrOK (f : List Nat → List Nat) (n : Nat) : Prop :=
  ∀ a : List Nat, a.length = n → limbsOK a →
    (f a).length = 2 * n ∧ limbsOK (f a) ∧
    limbsVal (f a) = limbsVal a * limbsVal a

theorem sqr_2_ok : SubsqrOK sqr_2 2 := by
  intro a hla hka
  rcases a with _ | ⟨a0, _ | ⟨a1, _ | ⟨x, t⟩⟩⟩ <;> simp at hla
  have ha0 : a0 < U64LIMIT := hka a0 (by simp)
  have ha1 : a1 < U64LIMIT := hka a1 (by simp)
  have hz2 : a0 * a0 < U128LIMIT := by
    have := Nat.mul_le_mul (by omega : a0 ≤ U64LIMIT - 1)
      (by omega : a0 ≤ U64LIMIT - 1)
    simp only [U64LIMIT, U128LIMIT] at *
    omega
  have hz1p : a0 * a1 < U128LIMIT := by
    have := Nat.mul_le_mul (by omega : a0 ≤ U64LIMIT - 1)
      (by omega : a1 ≤ U64LIMIT - 1)
    simp only [U64LIMIT, U128LIMIT] at *
    omega
  have hz0 : a1 * a1 < U128LIMIT := by
    have := Nat.mul_le_mul (by omega : a1 ≤ U64LIMIT - 1)
      (by omega : a1 ≤ U64LIMIT - 1)
    simp only [U64LIMIT, U128LIMIT] at *
    omega
  have hbit : (decide (a0 * a1 &&& (1 <<< 127) ≠ 0)) =
      decide (2 ^ 127 ≤ a0 * a1) := by
    rw [Nat.one_shiftLeft, Nat.and_two_pow]
    rcases Nat.lt_or_ge (a0 * a1) (2 ^ 127) with h | h
    · have ht : (a0 * a1).testBit 127 = false := by
        rw [Nat.testBit_to_div_mod]
        rw [Nat.div_eq_of_lt h]
        simp
      rw [ht]
      simp
      omega
    · have ht : (a0 * a1).testBit 127 = true := by
        rw [Nat.testBit_to_div_mod]
        have hq : a0 * a1 / 2 ^ 127 = 1 := by
          have h2 : a0 * a1 < 2 ^ 128 := by
            simpa [U128LIMIT] using hz1p
          omega
        rw [hq]
        decide
      rw [ht]
      simp
      omega
  have hunfold : sqr_2 [a0, a1] = add_mul_2_parts (a0 * a0)
      (((a0 * a1) <<< 1) % U128LIMIT) (a1 * a1)
      (decide (a0 * a1 &&& (1 <<< 127) ≠ 0)) := by
    simp only [sqr_2]
  rw [hunfold, hbit]
  have hshift : (a0 * a1) <<< 1 = 2 * (a0 * a1) := by
    rw [Nat.shiftLeft_eq]
    ring
  have hz1val : ((a0 * a1) <<< 1) % U128LIMIT +
      bitN (decide (2 ^ 127 ≤ a0 * a1)) * U128LIMIT = 2 * (a0 * a1) := by
    rw [hshift]
    rcases Nat.lt_or_ge (a0 * a1) (2 ^ 127) with h | h
    · rw [decide_eq_false (by omega)]
      rw [Nat.mod_eq_of_lt (by simp only [U128LIMIT]; omega)]
      simp [bitN]
    · rw [decide_eq_true h]
      have h2 : a0 * a1 < 2 ^ 128 := by simpa [U128LIMIT] using hz1p
      have e : 2 * (a0 * a1) % U128LIMIT = 2 * (a0 * a1) - U128LIMIT := by
        simp only [U128LIMIT]
        omega
      rw [e]
      simp only [bitN, if_true, U128LIMIT]
      omega
  have hz1lt : ((a0 * a1) <<< 1) % U128LIMIT < U128LIMIT := by
    exact Nat.mod_lt _ (by simp [U128LIMIT])
  have hval2 : limbsVal [a0, a1] = a0 * U64LIMIT + a1 := by
    rw [limbsVal_cons, limbsVal_cons, limbsVal_nil]
    simp
  have hbound : a0 * a0 * U128LIMIT +
      (((a0 * a1) <<< 1) % U128LIMIT +
        bitN (decide (2 ^ 127 ≤ a0 * a1)) * U128LIMIT) * U64LIMIT +
      a1 * a1 < U64LIMIT ^ 4 := by
    rw [hz1val]
    have he : a0 * a0 * U128LIMIT + 2 * (a0 * a1) * U64LIMIT + a1 * a1 =
        (a0 * U64LIMIT + a1) * (a0 * U64LIMIT + a1) := by
      simp only [U128LIMIT, U64LIMIT]
      ring
    rw [he]
    have h1 : a0 * U64LIMIT + a1 < U64LIMIT ^ 2 := by
      have := limbsVal_lt [a0, a1] hka
      rw [hval2] at this
      simpa using this
    calc (a0 * U64LIMIT + a1) * (a0 * U64LIMIT + a1)
        < U64LIMIT ^ 2 * U64LIMIT ^ 2 :=
          Nat.mul_lt_mul_of_lt_of_lt h1 h1
      _ = U64LIMIT ^ 4 := by ring
  obtain ⟨hl, hok, hv⟩ := add_mul_2_parts_spec (a0 * a0)
    (((a0 * a1) <<< 1) % U128LIMIT) (a1 * a1)
    (decide (2 ^ 127 ≤ a0 * a1)) hz2 hz1lt hz0 hbound
  refine ⟨by simpa using hl, hok, ?_⟩
  rw [hv, hz1val, hval2]
  simp only [U128LIMIT, U64LIMIT]
  ring

/-- Model of the `define_sqr!` macro: gradeschool squaring from the two
half squares and the doubled cross product; its i/j/k/l assembly is
exactly the `karatsuba_assemble` layout with the doubling carry in the
`z1_carry` slot. -/
def sqr_generic (ml : List Nat → List Nat → List Nat)
    (sq : List Nat → List Nat) (a : List Nat) : List Nat :=
  let half := a.length / 2
  let v0 := sq (a.drop half)
  let v1d := bigDouble (ml (a.take half) (a.drop half))
  let v2 := sq (a.take half)
  karatsuba_assemble half v0 v1d.1 v2 v1d.2

def sqr_3 (a : List Nat) : List Nat := mul_3 a a

def sqr_4 (a : List Nat) : List Nat := sqr_generic mul_2 sqr_2 a

def sqr_6 (a : List Nat) : List Nat := sqr_generic mul_3 sqr_3 a

def sqr_8 (a : List Nat) : List Nat := sqr_generic mul_4 sqr_4 a

def sqr_16 (a : List Nat) : List Nat := sqr_generic mul_8 sqr_8 a

def sqr_32 (a : List Nat) : List Nat := sqr_generic mul_16 sqr_16 a

def sqr_64 (a : List Nat) : List Nat := sqr_generic mul_32 sqr_32 a

theorem sqr_3_ok : SubsqrOK sqr_3 3 := by
  intro a hla hka
  exact mul_3_ok a a hla hla hka hka

theorem sqr_generic_ok (ml : List Nat → List Nat → List Nat)
    (sq : List Nat → List Nat) (half : Nat)
    (hml : SubmulOK ml half) (hsq : SubsqrOK sq half) (hpos : 0 < half) :
    SubsqrOK (sqr_generic ml sq) (2 * half) := by
  intro a hla hka
  have hhalf : a.length / 2 = half := by omega
  have hgen : sqr_generic ml sq a = karatsuba_assemble half
      (sq (a.drop half)) (bigDouble (ml (a.take half) (a.drop half))).1
      (sq (a.take half)) (bigDouble (ml (a.take half) (a.drop half))).2 := by
    rw [sqr_generic, hhalf]
  have hlt : (a.take half).length = half := by
    rw [List.length_take]; omega
  have hld : (a.drop half).length = half := by
    rw [List.length_drop]; omega
  have hkt := limbsOK_take a half hka
  have hkd := limbsOK_drop a half hka
  obtain ⟨h0l, h0k, h0v⟩ := hsq (a.drop half) hld hkd
  obtain ⟨hml', hmk, hmv⟩ := hml (a.take half) (a.drop half) hlt hld hkt hkd
  obtain ⟨h2l, h2k, h2v⟩ := hsq (a.take half) hlt hkt
  obtain ⟨hdl, hdk, hdv⟩ :=
    bigDouble_spec (ml (a.take half) (a.drop half)) hmk
  rw [hml'] at hdl hdv
  rw [hmv] at hdv
  set X := limbsVal (a.take half) with hX
  set Y := limbsVal (a.drop half) with hY
  have hXlt : X < U64LIMIT ^ half := by
    have := limbsVal_lt (a.take half) hkt
    rwa [hlt] at this
  have hYlt : Y < U64LIMIT ^ half := by
    have := limbsVal_lt (a.drop half) hkd
    rwa [hld] at this
  have haval : limbsVal a = X * U64LIMIT ^ half + Y := by
    have := limbsVal_take_drop a half
    rwa [hld] at this
  have hsum : limbsVal (sq (a.take half)) * U64LIMIT ^ (2 * half) +
      (limbsVal (bigDouble (ml (a.take half) (a.drop half))).1 +
        U64LIMIT ^ (2 * half) *
          bitN (bigDouble (ml (a.take half) (a.drop half))).2) *
        U64LIMIT ^ half +
      limbsVal (sq (a.drop half)) = limbsVal a * limbsVal a := by
    rw [h2v, h0v, hdv, haval]
    ring
  have hbnd : limbsVal (sq (a.take half)) * U64LIMIT ^ (2 * half) +
      (limbsVal (bigDouble (ml (a.take half) (a.drop half))).1 +
        U64LIMIT ^ (2 * half) *
          bitN (bigDouble (ml (a.take half) (a.drop half))).2) *
        U64LIMIT ^ half +
      limbsVal (sq (a.drop half)) < U64LIMIT ^ (4 * half) := by
    rw [hsum]
    have hca : limbsVal a < U64LIMIT ^ (2 * half) := by
      have := limbsVal_lt a hka
      rwa [hla] at this
    calc limbsVal a * limbsVal a
        < U64LIMIT ^ (2 * half) * U64LIMIT ^ (2 * half) :=
          Nat.mul_lt_mul_of_lt_of_lt hca hca
      _ = U64LIMIT ^ (4 * half) := by
          rw [← pow_add]
          congr 1
          omega
  obtain ⟨hrl, hrk, hrv⟩ := karatsuba_assemble_spec half
    (sq (a.drop half)) (bigDouble (ml (a.take half) (a.drop half))).1
    (sq (a.take half)) (bigDouble (ml (a.take half) (a.drop half))).2
    hpos h0l hdl h2l h0k hdk h2k hbnd
  rw [hgen]
  refine ⟨by rw [hrl]; omega, hrk, ?_⟩
  rw [hrv, hsum]

theorem sqr_4_ok : SubsqrOK sqr_4 4 :=
  fun a h k => by
    simpa [sqr_4] using sqr_generic_ok mul_2 sqr_2 2 mul_2_ok sqr_2_ok
      (by norm_num) a h k

theorem sqr_6_ok : SubsqrOK sqr_6 6 :=
  fun a h k => by
    simpa [sqr_6] using sqr_generic_ok mul_3 sqr_3 3 mul_3_ok sqr_3_ok
      (by norm_num) a h k

theorem sqr_8_ok : SubsqrOK sqr_8 8 :=
  fun a h k => by
    simpa [sqr_8] using sqr_generic_ok mul_4 sqr_4 4 mul_4_ok sqr_4_ok
      (by norm_num) a h k

theorem sqr_16_ok : SubsqrOK sqr_16 16 :=
  fun a h k => by
    simpa [sqr_16] using sqr_generic_ok mul_8 sqr_8 8 mul_8_ok sqr_8_ok
      (by norm_num) a h k

theorem sqr_32_ok : SubsqrOK sqr_32 32 :=
  fun a h k => by
    simpa [sqr_32] using sqr_generic_ok mul_16 sqr_16 16 mul_16_ok sqr_16_ok
      (by norm_num) a h k

theorem sqr_64_ok : SubsqrOK sqr_64 64 :=
  fun a h k => by
    simpa [sqr_64] using sqr_generic_ok mul_32 sqr_32 32 mul_32_ok sqr_32_ok
      (by norm_num) a h k

-- ## Value and structure utilities for `expmod_odd_mod`

theorem limbsVal_eq_zero (l : List Nat) (h : limbsVal l = 0) :
    l = List.replicate l.length 0 := by
  induction l with
  | nil => rfl
  | cons x xs ih =>
    rw [limbsVal_cons] at h
    have hx : x = 0 := by
      have := Nat.pos_pow_of_pos (n := U64LIMIT) xs.length (by simp [U64LIMIT])
      rcases Nat.eq_zero_or_pos x with h0 | h0
      · exact h0
      · exfalso
        have : U64LIMIT ^ xs.length ≤ x * U64LIMIT ^ xs.length :=
          Nat.le_mul_of_pos_left _ h0
        omega
    have hxs : limbsVal xs = 0 := by omega
    rw [hx, ih hxs]
    simp [List.replicate_succ]

theorem limbsVal_drop_mod (l : List Nat) (k : Nat) (h : limbsOK l) :
    limbsVal (l.drop k) = limbsVal l % U64LIMIT ^ (l.length - k) := by
  have htd := limbsVal_take_drop l k
  rw [List.length_drop] at htd
  have hdlt : limbsVal (l.drop k) < U64LIMIT ^ (l.length - k) := by
    have := limbsVal_lt (l.drop k) (limbsOK_drop l k h)
    rwa [List.length_drop] at this
  rw [htd, Nat.add_comm, Nat.add_mul_mod_self_right, Nat.mod_eq_of_lt hdlt]

theorem limbsVal_take_div (l : List Nat) (k : Nat) (h : limbsOK l) :
    limbsVal (l.take k) = limbsVal l / U64LIMIT ^ (l.length - k) := by
  have htd := limbsVal_take_drop l k
  rw [List.length_drop] at htd
  have hdlt : limbsVal (l.drop k) < U64LIMIT ^ (l.length - k) := by
    have := limbsVal_lt (l.drop k) (limbsOK_drop l k h)
    rwa [List.length_drop] at this
  have hpos : 0 < U64LIMIT ^ (l.length - k) :=
    Nat.pos_pow_of_pos _ (by simp [U64LIMIT])
  rw [htd, Nat.mul_comm, Nat.mul_add_div hpos, Nat.div_eq_of_lt hdlt]
  omega

theorem take_zero_of_val_lt (l : List Nat) (k : Nat) (h : limbsOK l)
    (hk : k ≤ l.length) (hv : limbsVal l < U64LIMIT ^ (l.length - k)) :
    l.take k = List.replicate k 0 := by
  have hz : limbsVal (l.take k) = 0 := by
    rw [limbsVal_take_div l k h, Nat.div_eq_of_lt hv]
  have := limbsVal_eq_zero (l.take k) hz
  rwa [List.length_take, Nat.min_eq_left hk] at this

theorem val_replicate_append (k : Nat) (l : List Nat) :
    limbsVal (List.replicate k 0 ++ l) = limbsVal l := by
  rw [limbsVal_append, limbsVal_replicate_zero]
  simp

theorem limbsOK_replicate_append (k : Nat) (l : List Nat) (h : limbsOK l) :
    limbsOK (List.replicate k 0 ++ l) := by
  intro x hx
  rcases List.mem_append.mp hx with h1 | h1
  · have := List.eq_of_mem_replicate h1
    simp [this, U64LIMIT]
  · exact h x h1

theorem limbsVal_parity (l : List Nat) (hne : l ≠ []) :
    limbsVal l % 2 = l.getD (l.length - 1) 0 % 2 := by
  induction l with
  | nil => exact absurd rfl hne
  | cons x xs ih =>
    cases xs with
    | nil => simp [limbsVal_cons, limbsVal_nil]
    | cons y ys =>
      rw [limbsVal_cons]
      have hlen : (y :: ys).length = ((y :: ys).length - 1) + 1 := by
        simp
      have hg : (x :: y :: ys).getD ((x :: y :: ys).length - 1) 0 =
          (y :: ys).getD ((y :: ys).length - 1) 0 := by
        simp [List.getD_cons_succ]
      rw [hg, ← ih (by simp)]
      have heven : x * U64LIMIT ^ (y :: ys).length % 2 = 0 := by
        have h2 : U64LIMIT ^ (y :: ys).length % 2 = 0 := by
          simp only [U64LIMIT, ← Nat.pow_mul]
          have h1 : (1 : Nat) ≤ 64 * (y :: ys).length := by
            simp
            omega
          rcases Nat.exists_eq_add_of_le h1 with ⟨c, hc⟩
          rw [hc, Nat.add_comm, pow_succ]
          omega
        rw [Nat.mul_mod, h2]
        simp
      omega

theorem gcd_pow_two_of_odd (n t : Nat) (h : n % 2 = 1) :
    Nat.gcd n (2 ^ t) = 1 := by
  have h2 : Nat.Coprime n 2 := Nat.coprime_two_right.mpr (Nat.odd_iff.mpr h)
  exact Nat.Coprime.gcd_eq_one (h2.pow_right t)

-- ## `expmod_odd_mod` subarray math profiles

/-- One of the three adaptive width profiles of `expmod_odd_mod`: the
working word count, its log2-of-bits, and the sub-width multiply and
square primitives. -/
structure ExpProfile where
  W : Nat
  logBits : Nat
  ml : List Nat → List Nat → List Nat
  sq : List Nat → List Nat

def profile16 : ExpProfile := ⟨16, 10, mul_16, sqr_16⟩

def profile32 : ExpProfile := ⟨32, 11, mul_32, sqr_32⟩

def profile64 : ExpProfile := ⟨64, 12, mul_64, sqr_64⟩

/-- Model of the `mul_16_subarr`/`mul_32_subarr`/`mul_64` dispatch: the
top limbs of the 64-limb inputs are ignored and the product of the low
`W`-limb halves is placed in the low limbs of a zeroed 128-limb array. -/
def mulP (p : ExpProfile) (a b : List Nat) : List Nat :=
  List.replicate (128 - 2 * p.W) 0 ++
    p.ml (a.drop (64 - p.W)) (b.drop (64 - p.W))

/-- Model of the `sqr_*_subarr` dispatch. -/
def sqrP (p : ExpProfile) (a : List Nat) : List Nat :=
  List.replicate (128 - 2 * p.W) 0 ++ p.sq (a.drop (64 - p.W))

/-- Model of the `add_32_subarr`/`add_64_subarr`/`add` dispatch on
128-limb arrays. -/
def addP (p : ExpProfile) (a b : List Nat) : List Nat × Bool :=
  let s := bigAdd (a.drop (128 - 2 * p.W)) (b.drop (128 - 2 * p.W))
  (List.replicate (128 - 2 * p.W) 0 ++ s.1, s.2)

/-- Model of the `sub_16_subarr`/`sub_32_subarr`/`sub` dispatch on
64-limb arrays. -/
def subP (p : ExpProfile) (a b : List Nat) : List Nat × Bool :=
  let s := bigSub (a.drop (64 - p.W)) (b.drop (64 - p.W))
  (List.replicate (64 - p.W) 0 ++ s.1, s.2)

/-- The facts the `expmod_odd_mod` proof needs about a width profile. -/
structure ProfileOK (p : ExpProfile) : Prop where
  wpos : 0 < p.W
  wle : p.W ≤ 64
  logeq : 64 * p.W = 2 ^ p.logBits
  log5 : 5 ≤ p.logBits
  hml : SubmulOK p.ml p.W
  hsq : SubsqrOK p.sq p.W

theorem profile16_ok : ProfileOK profile16 :=
  ⟨by decide, by decide, by decide, by decide, mul_16_ok, sqr_16_ok⟩

theorem profile32_ok : ProfileOK profile32 :=
  ⟨by decide, by decide, by decide, by decide, mul_32_ok, sqr_32_ok⟩

theorem profile64_ok : ProfileOK profile64 :=
  ⟨by decide, by decide, by decide, by decide, mul_64_ok, sqr_64_ok⟩

theorem mulP_spec (p : ExpProfile) (hp : ProfileOK p) (a b : List Nat)
    (hla : a.length = 64) (hlb : b.length = 64)
    (hka : limbsOK a) (hkb : limbsOK b)
    (hva : limbsVal a < U64LIMIT ^ p.W) (hvb : limbsVal b < U64LIMIT ^ p.W) :
    (mulP p a b).length = 128 ∧ limbsOK (mulP p a b) ∧
    limbsVal (mulP p a b) = limbsVal a * limbsVal b := by
  have hwle := hp.wle
  have hda : (a.drop (64 - p.W)).length = p.W := by
    rw [List.length_drop]; omega
  have hdb : (b.drop (64 - p.W)).length = p.W := by
    rw [List.length_drop]; omega
  have hvda : limbsVal (a.drop (64 - p.W)) = limbsVal a := by
    rw [limbsVal_drop_mod a _ hka, hla]
    have he : (64 : Nat) - (64 - p.W) = p.W := by omega
    rw [he, Nat.mod_eq_of_lt hva]
  have hvdb : limbsVal (b.drop (64 - p.W)) = limbsVal b := by
    rw [limbsVal_drop_mod b _ hkb, hlb]
    have he : (64 : Nat) - (64 - p.W) = p.W := by omega
    rw [he, Nat.mod_eq_of_lt hvb]
  obtain ⟨h1, h2, h3⟩ := hp.hml _ _ hda hdb
    (limbsOK_drop _ _ hka) (limbsOK_drop _ _ hkb)
  refine ⟨?_, limbsOK_replicate_append _ _ h2, ?_⟩
  · rw [mulP, List.length_append, List.length_replicate, h1]; omega
  · rw [mulP, val_replicate_append, h3, hvda, hvdb]

theorem sqrP_spec (p : ExpProfile) (hp : ProfileOK p) (a : List Nat)
    (hla : a.length = 64) (hka : limbsOK a)
    (hva : limbsVal a < U64LIMIT ^ p.W) :
    (sqrP p a).length = 128 ∧ limbsOK (sqrP p a) ∧
    limbsVal (sqrP p a) = limbsVal a * limbsVal a := by
  have hwle := hp.wle
  have hda : (a.drop (64 - p.W)).length = p.W := by
    rw [List.length_drop]; omega
  have hvda : limbsVal (a.drop (64 - p.W)) = limbsVal a := by
    rw [limbsVal_drop_mod a _ hka, hla]
    have he : (64 : Nat) - (64 - p.W) = p.W := by omega
    rw [he, Nat.mod_eq_of_lt hva]
  obtain ⟨h1, h2, h3⟩ := hp.hsq _ hda (limbsOK_drop _ _ hka)
  refine ⟨?_, limbsOK_replicate_append _ _ h2, ?_⟩
  · rw [sqrP, List.length_append, List.length_replicate, h1]; omega
  · rw [sqrP, val_replicate_append, h3, hvda]

theorem addP_spec (p : ExpProfile) (hp : ProfileOK p) (a b : List Nat)
    (hla : a.length = 128) (hlb : b.length = 128)
    (hka : limbsOK a) (hkb : limbsOK b)
    (hva : limbsVal a < U64LIMIT ^ (2 * p.W))
    (hvb : limbsVal b < U64LIMIT ^ (2 * p.W)) :
    (addP p a b).1.length = 128 ∧ limbsOK (addP p a b).1 ∧
    limbsVal (addP p a b).1 < U64LIMIT ^ (2 * p.W) ∧
    limbsVal (addP p a b).1 + U64LIMIT ^ (2 * p.W) * bitN (addP p a b).2 =
      limbsVal a + limbsVal b := by
  have hwle := hp.wle
  have hda : (a.drop (128 - 2 * p.W)).length = 2 * p.W := by
    rw [List.length_drop]; omega
  have hdb : (b.drop (128 - 2 * p.W)).length = 2 * p.W := by
    rw [List.length_drop]; omega
  have hvda : limbsVal (a.drop (128 - 2 * p.W)) = limbsVal a := by
    rw [limbsVal_drop_mod a _ hka, hla]
    have he : (128 : Nat) - (128 - 2 * p.W) = 2 * p.W := by omega
    rw [he, Nat.mod_eq_of_lt hva]
  have hvdb : limbsVal (b.drop (128 - 2 * p.W)) = limbsVal b := by
    rw [limbsVal_drop_mod b _ hkb, hlb]
    have he : (128 : Nat) - (128 - 2 * p.W) = 2 * p.W := by omega
    rw [he, Nat.mod_eq_of_lt hvb]
  obtain ⟨h1, h2, h3⟩ := bigAdd_spec _ _ (by rw [hda, hdb])
    (limbsOK_drop _ _ hka) (limbsOK_drop _ _ hkb)
  rw [hda] at h1 h3
  rw [hvda, hvdb] at h3
  have e1 : (addP p a b).1 = List.replicate (128 - 2 * p.W) 0 ++
      (bigAdd (a.drop (128 - 2 * p.W)) (b.drop (128 - 2 * p.W))).1 := rfl
  have e2 : (addP p a b).2 =
      (bigAdd (a.drop (128 - 2 * p.W)) (b.drop (128 - 2 * p.W))).2 := rfl
  refine ⟨?_, ?_, ?_, ?_⟩
  · rw [e1, List.length_append, List.length_replicate, h1]; omega
  · rw [e1]; exact limbsOK_replicate_append _ _ h2
  · rw [e1, val_replicate_append]
    have := limbsVal_lt _ h2
    rwa [h1] at this
  · rw [e1, e2, val_replicate_append]
    exact h3

theorem subP_spec (p : ExpProfile) (hp : ProfileOK p) (a b : List Nat)
    (hla : a.length = 64) (hlb : b.length = 64)
    (hka : limbsOK a) (hkb : limbsOK b)
    (hva : limbsVal a < U64LIMIT ^ p.W) (hvb : limbsVal b < U64LIMIT ^ p.W) :
    (subP p a b).1.length = 64 ∧ limbsOK (subP p a b).1 ∧
    limbsVal (subP p a b).1 + limbsVal b =
      limbsVal a + U64LIMIT ^ p.W * bitN (subP p a b).2 ∧
    (subP p a b).2 = decide (limbsVal a < limbsVal b) ∧
    limbsVal (subP p a b).1 < U64LIMIT ^ p.W := by
  have hwle := hp.wle
  have hda : (a.drop (64 - p.W)).length = p.W := by
    rw [List.length_drop]; omega
  have hdb : (b.drop (64 - p.W)).length = p.W := by
    rw [List.length_drop]; omega
  have hvda : limbsVal (a.drop (64 - p.W)) = limbsVal a := by
    rw [limbsVal_drop_mod a _ hka, hla]
    have he : (64 : Nat) - (64 - p.W) = p.W := by omega
    rw [he, Nat.mod_eq_of_lt hva]
  have hvdb : limbsVal (b.drop (64 - p.W)) = limbsVal b := by
    rw [limbsVal_drop_mod b _ hkb, hlb]
    have he : (64 : Nat) - (64 - p.W) = p.W := by omega
    rw [he, Nat.mod_eq_of_lt hvb]
  obtain ⟨h1, h2, h3⟩ := bigSub_spec _ _ (by rw [hda, hdb])
    (limbsOK_drop _ _ hka) (limbsOK_drop _ _ hkb)
  have hbw := bigSub_borrow _ _ (by rw [hda, hdb])
    (limbsOK_drop (l := a) _ hka) (limbsOK_drop (l := b) _ hkb)
  rw [hda] at h1 h3
  rw [hvda, hvdb] at h3 hbw
  have e1 : (subP p a b).1 = List.replicate (64 - p.W) 0 ++
      (bigSub (a.drop (64 - p.W)) (b.drop (64 - p.W))).1 := rfl
  have e2 : (subP p a b).2 =
      (bigSub (a.drop (64 - p.W)) (b.drop (64 - p.W))).2 := rfl
  refine ⟨?_, ?_, ?_, ?_, ?_⟩
  · rw [e1, List.length_append, List.length_replicate, h1]; omega
  · rw [e1]; exact limbsOK_replicate_append _ _ h2
  · rw [e1, e2, val_replicate_append]
    exact h3
  · rw [e2]; exact hbw
  · rw [e1, val_replicate_append]
    have := limbsVal_lt _ h2
    rwa [h1] at this

/-- Model of the `mont_reduction` closure inside `expmod_odd_mod`:
textbook REDC on the low `2W` limbs, with the final conditional
subtraction triggered by the add's extra bit or `t1_on_r >= m`. -/
def mont_reduction (p : ExpProfile) (m m_inv mu : List Nat) : List Nat :=
  let mu_mod_r := List.replicate (64 - p.W) 0 ++ mu.drop (128 - p.W)
  let v := mulP p mu_mod_r m_inv
  let vz := List.replicate (128 - p.W) 0 ++ v.drop (128 - p.W)
  let t0 := mulP p (vz.drop 64) m
  let t1p := addP p t0 mu
  let t1_on_r := List.replicate (64 - p.W) 0 ++
    (t1p.1.drop (128 - 2 * p.W)).take p.W
  if t1p.2 || !(slice_greater_than m t1_on_r) then (subP p t1_on_r m).1
  else t1_on_r

theorem mont_reduction_spec (p : ExpProfile) (hp : ProfileOK p)
    (m m_inv mu : List Nat)
    (hlm : m.length = 64) (hkm : limbsOK m)
    (hmR : limbsVal m < U64LIMIT ^ p.W)
    (hli : m_inv.length = 64) (hki : limbsOK m_inv)
    (hiR : limbsVal m_inv < U64LIMIT ^ p.W)
    (hinv : limbsVal m * limbsVal m_inv % U64LIMIT ^ p.W =
      U64LIMIT ^ p.W - 1)
    (hlmu : mu.length = 128) (hkmu : limbsOK mu)
    (hmu : limbsVal mu < U64LIMIT ^ p.W * limbsVal m) :
    (mont_reduction p m m_inv mu).length = 64 ∧
    limbsOK (mont_reduction p m m_inv mu) ∧
    limbsVal (mont_reduction p m m_inv mu) < limbsVal m ∧
    limbsVal (mont_reduction p m m_inv mu) * U64LIMIT ^ p.W ≡
      limbsVal mu [MOD limbsVal m] := by
  have hwpos := hp.wpos
  have hwle := hp.wle
  set R := U64LIMIT ^ p.W with hRdef
  have hR1 : 1 < R := by
    have : (2 : Nat) ^ 64 ≤ R := by
      rw [hRdef]
      calc (2 : Nat) ^ 64 = U64LIMIT ^ 1 := by simp [U64LIMIT]
        _ ≤ U64LIMIT ^ p.W := Nat.pow_le_pow_right (by simp [U64LIMIT]) hwpos
    omega
  have hm0 : 0 < limbsVal m := by
    rcases Nat.eq_zero_or_pos (limbsVal m) with h | h
    · rw [h] at hinv
      simp at hinv
      omega
    · exact h
  -- the low W limbs of mu
  have hmulen : (mu.drop (128 - p.W)).length = p.W := by
    rw [List.length_drop]; omega
  have hmuval : limbsVal (mu.drop (128 - p.W)) = limbsVal mu % R := by
    rw [limbsVal_drop_mod mu _ hkmu, hlmu]
    have he : (128 : Nat) - (128 - p.W) = p.W := by omega
    rw [he]
  set mu_mod_r := List.replicate (64 - p.W) 0 ++ mu.drop (128 - p.W)
    with hmurdef
  have hmurlen : mu_mod_r.length = 64 := by
    rw [hmurdef, List.length_append, List.length_replicate, hmulen]
    omega
  have hmurok : limbsOK mu_mod_r :=
    limbsOK_replicate_append _ _ (limbsOK_drop _ _ hkmu)
  have hmurval : limbsVal mu_mod_r = limbsVal mu % R := by
    rw [hmurdef, val_replicate_append, hmuval]
  have hmurlt : limbsVal mu_mod_r < R := by
    rw [hmurval]
    exact Nat.mod_lt _ (by omega)
  -- v = mu_mod_r * m_inv, then truncated to the low W limbs
  obtain ⟨hvl, hvk, hvv⟩ := mulP_spec p hp mu_mod_r m_inv hmurlen hli
    hmurok hki hmurlt hiR
  set v := mulP p mu_mod_r m_inv with hvdef
  set vz := List.replicate (128 - p.W) 0 ++ v.drop (128 - p.W) with hvzdef
  have hvzlen : vz.length = 128 := by
    rw [hvzdef, List.length_append, List.length_replicate, List.length_drop,
      hvl]
    omega
  have hvzok : limbsOK vz :=
    limbsOK_replicate_append _ _ (limbsOK_drop _ _ hvk)
  have hvzval : limbsVal vz = limbsVal mu % R * limbsVal m_inv % R := by
    rw [hvzdef, val_replicate_append, limbsVal_drop_mod v _ hvk, hvl, hvv,
      hmurval]
    have he : (128 : Nat) - (128 - p.W) = p.W := by omega
    rw [he]
  set V := limbsVal mu % R * limbsVal m_inv % R with hVdef
  have hVlt : V < R := Nat.mod_lt _ (by omega)
  -- the 64-limb view of v used for t0
  have hvz64len : (vz.drop 64).length = 64 := by
    rw [List.length_drop, hvzlen]
  have hvz64val : limbsVal (vz.drop 64) = V := by
    rw [limbsVal_drop_mod vz _ hvzok, hvzlen, hvzval]
    have he : (128 : Nat) - 64 = 64 := by omega
    rw [he]
    refine Nat.mod_eq_of_lt ?_
    calc V < R := hVlt
      _ ≤ U64LIMIT ^ 64 := Nat.pow_le_pow_right (by simp [U64LIMIT]) hwle
  have hvz64lt : limbsVal (vz.drop 64) < R := by rw [hvz64val]; exact hVlt
  -- t0 = V * m
  obtain ⟨ht0l, ht0k, ht0v⟩ := mulP_spec p hp (vz.drop 64) m hvz64len hlm
    (limbsOK_drop _ _ hvzok) hkm hvz64lt hmR
  set t0 := mulP p (vz.drop 64) m with ht0def
  rw [hvz64val] at ht0v
  have ht0lt : limbsVal t0 < U64LIMIT ^ (2 * p.W) := by
    rw [ht0v]
    have h1 : V * limbsVal m < R * R :=
      Nat.mul_lt_mul_of_lt_of_lt hVlt hmR
    calc V * limbsVal m < R * R := h1
      _ = U64LIMIT ^ (2 * p.W) := by
        rw [hRdef, ← pow_add]
        congr 1
        omega
  have hmult : limbsVal mu < U64LIMIT ^ (2 * p.W) := by
    have h2 : R * limbsVal m < R * R :=
      mul_lt_mul_of_pos_left hmR (by omega)
    calc limbsVal mu < R * limbsVal m := hmu
      _ < R * R := h2
      _ = U64LIMIT ^ (2 * p.W) := by
        rw [hRdef, ← pow_add]
        congr 1
        omega
  -- t1 = t0 + mu with extra bit
  obtain ⟨ht1l, ht1k, ht1w, ht1v⟩ := addP_spec p hp t0 mu ht0l hlmu ht0k hkmu
    ht0lt hmult
  set t1p := addP p t0 mu with ht1def
  set T := V * limbsVal m + limbsVal mu with hTdef
  have hR2 : U64LIMIT ^ (2 * p.W) = R * R := by
    rw [hRdef, ← pow_add]
    congr 1
    omega
  rw [ht0v, ← hTdef, hR2] at ht1v
  -- R divides T
  have hTdvd : R ∣ T := by
    have c1 : V ≡ limbsVal mu * limbsVal m_inv [MOD R] := by
      calc V ≡ limbsVal mu % R * limbsVal m_inv [MOD R] :=
            Nat.mod_modEq _ _
        _ ≡ limbsVal mu * limbsVal m_inv [MOD R] :=
            Nat.ModEq.mul_right _ (Nat.mod_modEq _ _)
    have c2 : limbsVal m * limbsVal m_inv + 1 ≡ 0 [MOD R] := by
      show (limbsVal m * limbsVal m_inv + 1) % R = 0 % R
      rw [Nat.add_mod, hinv, Nat.mod_eq_of_lt hR1]
      have he : R - 1 + 1 = R := by omega
      rw [he]
      simp
    have c3 : T ≡ limbsVal mu * (limbsVal m * limbsVal m_inv + 1) [MOD R] := by
      have := (c1.mul_right (limbsVal m)).add_right (limbsVal mu)
      calc T ≡ limbsVal mu * limbsVal m_inv * limbsVal m + limbsVal mu
            [MOD R] := this
        _ = limbsVal mu * (limbsVal m * limbsVal m_inv + 1) := by ring
    have c4 : T ≡ 0 [MOD R] := by
      calc T ≡ limbsVal mu * (limbsVal m * limbsVal m_inv + 1) [MOD R] := c3
        _ ≡ limbsVal mu * 0 [MOD R] := c2.mul_left _
        _ = 0 := by ring
    exact (Nat.modEq_zero_iff_dvd).mp c4
  obtain ⟨t, hTt⟩ := hTdvd
  -- T / R is at most 2m - 1
  have htlt : t < 2 * limbsVal m := by
    have hTbound : T < R * (2 * limbsVal m) := by
      rw [hTdef]
      have h1 : V * limbsVal m ≤ (R - 1) * limbsVal m :=
        Nat.mul_le_mul_right _ (by omega)
      have h2 : (R - 1) * limbsVal m + R * limbsVal m = 
          R * (2 * limbsVal m) - limbsVal m := by
        have hle : limbsVal m ≤ R * limbsVal m :=
          Nat.le_mul_of_pos_left _ (by omega)
        have : (R - 1) * limbsVal m = R * limbsVal m - limbsVal m :=
          Nat.sub_one_mul R (limbsVal m)
        rw [this]
        have e2 : R * (2 * limbsVal m) = R * limbsVal m + R * limbsVal m := by
          ring
        omega
      omega
    rw [hTt] at hTbound
    exact Nat.lt_of_mul_lt_mul_left hTbound
  -- the value of t1_on_r
  set beta := bitN t1p.2 with hbetadef
  have hbeta01 : beta = 0 ∨ beta = 1 := by
    rw [hbetadef, bitN]
    rcases t1p.2 <;> simp
  set VT := limbsVal t1p.1 with hVTdef
  have hVTlt : VT < R * R := by
    rw [hVTdef, ← hR2]
    exact ht1w
  -- the value of t1_on_r is VT / R
  set ton := List.replicate (64 - p.W) 0 ++
    (t1p.1.drop (128 - 2 * p.W)).take p.W with htondef
  have hunfold : mont_reduction p m m_inv mu =
      (if t1p.2 || !(slice_greater_than m ton) then (subP p ton m).1
       else ton) := rfl
  have htonlen1 : ((t1p.1.drop (128 - 2 * p.W)).take p.W).length = p.W := by
    rw [List.length_take, List.length_drop, ht1l]
    omega
  have htonlen : ton.length = 64 := by
    rw [htondef, List.length_append, List.length_replicate, htonlen1]
    omega
  have htonok : limbsOK ton :=
    limbsOK_replicate_append _ _ (limbsOK_take _ _ (limbsOK_drop _ _ ht1k))
  have hdroplen : (t1p.1.drop (128 - 2 * p.W)).length = 2 * p.W := by
    rw [List.length_drop, ht1l]
    omega
  have hdropval : limbsVal (t1p.1.drop (128 - 2 * p.W)) = VT := by
    rw [limbsVal_drop_mod _ _ ht1k, ht1l]
    have he : (128 : Nat) - (128 - 2 * p.W) = 2 * p.W := by omega
    rw [he]
    exact Nat.mod_eq_of_lt (by rw [hR2]; exact hVTlt)
  have htakeval : limbsVal ((t1p.1.drop (128 - 2 * p.W)).take p.W) =
      VT / R := by
    rw [limbsVal_take_div _ _ (limbsOK_drop _ _ ht1k), hdropval, hdroplen]
    have he : 2 * p.W - p.W = p.W := by omega
    rw [he]
  have htonval : limbsVal ton = VT / R := by
    rw [htondef, val_replicate_append, htakeval]
  have hVTdvd : R ∣ VT := by
    have h1 : R ∣ R * t := Dvd.intro t rfl
    have h2 : R ∣ R * R * beta := ⟨R * beta, by ring⟩
    have he : VT = R * t - R * R * beta := by omega
    rw [he]
    exact Nat.dvd_sub' h1 h2
  obtain ⟨u, huu⟩ := hVTdvd
  have htonu : limbsVal ton = u := by
    rw [htonval, huu, Nat.mul_div_cancel_left _ (by omega : 0 < R)]
  have hut : u + R * beta = t := by
    have h0 : R * u + R * R * beta = R * t := by
      rw [← huu]
      omega
    have h1 : R * (u + R * beta) = R * t := by
      calc R * (u + R * beta) = R * u + R * R * beta := by ring
        _ = R * t := h0
    exact Nat.eq_of_mul_eq_mul_left (by omega) h1
  have hu_lt_R : u < R := by
    have : R * u < R * R := by rw [← huu]; exact hVTlt
    exact Nat.lt_of_mul_lt_mul_left this
  have hton_lt_R : limbsVal ton < R := by rw [htonu]; exact hu_lt_R
  have hcmp : slice_greater_than m ton =
      decide (limbsVal ton < limbsVal m) :=
    slice_greater_than_spec m ton (by rw [hlm, htonlen]) hkm htonok
  -- T is congruent to mu mod m
  have hTmu : T ≡ limbsVal mu [MOD limbsVal m] := by
    show T % limbsVal m = limbsVal mu % limbsVal m
    rw [hTdef, Nat.add_comm, Nat.add_mul_mod_self_right]
  rcases htb : t1p.2 with _ | _
  · -- no extra bit: t1_on_r carries t itself
    have hbeta0 : beta = 0 := by rw [hbetadef, htb]; rfl
    rw [hbeta0, Nat.mul_zero, Nat.add_zero] at hut
    have htont : limbsVal ton = t := by rw [htonu]; omega
    by_cases hc : limbsVal ton < limbsVal m
    · -- t < m: no final subtraction
      have hres : mont_reduction p m m_inv mu = ton := by
        rw [hunfold, htb, hcmp, decide_eq_true hc]
        simp
      rw [hres]
      refine ⟨htonlen, htonok, by omega, ?_⟩
      rw [htont]
      calc t * R = T := by rw [hTt]; ring
        _ ≡ limbsVal mu [MOD limbsVal m] := hTmu
    · -- m <= t <= 2m - 1: subtract m once
      have hres : mont_reduction p m m_inv mu = (subP p ton m).1 := by
        rw [hunfold, htb, hcmp, decide_eq_false hc]
        simp
      obtain ⟨hsl, hsk, hsv, hsb, _⟩ := subP_spec p hp ton m htonlen hlm
        htonok hkm hton_lt_R hmR
      rw [htont] at hsv hsb hc
      have hb0 : (subP p ton m).2 = false := by
        rw [hsb]
        exact decide_eq_false hc
      rw [hb0] at hsv
      simp only [bitN, Bool.false_eq_true, if_false, Nat.mul_zero,
        Nat.add_zero] at hsv
      have hveq : limbsVal (subP p ton m).1 + limbsVal m = t := hsv
      have hcong : limbsVal (subP p ton m).1 ≡ t [MOD limbsVal m] := by
        show limbsVal (subP p ton m).1 % limbsVal m = t % limbsVal m
        conv_rhs => rw [← hveq]
        rw [Nat.add_mod_right]
      rw [hres]
      refine ⟨hsl, hsk, by omega, ?_⟩
      calc limbsVal (subP p ton m).1 * R ≡ t * R [MOD limbsVal m] :=
            hcong.mul_right R
        _ = T := by rw [hTt]; ring
        _ ≡ limbsVal mu [MOD limbsVal m] := hTmu
  · -- extra bit set: t1_on_r carries t - R and the subtraction always runs
    have hbeta1 : beta = 1 := by rw [hbetadef, htb]; rfl
    rw [hbeta1, Nat.mul_one] at hut
    have hres : mont_reduction p m m_inv mu = (subP p ton m).1 := by
      rw [hunfold, htb]
      simp
    obtain ⟨hsl, hsk, hsv, hsb, _⟩ := subP_spec p hp ton m htonlen hlm
      htonok hkm hton_lt_R hmR
    rw [htonu] at hsv hsb
    have hu_lt_m : u < limbsVal m := by omega
    have hb1 : (subP p ton m).2 = true := by
      rw [hsb]
      exact decide_eq_true hu_lt_m
    rw [hb1] at hsv
    simp only [bitN, if_true, Nat.mul_one] at hsv
    have hveq : limbsVal (subP p ton m).1 + limbsVal m = t := by omega
    have hcong : limbsVal (subP p ton m).1 ≡ t [MOD limbsVal m] := by
      show limbsVal (subP p ton m).1 % limbsVal m = t % limbsVal m
      conv_rhs => rw [← hveq]
      rw [Nat.add_mod_right]
    rw [hres]
    refine ⟨hsl, hsk, by omega, ?_⟩
    calc limbsVal (subP p ton m).1 * R ≡ t * R [MOD limbsVal m] :=
          hcong.mul_right R
      _ = T := by rw [hTt]; ring
      _ ≡ limbsVal mu [MOD limbsVal m] := hTmu

theorem val_lt_of_take_zero (l : List Nat) (k : Nat) (hk : k ≤ l.length)
    (h : l.take k = List.replicate k 0) (hok : limbsOK l) :
    limbsVal l < U64LIMIT ^ (l.length - k) := by
  have htd := limbsVal_take_drop l k
  rw [h, limbsVal_replicate_zero] at htd
  simp only [Nat.zero_mul, Nat.zero_add] at htd
  rw [htd]
  have := limbsVal_lt (l.drop k) (limbsOK_drop l k hok)
  rwa [List.length_drop] at this

theorem take_replicate_append (k : Nat) (l : List Nat) :
    (List.replicate k 0 ++ l).take k = List.replicate (k : Nat) 0 := by
  rw [List.take_append_of_le_length (by simp)]
  simp

/-- The 64-limb constant 2 used by the Newton iteration. -/
def two64 : List Nat := List.replicate 63 0 ++ [2]

/-- The 64-limb constant 1. -/
def one64 : List Nat := List.replicate 63 0 ++ [1]

/-- Model of the Newton iteration of `expmod_odd_mod` computing the
positive inverse of `m` mod `R`, performed `log_bits` times: each pass
multiplies the current estimate by `2 - m * inv mod R` and keeps the low
`W` limbs. -/
def newtonLoop (p : ExpProfile) (m : List Nat) : Nat → List Nat → List Nat
  | 0, inv => inv
  | fuel + 1, inv =>
    let m_m_inv0 := mulP p inv m
    let m_m_inv := List.replicate (128 - p.W) 0 ++ m_m_inv0.drop (128 - p.W)
    let s := (subP p two64 (m_m_inv.drop 64)).1
    let m_inv := mulP p s inv
    newtonLoop p m fuel (inv.take (64 - p.W) ++ m_inv.drop (128 - p.W))

theorem two64_facts : two64.length = 64 ∧ limbsOK two64 ∧ limbsVal two64 = 2 := by
  refine ⟨by decide, ?_, by decide⟩
  intro x hx
  rcases List.mem_append.mp hx with h | h
  · have := List.eq_of_mem_replicate h
    simp [this, U64LIMIT]
  · simp at h
    simp [h, U64LIMIT]

theorem one64_facts : one64.length = 64 ∧ limbsOK one64 ∧ limbsVal one64 = 1 := by
  refine ⟨by decide, ?_, by decide⟩
  intro x hx
  rcases List.mem_append.mp hx with h | h
  · have := List.eq_of_mem_replicate h
    simp [this, U64LIMIT]
  · simp at h
    simp [h, U64LIMIT]

theorem RPow (p : ExpProfile) : U64LIMIT ^ p.W = 2 ^ (64 * p.W) := by
  rw [U64LIMIT, ← pow_mul]

theorem newtonLoop_spec (p : ExpProfile) (hp : ProfileOK p) (m : List Nat)
    (hlm : m.length = 64) (hkm : limbsOK m)
    (hmR : limbsVal m < U64LIMIT ^ p.W)
    (fuel : Nat) : ∀ (t : Nat), 1 ≤ t → ∀ (inv : List Nat),
    inv.length = 64 → limbsOK inv →
    inv.take (64 - p.W) = List.replicate (64 - p.W) 0 →
    limbsVal m * limbsVal inv ≡ 1 [MOD 2 ^ t] →
    (newtonLoop p m fuel inv).length = 64 ∧
    limbsOK (newtonLoop p m fuel inv) ∧
    (newtonLoop p m fuel inv).take (64 - p.W) =
      List.replicate (64 - p.W) 0 ∧
    limbsVal m * limbsVal (newtonLoop p m fuel inv) ≡ 1
      [MOD 2 ^ min (2 ^ fuel * t) (64 * p.W)] := by
  have hwpos := hp.wpos
  have hwle := hp.wle
  induction fuel with
  | zero =>
    intro t ht inv hl hk hs hc
    refine ⟨hl, hk, hs, ?_⟩
    have hmin : min (2 ^ 0 * t) (64 * p.W) ≤ t := by
      simpa using Nat.min_le_left t (64 * p.W)
    exact Nat.ModEq.of_dvd (Nat.pow_dvd_pow 2 hmin) hc
  | succ fuel ih =>
    intro t ht inv hl hk hs hc
    set R := U64LIMIT ^ p.W with hRdef
    have hR64 : (2 : Nat) ^ 64 ≤ R := by
      rw [hRdef]
      calc (2 : Nat) ^ 64 = U64LIMIT ^ 1 := by simp [U64LIMIT]
        _ ≤ U64LIMIT ^ p.W := Nat.pow_le_pow_right (by simp [U64LIMIT]) hwpos
    have hR1 : 1 < R := by omega
    have hinvR : limbsVal inv < R := by
      have h0 := val_lt_of_take_zero inv (64 - p.W) (by rw [hl]; omega) hs hk
      rw [hl] at h0
      have h2 : (64 : Nat) - (64 - p.W) = p.W := by omega
      rwa [h2] at h0
    obtain ⟨ha1, ha2, ha3⟩ := mulP_spec p hp inv m hl hlm hk hkm hinvR hmR
    have hstep : newtonLoop p m (fuel + 1) inv = newtonLoop p m fuel
        (inv.take (64 - p.W) ++
          (mulP p ((subP p two64 ((List.replicate (128 - p.W) 0 ++
            (mulP p inv m).drop (128 - p.W)).drop 64)).1) inv).drop
              (128 - p.W)) := rfl
    set mm := List.replicate (128 - p.W) 0 ++
      (mulP p inv m).drop (128 - p.W) with hmmdef
    have hmmlen : mm.length = 128 := by
      rw [hmmdef, List.length_append, List.length_replicate,
        List.length_drop, ha1]
      omega
    have hmmok : limbsOK mm :=
      limbsOK_replicate_append _ _ (limbsOK_drop _ _ ha2)
    have hmmval : limbsVal mm = limbsVal inv * limbsVal m % R := by
      rw [hmmdef, val_replicate_append, limbsVal_drop_mod _ _ ha2, ha1, ha3]
      have he : (128 : Nat) - (128 - p.W) = p.W := by omega
      rw [he]
    have hmmR : limbsVal mm < R := by
      rw [hmmval]
      exact Nat.mod_lt _ (by omega)
    set low := mm.drop 64 with hlowdef
    have hlowlen : low.length = 64 := by
      rw [hlowdef, List.length_drop, hmmlen]
    have hlowok : limbsOK low := limbsOK_drop _ _ hmmok
    have hlowval : limbsVal low = limbsVal inv * limbsVal m % R := by
      rw [hlowdef, limbsVal_drop_mod _ _ hmmok, hmmlen, hmmval]
      have he : (128 : Nat) - 64 = 64 := by omega
      rw [he]
      refine Nat.mod_eq_of_lt ?_
      calc limbsVal inv * limbsVal m % R < R := Nat.mod_lt _ (by omega)
        _ ≤ U64LIMIT ^ 64 := Nat.pow_le_pow_right (by simp [U64LIMIT]) hwle
    have hlowR : limbsVal low < R := by
      rw [hlowval]
      exact Nat.mod_lt _ (by omega)
    obtain ⟨h2l, h2k, h2v⟩ := two64_facts
    have h2R : limbsVal two64 < R := by omega
    obtain ⟨hsl, hsk, hsv, hsbb, hsR⟩ := subP_spec p hp two64 low h2l
      hlowlen h2k hlowok h2R hlowR
    set s := (subP p two64 low).1 with hsdef
    obtain ⟨hml, hmk, hmv⟩ := mulP_spec p hp s inv hsl hl hsk hk hsR hinvR
    set minv := mulP p s inv with hminvdef
    set newinv := inv.take (64 - p.W) ++ minv.drop (128 - p.W)
      with hnewdef
    have hnewrep : newinv = List.replicate (64 - p.W) 0 ++
        minv.drop (128 - p.W) := by
      rw [hnewdef, hs]
    have hnewlen : newinv.length = 64 := by
      rw [hnewrep, List.length_append, List.length_replicate,
        List.length_drop, hml]
      omega
    have hnewok : limbsOK newinv := by
      rw [hnewrep]
      exact limbsOK_replicate_append _ _ (limbsOK_drop _ _ hmk)
    have hnewstruct : newinv.take (64 - p.W) =
        List.replicate (64 - p.W) 0 := by
      rw [hnewrep]
      exact take_replicate_append _ _
    have hnewval : limbsVal newinv = limbsVal s * limbsVal inv % R := by
      rw [hnewrep, val_replicate_append, limbsVal_drop_mod _ _ hmk, hml, hmv]
      have he : (128 : Nat) - (128 - p.W) = p.W := by omega
      rw [he]
    -- the doubled-precision congruence
    set t2 := min (2 * t) (64 * p.W) with ht2def
    rw [h2v] at hsv
    have hnewcong : limbsVal m * limbsVal newinv ≡ 1 [MOD 2 ^ t2] := by
      have hgR : ((2 : ℤ) ^ t2) ∣ ((R : ℤ)) := by
        have he : ((R : ℤ)) = 2 ^ (64 * p.W) := by
          rw [hRdef, RPow]
          push_cast
          ring
        rw [he]
        exact pow_dvd_pow 2 (by omega)
      rw [← Int.natCast_modEq_iff]
      push_cast
      have hz1 : ((limbsVal newinv : ℕ) : ℤ) ≡
          ((limbsVal s * limbsVal inv : ℕ) : ℤ) [ZMOD ((R : ℕ) : ℤ)] := by
        rw [Int.natCast_modEq_iff, hnewval]
        exact Nat.mod_modEq _ _
      have hz2 : ((limbsVal s : ℕ) : ℤ) ≡
          2 - ((limbsVal low : ℕ) : ℤ) [ZMOD ((R : ℕ) : ℤ)] := by
        rw [Int.modEq_iff_dvd]
        have hcast : (limbsVal s : ℤ) + (limbsVal low : ℤ) =
            2 + (R : ℤ) * ((bitN (subP p two64 low).2 : ℕ) : ℤ) := by
          exact_mod_cast hsv
        refine ⟨-((bitN (subP p two64 low).2 : ℕ) : ℤ), ?_⟩
        linear_combination (-1 : ℤ) * hcast
      have hz3 : ((limbsVal low : ℕ) : ℤ) ≡
          (limbsVal inv : ℤ) * (limbsVal m : ℤ) [ZMOD ((R : ℕ) : ℤ)] := by
        have h0 : limbsVal low ≡ limbsVal inv * limbsVal m [MOD R] := by
          rw [hlowval]
          exact Nat.mod_modEq _ _
        have h1 := Int.natCast_modEq_iff.mpr h0
        push_cast at h1
        exact h1
      have hz4 : (limbsVal m : ℤ) * (limbsVal newinv : ℤ) ≡
          ((limbsVal m : ℤ) * limbsVal inv) *
            (2 - (limbsVal m : ℤ) * limbsVal inv) [ZMOD ((R : ℕ) : ℤ)] := by
        calc (limbsVal m : ℤ) * (limbsVal newinv : ℤ)
            ≡ (limbsVal m : ℤ) * ((limbsVal s : ℤ) * limbsVal inv)
              [ZMOD ((R : ℕ) : ℤ)] := by
              have h0 := hz1.mul_left (limbsVal m : ℤ)
              push_cast at h0
              exact h0
          _ ≡ (limbsVal m : ℤ) * ((2 - (limbsVal low : ℤ)) * limbsVal inv)
              [ZMOD ((R : ℕ) : ℤ)] := (hz2.mul_right _).mul_left _
          _ ≡ (limbsVal m : ℤ) *
              ((2 - (limbsVal inv : ℤ) * limbsVal m) * limbsVal inv)
              [ZMOD ((R : ℕ) : ℤ)] := by
              have h5 : (2 - (limbsVal low : ℤ)) ≡
                  (2 - (limbsVal inv : ℤ) * limbsVal m)
                  [ZMOD ((R : ℕ) : ℤ)] := (Int.ModEq.refl 2).sub hz3
              exact (h5.mul_right _).mul_left _
          _ = ((limbsVal m : ℤ) * limbsVal inv) *
              (2 - (limbsVal m : ℤ) * limbsVal inv) := by ring
      have hz5 : (limbsVal m : ℤ) * (limbsVal newinv : ℤ) ≡
          ((limbsVal m : ℤ) * limbsVal inv) *
            (2 - (limbsVal m : ℤ) * limbsVal inv) [ZMOD ((2 : ℤ) ^ t2)] :=
        Int.ModEq.of_dvd hgR hz4
      have hcz : ((limbsVal m * limbsVal inv : ℕ) : ℤ) ≡
          ((1 : ℕ) : ℤ) [ZMOD ((2 ^ t : ℕ) : ℤ)] := Int.natCast_modEq_iff.mpr hc
      push_cast at hcz
      have hP : ((2 : ℤ) ^ t) ∣ ((limbsVal m : ℤ) * limbsVal inv - 1) := by
        have h0 := Int.ModEq.dvd hcz
        have he : ((limbsVal m : ℤ) * limbsVal inv - 1) =
            -(1 - (limbsVal m : ℤ) * limbsVal inv) := by ring
        rw [he]
        exact dvd_neg.mpr h0
      have hsq : ((2 : ℤ) ^ t2) ∣
          ((limbsVal m : ℤ) * limbsVal inv - 1) *
            ((limbsVal m : ℤ) * limbsVal inv - 1) := by
        have h2t : ((2 : ℤ) ^ t2) ∣ ((2 : ℤ) ^ t * (2 : ℤ) ^ t) := by
          rw [← pow_add]
          exact pow_dvd_pow 2 (by omega)
        exact h2t.trans (mul_dvd_mul hP hP)
      have hfinal : ((limbsVal m : ℤ) * limbsVal inv) *
          (2 - (limbsVal m : ℤ) * limbsVal inv) ≡ 1 [ZMOD ((2 : ℤ) ^ t2)] := by
        rw [Int.modEq_iff_dvd]
        have he : (1 : ℤ) - ((limbsVal m : ℤ) * limbsVal inv) *
            (2 - (limbsVal m : ℤ) * limbsVal inv) =
            ((limbsVal m : ℤ) * limbsVal inv - 1) *
              ((limbsVal m : ℤ) * limbsVal inv - 1) := by ring
        rw [he]
        exact hsq
      exact hz5.trans hfinal
    obtain ⟨hr1, hr2, hr3, hr4⟩ := ih t2 (by omega) newinv hnewlen hnewok
      hnewstruct hnewcong
    rw [hstep]
    refine ⟨hr1, hr2, hr3, ?_⟩
    refine Nat.ModEq.of_dvd (Nat.pow_dvd_pow 2 ?_) hr4
    rcases Nat.le_total (2 * t) (64 * p.W) with hle | hle
    · rw [ht2def, min_eq_left hle]
      have he : 2 ^ (fuel + 1) * t = 2 ^ fuel * (2 * t) := by ring
      rw [he]
    · rw [ht2def, min_eq_right hle]
      have h1 : min (2 ^ (fuel + 1) * t) (64 * p.W) ≤ 64 * p.W :=
        Nat.min_le_right _ _
      have h2 : 64 * p.W ≤ min (2 ^ fuel * (64 * p.W)) (64 * p.W) := by
        refine le_min ?_ (le_refl _)
        exact Nat.le_mul_of_pos_left _ (Nat.pos_pow_of_pos _ (by norm_num))
      omega

/-- Model of the 32 modular doublings (`double!` plus conditional full
subtraction) computing `2^32 * (R mod m) mod m`. -/
def doublesLoop (m : List Nat) : Nat → List Nat → List Nat
  | 0, r2 => r2
  | fuel + 1, r2 =>
    let d := bigDouble r2
    let r2n := if d.2 || slice_greater_than d.1 m then (bigSub d.1 m).1
      else d.1
    doublesLoop m fuel r2n

/-- Model of the `log_bits - LOG2_DOUBLES` Montgomery squarings. -/
def montSqLoop (p : ExpProfile) (m m_inv : List Nat) :
    Nat → List Nat → List Nat
  | 0, r2 => r2
  | fuel + 1, r2 =>
    montSqLoop p m m_inv fuel (mont_reduction p m m_inv (sqrP p r2))

/-- Fueled binary logarithm (structural model of `u64::leading_zeros`
support). -/
def log2Fuel : Nat → Nat → Nat
  | 0, _ => 0
  | fuel + 1, n => if 2 ≤ n then log2Fuel fuel (n / 2) + 1 else 0

/-- Model of `u64::leading_zeros`. -/
def u64LeadingZeros (x : Nat) : Nat :=
  if x = 0 then 64 else 63 - log2Fuel 64 x

/-- Model of the high-bit-clearing loop over `zip(m, r2_mod_m)`. -/
def clearHighBits : List Nat → List Nat → List Nat
  | m_limb :: ms, r2_limb :: rs =>
    let cb := u64LeadingZeros m_limb
    if cb = 0 then r2_limb :: rs
    else
      let r2n := r2_limb &&& (2 ^ (64 - cb) - 1)
      if m_limb ≠ 0 then r2n :: rs
      else r2n :: clearHighBits ms rs
  | _, rs => rs

/-- Model of the square-and-multiply loop (`while exp != 1`). -/
def expLoop (p : ExpProfile) (m m_inv : List Nat) :
    Nat → Nat → List Nat → List Nat → List Nat × List Nat
  | 0, _, tr, ar => (tr, ar)
  | fuel + 1, exp, tr, ar =>
    if exp = 1 then (tr, ar)
    else
      let trp := if exp % 2 = 1
        then (mont_reduction p m m_inv (mulP p tr ar), exp - 1)
        else (tr, exp)
      expLoop p m m_inv fuel (trp.2 / 2) trp.1
        (mont_reduction p m m_inv (sqrP p ar))

/-- Model of the main body of `expmod_odd_mod` past the early returns,
for a fixed width profile: Newton inversion, negation, `R mod m` by
division, 32 doublings, Montgomery squarings, high-bit clearing, and the
exponentiation loop. -/
def expmodCore (p : ExpProfile) (a : List Nat) (exp : Nat) (m : List Nat) :
    Except Unit (List Nat) :=
  let m_inv_pos := newtonLoop p m p.logBits one64
  let m_inv_pos2 := List.replicate (64 - p.W) 0 ++ m_inv_pos.drop (64 - p.W)
  let m_inv1 := bigNegate m_inv_pos2
  let m_inv := List.replicate (64 - p.W) 0 ++ m_inv1.drop (64 - p.W)
  let r_minus_one := List.replicate (64 - p.W) 0 ++
    List.replicate p.W (U64LIMIT - 1)
  match div_rem_64 r_minus_one m with
  | Except.error e => Except.error e
  | Except.ok (_, rm) =>
    let rp := bigAddU64 rm 1
    let r_mod_m := if rp.2 || !(slice_greater_than m rp.1)
      then (bigSub rp.1 m).1 else rp.1
    let r2a := doublesLoop m 32 r_mod_m
    let r2b := montSqLoop p m m_inv (p.logBits - 5) r2a
    let r2c := clearHighBits m r2b
    let tr := mont_reduction p m m_inv (mulP p r2c one64)
    let ar := mont_reduction p m m_inv (mulP p r2c a)
    let res := expLoop p m m_inv 32 exp tr ar
    let ar3 := mont_reduction p m m_inv (mulP p res.2 res.1)
    Except.ok (mont_reduction p m m_inv (List.replicate 64 0 ++ ar3))

/-- Model of the adaptive width-profile selection on the modulus's
zero-limb prefix. -/
def expmodProfile (m : List Nat) : ExpProfile :=
  if m.take 32 = List.replicate 32 0 then
    if m.take 48 = List.replicate 48 0 then profile16 else profile32
  else profile64

/-- Model of `U4096::expmod_odd_mod` (guards in source order, then the
profile dispatch into the main body). -/
def expmod_odd_mod (a : List Nat) (exp : Nat) (m : List Nat) :
    Except Unit (List Nat) :=
  if m = List.replicate 64 0 then Except.error ()
  else if m.getD 63 0 &&& 1 = 0 then Except.error ()
  else if slice_greater_than a m then Except.error ()
  else if m.take 63 = List.replicate 63 0 ∧ m.getD 63 0 = 1 then
    Except.ok (List.replicate 64 0)
  else if exp = 0 then Except.ok one64
  else expmodCore (expmodProfile m) a exp m

theorem doublesLoop_spec (m : List Nat) (hlm : m.length = 64)
    (hkm : limbsOK m) (hmodd : limbsVal m % 2 = 1) (fuel : Nat) :
    ∀ r2 : List Nat, r2.length = 64 → limbsOK r2 →
    limbsVal r2 < limbsVal m →
    (doublesLoop m fuel r2).length = 64 ∧
    limbsOK (doublesLoop m fuel r2) ∧
    limbsVal (doublesLoop m fuel r2) < limbsVal m ∧
    limbsVal (doublesLoop m fuel r2) ≡ 2 ^ fuel * limbsVal r2
      [MOD limbsVal m] := by
  induction fuel with
  | zero =>
    intro r2 hl hk hlt
    exact ⟨hl, hk, hlt, by simpa using Nat.ModEq.refl _⟩
  | succ fuel ih =>
    intro r2 hl hk hlt
    have hstep : doublesLoop m (fuel + 1) r2 = doublesLoop m fuel
        (if (bigDouble r2).2 || slice_greater_than (bigDouble r2).1 m
         then (bigSub (bigDouble r2).1 m).1 else (bigDouble r2).1) := rfl
    obtain ⟨hd1, hd2, hd3⟩ := bigDouble_spec r2 hk
    rw [hl] at hd1 hd3
    have hmlt : limbsVal m < U64LIMIT ^ 64 := by
      have := limbsVal_lt m hkm
      rwa [hlm] at this
    have hdlt : limbsVal (bigDouble r2).1 < U64LIMIT ^ 64 := by
      have := limbsVal_lt (bigDouble r2).1 hd2
      rwa [hd1] at this
    have hcmp : slice_greater_than (bigDouble r2).1 m =
        decide (limbsVal m < limbsVal (bigDouble r2).1) :=
      slice_greater_than_spec _ m (by rw [hd1, hlm]) hd2 hkm
    set r2n := if (bigDouble r2).2 || slice_greater_than (bigDouble r2).1 m
      then (bigSub (bigDouble r2).1 m).1 else (bigDouble r2).1 with hr2ndef
    have hmain : r2n.length = 64 ∧ limbsOK r2n ∧
        limbsVal r2n < limbsVal m ∧
        limbsVal r2n ≡ 2 * limbsVal r2 [MOD limbsVal m] := by
      obtain ⟨hb1, hb2, hb3⟩ := bigSub_spec (bigDouble r2).1 m
        (by rw [hd1, hlm]) hd2 hkm
      have hbb := bigSub_borrow (bigDouble r2).1 m (by rw [hd1, hlm]) hd2 hkm
      rw [hd1] at hb1 hb3
      rcases hov : (bigDouble r2).2 with _ | _
      · -- no overflow: the double's value is exact
        rw [hov] at hd3
        simp only [bitN, Bool.false_eq_true, if_false, Nat.mul_zero,
          Nat.add_zero] at hd3
        by_cases hgt : limbsVal m < limbsVal (bigDouble r2).1
        · have hcond : r2n = (bigSub (bigDouble r2).1 m).1 := by
            rw [hr2ndef, hov, hcmp, decide_eq_true hgt]
            simp
          have hbb0 : (bigSub (bigDouble r2).1 m).2 = false := by
            rw [hbb]
            exact decide_eq_false (by omega)
          rw [hbb0] at hb3
          simp only [bitN, Bool.false_eq_true, if_false, Nat.mul_zero,
            Nat.add_zero] at hb3
          have hveq : limbsVal (bigSub (bigDouble r2).1 m).1 + limbsVal m =
              2 * limbsVal r2 := by omega
          refine ⟨by rw [hcond]; exact hb1, by rw [hcond]; exact hb2, ?_, ?_⟩
          · rw [hcond]; omega
          · rw [hcond]
            show limbsVal (bigSub (bigDouble r2).1 m).1 % limbsVal m =
              2 * limbsVal r2 % limbsVal m
            conv_rhs => rw [← hveq]
            rw [Nat.add_mod_right]
        · have hcond : r2n = (bigDouble r2).1 := by
            rw [hr2ndef, hov, hcmp, decide_eq_false hgt]
            simp
          have hne : limbsVal (bigDouble r2).1 ≠ limbsVal m := by
            intro he
            rw [← he] at hmodd
            rw [hd3] at hmodd
            omega
          refine ⟨by rw [hcond]; exact hd1, by rw [hcond]; exact hd2, ?_, ?_⟩
          · rw [hcond]; omega
          · rw [hcond, hd3]
      · -- overflow: the double wrapped past 2^4096
        rw [hov] at hd3
        simp only [bitN, if_true, Nat.mul_one] at hd3
        have hcond : r2n = (bigSub (bigDouble r2).1 m).1 := by
          rw [hr2ndef, hov]
          simp
        have hdm : limbsVal (bigDouble r2).1 < limbsVal m := by omega
        have hbb1 : (bigSub (bigDouble r2).1 m).2 = true := by
          rw [hbb]
          exact decide_eq_true hdm
        rw [hbb1] at hb3
        simp only [bitN, if_true, Nat.mul_one] at hb3
        have hveq : limbsVal (bigSub (bigDouble r2).1 m).1 + limbsVal m =
            2 * limbsVal r2 := by omega
        refine ⟨by rw [hcond]; exact hb1, by rw [hcond]; exact hb2, ?_, ?_⟩
        · rw [hcond]; omega
        · rw [hcond]
          show limbsVal (bigSub (bigDouble r2).1 m).1 % limbsVal m =
            2 * limbsVal r2 % limbsVal m
          conv_rhs => rw [← hveq]
          rw [Nat.add_mod_right]
    obtain ⟨hm1, hm2, hm3, hm4⟩ := hmain
    obtain ⟨hq1, hq2, hq3, hq4⟩ := ih r2n hm1 hm2 hm3
    rw [hstep]
    refine ⟨hq1, hq2, hq3, ?_⟩
    calc limbsVal (doublesLoop m fuel r2n)
        ≡ 2 ^ fuel * limbsVal r2n [MOD limbsVal m] := hq4
      _ ≡ 2 ^ fuel * (2 * limbsVal r2) [MOD limbsVal m] := hm4.mul_left _
      _ = 2 ^ (fuel + 1) * limbsVal r2 := by ring

theorem montSqLoop_spec (p : ExpProfile) (hp : ProfileOK p)
    (m m_inv : List Nat)
    (hlm : m.length = 64) (hkm : limbsOK m)
    (hmR : limbsVal m < U64LIMIT ^ p.W)
    (hli : m_inv.length = 64) (hki : limbsOK m_inv)
    (hiR : limbsVal m_inv < U64LIMIT ^ p.W)
    (hinv : limbsVal m * limbsVal m_inv % U64LIMIT ^ p.W =
      U64LIMIT ^ p.W - 1)
    (fuel : Nat) : ∀ r2 : List Nat, r2.length = 64 → limbsOK r2 →
    limbsVal r2 < limbsVal m →
    (montSqLoop p m m_inv fuel r2).length = 64 ∧
    limbsOK (montSqLoop p m m_inv fuel r2) ∧
    limbsVal (montSqLoop p m m_inv fuel r2) < limbsVal m ∧
    limbsVal (montSqLoop p m m_inv fuel r2) *
        (U64LIMIT ^ p.W) ^ (2 ^ fuel - 1) ≡
      limbsVal r2 ^ 2 ^ fuel [MOD limbsVal m] := by
  induction fuel with
  | zero =>
    intro r2 hl hk hlt
    refine ⟨hl, hk, hlt, ?_⟩
    simpa using Nat.ModEq.refl (limbsVal r2)
  | succ fuel ih =>
    intro r2 hl hk hlt
    have hstep : montSqLoop p m m_inv (fuel + 1) r2 = montSqLoop p m m_inv
        fuel (mont_reduction p m m_inv (sqrP p r2)) := rfl
    have hr2R : limbsVal r2 < U64LIMIT ^ p.W := by omega
    obtain ⟨hs1, hs2, hs3⟩ := sqrP_spec p hp r2 hl hk hr2R
    have hmuB : limbsVal (sqrP p r2) < U64LIMIT ^ p.W * limbsVal m := by
      rw [hs3]
      have h1 : limbsVal r2 * limbsVal r2 < limbsVal m * limbsVal m :=
        Nat.mul_lt_mul_of_lt_of_lt hlt hlt
      have h2 : limbsVal m * limbsVal m ≤ U64LIMIT ^ p.W * limbsVal m :=
        Nat.mul_le_mul_right _ (by omega)
      omega
    obtain ⟨hq1, hq2, hq3, hq4⟩ := mont_reduction_spec p hp m m_inv
      (sqrP p r2) hlm hkm hmR hli hki hiR hinv hs1 hs2 hmuB
    rw [hs3] at hq4
    obtain ⟨hz1, hz2, hz3, hz4⟩ := ih (mont_reduction p m m_inv (sqrP p r2))
      hq1 hq2 hq3
    rw [hstep]
    refine ⟨hz1, hz2, hz3, ?_⟩
    have hpow := hq4.pow (2 ^ fuel)
    -- (x' * R)^(2^fuel) ≡ (r2 * r2)^(2^fuel) = r2^(2^(fuel+1))
    have hcomb := hz4.mul_right ((U64LIMIT ^ p.W) ^ 2 ^ fuel)
    have hfe : 2 ^ (fuel + 1) - 1 = (2 ^ fuel - 1) + 2 ^ fuel := by
      have h1 : 1 ≤ 2 ^ fuel := Nat.one_le_pow _ _ (by norm_num)
      have h2 : 2 ^ (fuel + 1) = 2 ^ fuel + 2 ^ fuel := by
        rw [pow_succ]
        ring
      omega
    calc limbsVal (montSqLoop p m m_inv fuel
          (mont_reduction p m m_inv (sqrP p r2))) *
            (U64LIMIT ^ p.W) ^ (2 ^ (fuel + 1) - 1)
        = limbsVal (montSqLoop p m m_inv fuel
            (mont_reduction p m m_inv (sqrP p r2))) *
            (U64LIMIT ^ p.W) ^ (2 ^ fuel - 1) *
            (U64LIMIT ^ p.W) ^ 2 ^ fuel := by
          rw [hfe, pow_add]
          ring
      _ ≡ limbsVal (mont_reduction p m m_inv (sqrP p r2)) ^ 2 ^ fuel *
            (U64LIMIT ^ p.W) ^ 2 ^ fuel [MOD limbsVal m] := hcomb
      _ = (limbsVal (mont_reduction p m m_inv (sqrP p r2)) *
            U64LIMIT ^ p.W) ^ 2 ^ fuel := by
          rw [Nat.mul_pow]
      _ ≡ (limbsVal r2 * limbsVal r2) ^ 2 ^ fuel [MOD limbsVal m] := hpow
      _ = limbsVal r2 ^ 2 ^ (fuel + 1) := by
          have he : limbsVal r2 * limbsVal r2 = limbsVal r2 ^ 2 := by ring
          rw [he, ← pow_mul]
          congr 1
          rw [pow_succ]
          ring

theorem log2Fuel_spec (fuel : Nat) : ∀ n : Nat, 0 < n → n < 2 ^ fuel →
    2 ^ log2Fuel fuel n ≤ n ∧ n < 2 ^ (log2Fuel fuel n + 1) := by
  induction fuel with
  | zero =>
    intro n hn hlt
    simp at hlt
    omega
  | succ fuel ih =>
    intro n hn hlt
    by_cases h2 : 2 ≤ n
    · have hstep : log2Fuel (fuel + 1) n = log2Fuel fuel (n / 2) + 1 := by
        rw [log2Fuel, if_pos h2]
      have hhalf : 0 < n / 2 := by omega
      have hhalflt : n / 2 < 2 ^ fuel := by
        have hq : 2 ^ (fuel + 1) = 2 * 2 ^ fuel := by
          rw [pow_succ]
          ring
        omega
      obtain ⟨hA, hB⟩ := ih (n / 2) hhalf hhalflt
      rw [hstep]
      constructor
      · rw [pow_succ]
        omega
      · rw [pow_succ, pow_succ] at *
        omega
    · have hstep : log2Fuel (fuel + 1) n = 0 := by
        rw [log2Fuel, if_neg h2]
      rw [hstep]
      simp
      omega

theorem u64LeadingZeros_mask (x : Nat) (hx : 0 < x) (hlt : x < 2 ^ 64) :
    x < 2 ^ (64 - u64LeadingZeros x) := by
  have hf : x < 2 ^ 64 := hlt
  obtain ⟨hA, hB⟩ := log2Fuel_spec 64 x hx hf
  have hL : log2Fuel 64 x ≤ 63 := by
    by_contra hc
    have h64 : 64 ≤ log2Fuel 64 x := by omega
    have : 2 ^ 64 ≤ 2 ^ log2Fuel 64 x := Nat.pow_le_pow_right (by norm_num) h64
    omega
  have hz : u64LeadingZeros x = 63 - log2Fuel 64 x := by
    rw [u64LeadingZeros, if_neg (by omega)]
  rw [hz]
  have he : 64 - (63 - log2Fuel 64 x) = log2Fuel 64 x + 1 := by omega
  rw [he]
  exact hB

theorem clearHighBits_eq (m : List Nat) : ∀ r2 : List Nat,
    m.length = r2.length → limbsOK m → limbsOK r2 →
    limbsVal r2 < limbsVal m →
    clearHighBits m r2 = r2 := by
  induction m with
  | nil =>
    intro r2 hlen hkm hkr hlt
    cases r2 with
    | nil => rfl
    | cons x xs => simp at hlen
  | cons mh ms ih =>
    intro r2 hlen hkm hkr hlt
    cases r2 with
    | nil => simp at hlen
    | cons rh rs =>
      have hlen2 : ms.length = rs.length := by simpa using hlen
      have hkms : limbsOK ms := fun z hz => hkm z (List.mem_cons_of_mem _ hz)
      have hkrs : limbsOK rs := fun z hz => hkr z (List.mem_cons_of_mem _ hz)
      have hmh : mh < U64LIMIT := hkm mh (by simp)
      have hrh : rh < U64LIMIT := hkr rh (by simp)
      have hvrs : limbsVal rs < U64LIMIT ^ ms.length := by
        have := limbsVal_lt rs hkrs
        rwa [← hlen2] at this
      have hvms : limbsVal ms < U64LIMIT ^ ms.length := limbsVal_lt ms hkms
      rw [limbsVal_cons, limbsVal_cons, ← hlen2] at hlt
      have hrh_le : rh ≤ mh := by
        by_contra hc
        have h1 : mh + 1 ≤ rh := by omega
        have h2 : (mh + 1) * U64LIMIT ^ ms.length ≤
            rh * U64LIMIT ^ ms.length := Nat.mul_le_mul_right _ h1
        have h3 : mh * U64LIMIT ^ ms.length + U64LIMIT ^ ms.length =
            (mh + 1) * U64LIMIT ^ ms.length := by ring
        omega
      have hstep : clearHighBits (mh :: ms) (rh :: rs) =
          (if u64LeadingZeros mh = 0 then rh :: rs
           else if mh ≠ 0 then
             (rh &&& (2 ^ (64 - u64LeadingZeros mh) - 1)) :: rs
           else (rh &&& (2 ^ (64 - u64LeadingZeros mh) - 1)) ::
             clearHighBits ms rs) := rfl
      by_cases hmz : mh = 0
      · -- leading zero limb of m: the matching r2 limb is already zero
        have hrz : rh = 0 := by omega
        have hlz : u64LeadingZeros mh = 64 := by
          rw [hmz, u64LeadingZeros, if_pos rfl]
        rw [hstep, hlz]
        rw [if_neg (by omega), if_neg (by simp [hmz])]
        have hmask : rh &&& (2 ^ (64 - 64) - 1) = rh := by
          rw [hrz]
          simp
        rw [hmask]
        have hrec : clearHighBits ms rs = rs := by
          refine ih rs hlen2 hkms hkrs ?_
          rw [hmz, hrz] at hlt
          simpa using hlt
        rw [hrec]
      · by_cases hcb : u64LeadingZeros mh = 0
        · rw [hstep, if_pos hcb]
        · rw [hstep, if_neg hcb, if_pos hmz]
          have hmask : rh &&& (2 ^ (64 - u64LeadingZeros mh) - 1) = rh := by
            rw [Nat.and_pow_two_sub_one_eq_mod]
            refine Nat.mod_eq_of_lt ?_
            have hmlt : mh < 2 ^ (64 - u64LeadingZeros mh) :=
              u64LeadingZeros_mask mh (by omega) (by
                simpa [U64LIMIT] using hmh)
            omega
          rw [hmask]

theorem coprime_R_pow (p : ExpProfile) (M k : Nat) (hModd : M % 2 = 1) :
    Nat.gcd M ((U64LIMIT ^ p.W) ^ k) = 1 := by
  have he : (U64LIMIT ^ p.W) ^ k = 2 ^ (64 * p.W * k) := by
    rw [RPow, ← pow_mul]
  rw [he]
  exact gcd_pow_two_of_odd M _ hModd

theorem modeq_cancel_R (M c a b : Nat) (hgcd : Nat.gcd M c = 1)
    (h : a * c ≡ b * c [MOD M]) : a ≡ b [MOD M] := by
  have h2 : c * a ≡ c * b [MOD M] := by
    calc c * a = a * c := by ring
      _ ≡ b * c [MOD M] := h
      _ = c * b := by ring
  exact Nat.ModEq.cancel_left_of_coprime hgcd h2

theorem expLoop_spec (p : ExpProfile) (hp : ProfileOK p) (m m_inv : List Nat)
    (hlm : m.length = 64) (hkm : limbsOK m)
    (hmR : limbsVal m < U64LIMIT ^ p.W) (hmodd : limbsVal m % 2 = 1)
    (hli : m_inv.length = 64) (hki : limbsOK m_inv)
    (hiR : limbsVal m_inv < U64LIMIT ^ p.W)
    (hinv : limbsVal m * limbsVal m_inv % U64LIMIT ^ p.W =
      U64LIMIT ^ p.W - 1)
    (fuel : Nat) : ∀ (exp : Nat) (tr ar : List Nat) (X : Nat),
    1 ≤ exp → exp < 2 ^ fuel →
    tr.length = 64 → limbsOK tr → limbsVal tr < limbsVal m →
    ar.length = 64 → limbsOK ar → limbsVal ar < limbsVal m →
    limbsVal tr * limbsVal ar ^ exp ≡
      X * (U64LIMIT ^ p.W) ^ (exp + 1) [MOD limbsVal m] →
    (expLoop p m m_inv fuel exp tr ar).1.length = 64 ∧
    limbsOK (expLoop p m m_inv fuel exp tr ar).1 ∧
    limbsVal (expLoop p m m_inv fuel exp tr ar).1 < limbsVal m ∧
    (expLoop p m m_inv fuel exp tr ar).2.length = 64 ∧
    limbsOK (expLoop p m m_inv fuel exp tr ar).2 ∧
    limbsVal (expLoop p m m_inv fuel exp tr ar).2 < limbsVal m ∧
    limbsVal (expLoop p m m_inv fuel exp tr ar).1 *
        limbsVal (expLoop p m m_inv fuel exp tr ar).2 ≡
      X * (U64LIMIT ^ p.W) ^ 2 [MOD limbsVal m] := by
  induction fuel with
  | zero =>
    intro exp tr ar X h1 h2
    simp at h2
    omega
  | succ fuel ih =>
    intro exp tr ar X hexp1 hexplt hltr hktr hvtr hlar hkar hvar hInv
    have hstep : expLoop p m m_inv (fuel + 1) exp tr ar =
        (if exp = 1 then (tr, ar)
         else
           expLoop p m m_inv fuel
             ((if exp % 2 = 1
               then (mont_reduction p m m_inv (mulP p tr ar), exp - 1)
               else (tr, exp)).2 / 2)
             (if exp % 2 = 1
               then (mont_reduction p m m_inv (mulP p tr ar), exp - 1)
               else (tr, exp)).1
             (mont_reduction p m m_inv (sqrP p ar))) := rfl
    by_cases hone : exp = 1
    · subst hone
      rw [hstep, if_pos rfl]
      refine ⟨hltr, hktr, hvtr, hlar, hkar, hvar, ?_⟩
      simpa using hInv
    · rw [hstep, if_neg hone]
      have hexp2 : 2 ≤ exp := by omega
      -- ar1 = mont(sqr ar) in both parities
      obtain ⟨hsq1, hsq2, hsq3⟩ := sqrP_spec p hp ar hlar hkar (by omega)
      have hsqB : limbsVal (sqrP p ar) < U64LIMIT ^ p.W * limbsVal m := by
        rw [hsq3]
        have hm1 : limbsVal ar * limbsVal ar < limbsVal m * limbsVal m :=
          Nat.mul_lt_mul_of_lt_of_lt hvar hvar
        have hm2 : limbsVal m * limbsVal m ≤ U64LIMIT ^ p.W * limbsVal m :=
          Nat.mul_le_mul_right _ (by omega)
        omega
      obtain ⟨ha1, ha2, ha3, ha4⟩ := mont_reduction_spec p hp m m_inv
        (sqrP p ar) hlm hkm hmR hli hki hiR hinv hsq1 hsq2 hsqB
      rw [hsq3] at ha4
      by_cases hpar : exp % 2 = 1
      · rw [if_pos hpar]
        set e2 := (exp - 1) / 2 with he2def
        have hexpodd : exp = 2 * e2 + 1 := by omega
        have he2pos : 1 ≤ e2 := by omega
        have he2lt : e2 < 2 ^ fuel := by
          have hq : 2 ^ (fuel + 1) = 2 * 2 ^ fuel := by
            rw [pow_succ]
            ring
          omega
        obtain ⟨hmu1, hmu2, hmu3⟩ := mulP_spec p hp tr ar hltr hlar hktr
          hkar (by omega) (by omega)
        have hmuB : limbsVal (mulP p tr ar) <
            U64LIMIT ^ p.W * limbsVal m := by
          rw [hmu3]
          have hm1 : limbsVal tr * limbsVal ar < limbsVal m * limbsVal m :=
            Nat.mul_lt_mul_of_lt_of_lt hvtr hvar
          have hm2 : limbsVal m * limbsVal m ≤ U64LIMIT ^ p.W * limbsVal m :=
            Nat.mul_le_mul_right _ (by omega)
          omega
        obtain ⟨ht1, ht2, ht3, ht4⟩ := mont_reduction_spec p hp m m_inv
          (mulP p tr ar) hlm hkm hmR hli hki hiR hinv hmu1 hmu2 hmuB
        rw [hmu3] at ht4
        have hdiv : (exp - 1) / 2 = e2 := rfl
        have hnewInv : limbsVal (mont_reduction p m m_inv (mulP p tr ar)) *
            limbsVal (mont_reduction p m m_inv (sqrP p ar)) ^ e2 ≡
            X * (U64LIMIT ^ p.W) ^ (e2 + 1) [MOD limbsVal m] := by
          set R := U64LIMIT ^ p.W with hRdef
          set T1 := limbsVal (mont_reduction p m m_inv (mulP p tr ar))
            with hT1def
          set A1 := limbsVal (mont_reduction p m m_inv (sqrP p ar))
            with hA1def
          refine modeq_cancel_R (limbsVal m) (R ^ (e2 + 1)) _ _
            (coprime_R_pow p _ _ hmodd) ?_
          have hchain : (T1 * A1 ^ e2) * R ^ (e2 + 1) =
              (T1 * R) * (A1 * R) ^ e2 := by
            rw [Nat.mul_pow]
            ring
          have hc1 : (T1 * R) * (A1 * R) ^ e2 ≡
              (limbsVal tr * limbsVal ar) *
                (limbsVal ar * limbsVal ar) ^ e2 [MOD limbsVal m] :=
            Nat.ModEq.mul ht4 (ha4.pow e2)
          have hc2 : (limbsVal tr * limbsVal ar) *
              (limbsVal ar * limbsVal ar) ^ e2 =
              limbsVal tr * limbsVal ar ^ exp := by
            rw [hexpodd]
            have haa : limbsVal ar * limbsVal ar = limbsVal ar ^ 2 := by ring
            rw [haa, ← pow_mul]
            ring
          have hc3 : X * R ^ (exp + 1) =
              (X * R ^ (e2 + 1)) * R ^ (e2 + 1) := by
            rw [hexpodd]
            ring
          calc (T1 * A1 ^ e2) * R ^ (e2 + 1)
              = (T1 * R) * (A1 * R) ^ e2 := hchain
            _ ≡ limbsVal tr * limbsVal ar ^ exp [MOD limbsVal m] := by
                rw [← hc2]
                exact hc1
            _ ≡ X * R ^ (exp + 1) [MOD limbsVal m] := hInv
            _ = (X * R ^ (e2 + 1)) * R ^ (e2 + 1) := hc3
        exact ih e2 _ _ X he2pos he2lt ht1 ht2 ht3 ha1 ha2 ha3 hnewInv
      · rw [if_neg hpar]
        set e2 := exp / 2 with he2def
        have hexpeven : exp = 2 * e2 := by omega
        have he2pos : 1 ≤ e2 := by omega
        have he2lt : e2 < 2 ^ fuel := by
          have hq : 2 ^ (fuel + 1) = 2 * 2 ^ fuel := by
            rw [pow_succ]
            ring
          omega
        have hnewInv : limbsVal tr *
            limbsVal (mont_reduction p m m_inv (sqrP p ar)) ^ e2 ≡
            X * (U64LIMIT ^ p.W) ^ (e2 + 1) [MOD limbsVal m] := by
          set R := U64LIMIT ^ p.W with hRdef
          set A1 := limbsVal (mont_reduction p m m_inv (sqrP p ar))
            with hA1def
          refine modeq_cancel_R (limbsVal m) (R ^ e2) _ _
            (coprime_R_pow p _ _ hmodd) ?_
          have hchain : (limbsVal tr * A1 ^ e2) * R ^ e2 =
              limbsVal tr * (A1 * R) ^ e2 := by
            rw [Nat.mul_pow]
            ring
          have hc1 : limbsVal tr * (A1 * R) ^ e2 ≡
              limbsVal tr * (limbsVal ar * limbsVal ar) ^ e2
              [MOD limbsVal m] := (ha4.pow e2).mul_left _
          have hc2 : limbsVal tr * (limbsVal ar * limbsVal ar) ^ e2 =
              limbsVal tr * limbsVal ar ^ exp := by
            rw [hexpeven]
            have haa : limbsVal ar * limbsVal ar = limbsVal ar ^ 2 := by ring
            rw [haa, ← pow_mul]
          have hc3 : X * R ^ (exp + 1) =
              (X * R ^ (e2 + 1)) * R ^ e2 := by
            rw [hexpeven]
            ring
          calc (limbsVal tr * A1 ^ e2) * R ^ e2
              = limbsVal tr * (A1 * R) ^ e2 := hchain
            _ ≡ limbsVal tr * limbsVal ar ^ exp [MOD limbsVal m] := by
                rw [← hc2]
                exact hc1
            _ ≡ X * R ^ (exp + 1) [MOD limbsVal m] := hInv
            _ = (X * R ^ (e2 + 1)) * R ^ e2 := hc3
        exact ih e2 _ _ X he2pos he2lt hltr hktr hvtr ha1 ha2 ha3 hnewInv

theorem val_replicate_ones (k : Nat) :
    limbsVal (List.replicate k (U64LIMIT - 1)) = U64LIMIT ^ k - 1 := by
  induction k with
  | zero => simp [limbsVal_nil]
  | succ k ih =>
    rw [List.replicate_succ, limbsVal_cons, List.length_replicate, ih]
    have h1 : 1 ≤ U64LIMIT ^ k := Nat.one_le_pow _ _ (by simp [U64LIMIT])
    have h2 : U64LIMIT ^ (k + 1) = U64LIMIT ^ k * U64LIMIT := pow_succ _ _
    have h3 : 2 ≤ U64LIMIT := by norm_num [U64LIMIT]
    have h4 : (U64LIMIT - 1) * U64LIMIT ^ k =
        U64LIMIT * U64LIMIT ^ k - U64LIMIT ^ k := Nat.sub_one_mul _ _
    have h5 : U64LIMIT ^ k * U64LIMIT = U64LIMIT * U64LIMIT ^ k := by ring
    have h6 : U64LIMIT ^ k ≤ U64LIMIT * U64LIMIT ^ k :=
      Nat.le_mul_of_pos_left _ (by omega)
    omega

theorem limbsOK_replicate_ones (k : Nat) :
    limbsOK (List.replicate k (U64LIMIT - 1)) := by
  intro x hx
  have := List.eq_of_mem_replicate hx
  simp [this, U64LIMIT]

theorem expmodCore_spec (p : ExpProfile) (hp : ProfileOK p)
    (a m : List Nat) (exp : Nat)
    (hla : a.length = 64) (hlm : m.length = 64)
    (hka : limbsOK a) (hkm : limbsOK m)
    (hmR : limbsVal m < U64LIMIT ^ p.W)
    (hmodd : limbsVal m % 2 = 1) (hm1 : 1 < limbsVal m)
    (ham : limbsVal a ≤ limbsVal m)
    (hexp1 : 1 ≤ exp) (hexp : exp < 2 ^ 32) :
    ∃ r, expmodCore p a exp m = Except.ok r ∧ r.length = 64 ∧ limbsOK r ∧
      limbsVal r = limbsVal a ^ exp % limbsVal m := by
  have hwpos := hp.wpos
  have hwle := hp.wle
  set R := U64LIMIT ^ p.W with hRdef
  have hR64 : (2 : Nat) ^ 64 ≤ R := by
    rw [hRdef]
    calc (2 : Nat) ^ 64 = U64LIMIT ^ 1 := by simp [U64LIMIT]
      _ ≤ U64LIMIT ^ p.W := Nat.pow_le_pow_right (by simp [U64LIMIT]) hwpos
  have hR1 : 1 < R := by omega
  have hRle64 : R ≤ U64LIMIT ^ 64 := by
    rw [hRdef]
    exact Nat.pow_le_pow_right (by simp [U64LIMIT]) hwle
  have hmpos : 0 < limbsVal m := by omega
  -- Newton iteration produces the positive inverse of m mod R
  obtain ⟨ho1, ho2, ho3⟩ := one64_facts
  have hone_struct : one64.take (64 - p.W) =
      List.replicate (64 - p.W) 0 := by
    rw [one64]
    rw [List.take_append_of_le_length (by simp; omega)]
    rw [List.take_replicate]
    congr 1
    omega
  have hbase : limbsVal m * limbsVal one64 ≡ 1 [MOD 2 ^ 1] := by
    rw [ho3, Nat.mul_one]
    show limbsVal m % 2 ^ 1 = 1 % 2 ^ 1
    simpa using hmodd
  obtain ⟨hn1, hn2, hn3, hn4⟩ := newtonLoop_spec p hp m hlm hkm hmR
    p.logBits 1 (le_refl 1) one64 ho1 ho2 hone_struct hbase
  have hminR : min (2 ^ p.logBits * 1) (64 * p.W) = 64 * p.W := by
    rw [Nat.mul_one, ← hp.logeq]
    exact min_self _
  rw [hminR] at hn4
  have hmx : limbsVal m * limbsVal (newtonLoop p m p.logBits one64) ≡ 1
      [MOD R] := by
    rw [hRdef, RPow]
    exact hn4
  have hxR : limbsVal (newtonLoop p m p.logBits one64) < R := by
    have h0 := val_lt_of_take_zero (newtonLoop p m p.logBits one64)
      (64 - p.W) (by rw [hn1]; omega) hn3 hn2
    rw [hn1] at h0
    have h2 : (64 : Nat) - (64 - p.W) = p.W := by omega
    rwa [h2] at h0
  have hxpos : 0 < limbsVal (newtonLoop p m p.logBits one64) := by
    rcases Nat.eq_zero_or_pos (limbsVal (newtonLoop p m p.logBits one64))
      with h | h
    · exfalso
      rw [h, Nat.mul_zero] at hmx
      have h1 : (0 : ℕ) % R = 1 % R := hmx
      rw [Nat.zero_mod, Nat.mod_eq_of_lt hR1] at h1
      omega
    · exact h
  have hpos2 : List.replicate (64 - p.W) 0 ++
      (newtonLoop p m p.logBits one64).drop (64 - p.W) =
      newtonLoop p m p.logBits one64 := by
    conv_rhs => rw [← List.take_append_drop (64 - p.W)
      (newtonLoop p m p.logBits one64)]
    rw [hn3]
  -- unfold the body and split on the division result
  simp only [expmodCore]
  rw [hpos2]
  rcases hdr : div_rem_64 (List.replicate (64 - p.W) 0 ++
      List.replicate p.W (U64LIMIT - 1)) m with e | ⟨q, rm⟩
  · exfalso
    simp only [div_rem_64] at hdr
    have hrmolen : (List.replicate (64 - p.W) 0 ++
        List.replicate p.W (U64LIMIT - 1)).length = 64 := by
      simp
      omega
    have hrmook : limbsOK (List.replicate (64 - p.W) 0 ++
        List.replicate p.W (U64LIMIT - 1)) :=
      limbsOK_replicate_append _ _ (limbsOK_replicate_ones _)
    obtain ⟨hiff, _⟩ := div_rem_spec _ m (by rw [hrmolen, hlm]) hrmook hkm
    cases e
    have h0 : limbsVal m = 0 := hiff.mp hdr
    omega
  · simp only [div_rem_64] at hdr
    have hrmolen : (List.replicate (64 - p.W) 0 ++
        List.replicate p.W (U64LIMIT - 1)).length = 64 := by
      simp
      omega
    have hrmook : limbsOK (List.replicate (64 - p.W) 0 ++
        List.replicate p.W (U64LIMIT - 1)) :=
      limbsOK_replicate_append _ _ (limbsOK_replicate_ones _)
    have hrmoval : limbsVal (List.replicate (64 - p.W) 0 ++
        List.replicate p.W (U64LIMIT - 1)) = R - 1 := by
      rw [val_replicate_append, val_replicate_ones, hRdef]
    obtain ⟨_, hsp⟩ := div_rem_spec _ m (by rw [hrmolen, hlm]) hrmook hkm
    obtain ⟨hql, hqk, hrl, hrk, hdiv, hrlt⟩ := hsp q rm hdr
    rw [hrmoval] at hdiv
    -- rm + 1 never carries
    obtain ⟨hp1, hp2, hp3⟩ := bigAddU64_spec rm 1 hrk
      (by norm_num [U64LIMIT]) (by
        intro h
        rw [h] at hrl
        rw [hrmolen] at hrl
        simp at hrl)
    rw [hrmolen] at hql hrl
    rw [hrl] at hp1 hp3
    have hcar : (bigAddU64 rm 1).2 = false := by
      rcases hc : (bigAddU64 rm 1).2 with _ | _
      · rfl
      · exfalso
        rw [hc] at hp3
        simp only [bitN, if_true, Nat.mul_one] at hp3
        have hU : U64LIMIT ^ 64 ≤ limbsVal (bigAddU64 rm 1).1 +
            U64LIMIT ^ 64 := by omega
        omega
    rw [hcar] at hp3
    simp only [bitN, Bool.false_eq_true, if_false, Nat.mul_zero,
      Nat.add_zero] at hp3
    have hcmp : slice_greater_than m (bigAddU64 rm 1).1 =
        decide (limbsVal (bigAddU64 rm 1).1 < limbsVal m) :=
      slice_greater_than_spec m _ (by rw [hlm, hp1]) hkm hp2
    -- the reduced R mod m
    set rmm := if (bigAddU64 rm 1).2 ||
        !(slice_greater_than m (bigAddU64 rm 1).1)
      then (bigSub (bigAddU64 rm 1).1 m).1 else (bigAddU64 rm 1).1
      with hrmmdef
    have hrmmfacts : rmm.length = 64 ∧ limbsOK rmm ∧
        limbsVal rmm = R % limbsVal m := by
      obtain ⟨hb1, hb2, hb3⟩ := bigSub_spec (bigAddU64 rm 1).1 m
        (by rw [hp1, hlm]) hp2 hkm
      have hbb := bigSub_borrow (bigAddU64 rm 1).1 m
        (by rw [hp1, hlm]) hp2 hkm
      rw [hp1] at hb1 hb3
      have hRdecomp : R = limbsVal q * limbsVal m + (limbsVal rm + 1) := by
        omega
      rcases Nat.lt_or_ge (limbsVal rm + 1) (limbsVal m) with hlt2 | hge2
      · have hcond : rmm = (bigAddU64 rm 1).1 := by
          rw [hrmmdef, hcar, hcmp]
          rw [hp3]
          rw [decide_eq_true hlt2]
          simp
        refine ⟨by rw [hcond]; exact hp1, by rw [hcond]; exact hp2, ?_⟩
        rw [hcond, hp3, hRdecomp, Nat.add_comm (limbsVal q * limbsVal m)]
        rw [Nat.add_mul_mod_self_right, Nat.mod_eq_of_lt hlt2]
      · have heq2 : limbsVal rm + 1 = limbsVal m := by omega
        have hcond : rmm = (bigSub (bigAddU64 rm 1).1 m).1 := by
          rw [hrmmdef, hcar, hcmp]
          rw [hp3]
          rw [decide_eq_false (by omega)]
          simp
        have hbb0 : (bigSub (bigAddU64 rm 1).1 m).2 = false := by
          rw [hbb, hp3]
          exact decide_eq_false (by omega)
        rw [hbb0] at hb3
        simp only [bitN, Bool.false_eq_true, if_false, Nat.mul_zero,
          Nat.add_zero] at hb3
        refine ⟨by rw [hcond]; exact hb1, by rw [hcond]; exact hb2, ?_⟩
        rw [hcond]
        have hz : limbsVal (bigSub (bigAddU64 rm 1).1 m).1 = 0 := by omega
        rw [hz, hRdecomp, heq2]
        have he : limbsVal q * limbsVal m + limbsVal m =
            (limbsVal q + 1) * limbsVal m := by ring
        rw [he, Nat.mul_mod_left]
    obtain ⟨hrmmlen, hrmmok, hrmmval⟩ := hrmmfacts
    have hrmmlt : limbsVal rmm < limbsVal m := by
      rw [hrmmval]
      exact Nat.mod_lt _ (by omega)
    dsimp only
    rw [← hrmmdef]
    set nt := newtonLoop p m p.logBits one64 with hntdef
    -- the negated, truncated inverse
    obtain ⟨hg1, hg2, hg3⟩ := bigNegate_spec nt hn2 (by
      intro h
      rw [h] at hn1
      simp at hn1)
    rw [hn1] at hg1 hg3
    set minv := List.replicate (64 - p.W) 0 ++
      List.drop (64 - p.W) (bigNegate nt) with hminvdef
    have hminvlen : minv.length = 64 := by
      rw [hminvdef, List.length_append, List.length_replicate,
        List.length_drop, hg1]
      omega
    have hminvok : limbsOK minv :=
      limbsOK_replicate_append _ _ (limbsOK_drop _ _ hg2)
    have hnegval : limbsVal (bigNegate nt) =
        U64LIMIT ^ 64 - limbsVal nt := by
      rw [hg3]
      refine Nat.mod_eq_of_lt ?_
      have hU : 0 < U64LIMIT ^ 64 := Nat.pos_pow_of_pos _ (by simp [U64LIMIT])
      omega
    have hminvval : limbsVal minv = R - limbsVal nt := by
      rw [hminvdef, val_replicate_append, limbsVal_drop_mod _ _ hg2, hg1,
        hnegval]
      have he : (64 : Nat) - (64 - p.W) = p.W := by omega
      rw [he, ← hRdef]
      have hsplit : U64LIMIT ^ 64 = R * U64LIMIT ^ (64 - p.W) := by
        rw [hRdef, ← pow_add]
        congr 1
        omega
      set K := U64LIMIT ^ (64 - p.W) with hKdef
      have hK1 : 1 ≤ K := Nat.one_le_pow _ _ (by simp [U64LIMIT])
      rcases Nat.exists_eq_add_of_le hK1 with ⟨k, hk⟩
      have he2 : R * K - limbsVal nt = R * k + (R - limbsVal nt) := by
        have he3 : R * K = R * k + R := by
          rw [hk]
          ring
        omega
      rw [hsplit, he2, Nat.mul_add_mod]
      exact Nat.mod_eq_of_lt (by omega)
    have hminvR : limbsVal minv < R := by
      rw [hminvval]
      omega
    -- m * m_inv = -1 mod R
    have hinveq : limbsVal m * limbsVal minv % R = R - 1 := by
      have hMx : limbsVal m * limbsVal nt % R = 1 := by
        have h0 : limbsVal m * limbsVal nt % R = 1 % R := hmx
        rwa [Nat.mod_eq_of_lt hR1] at h0
      set j := limbsVal m * limbsVal nt / R with hjdef
      have hMxx : limbsVal m * limbsVal nt = R * j + 1 := by
        have h0 := (Nat.div_add_mod (limbsVal m * limbsVal nt) R).symm
        rwa [hMx] at h0
      have hdist : limbsVal m * R =
          limbsVal m * limbsVal nt + limbsVal m * (R - limbsVal nt) := by
        rw [← Nat.mul_add]
        congr 1
        omega
      have hRj : R * j + R * (limbsVal m - j) = R * limbsVal m := by
        rw [← Nat.mul_add]
        congr 1
        have h0 : R * j + 1 ≤ limbsVal m * R := by
          rw [← hMxx]
          have : limbsVal m * limbsVal nt ≤ limbsVal m * R :=
            Nat.mul_le_mul_left _ (by omega)
          omega
        have h1 : R * j < R * limbsVal m := by
          have h2 : limbsVal m * R = R * limbsVal m := by ring
          omega
        have h3 : j < limbsVal m := Nat.lt_of_mul_lt_mul_left h1
        omega
      have hd1 : 1 ≤ limbsVal m - j := by
        by_contra hcon
        have hj0 : limbsVal m - j = 0 := by omega
        rw [hj0, Nat.mul_zero] at hRj
        have h2 : limbsVal m * R = R * limbsVal m := by ring
        have h3 : limbsVal m * (R - limbsVal nt) + R * j + 1 =
            limbsVal m * R := by omega
        omega
      rcases Nat.exists_eq_add_of_le hd1 with ⟨e, hee⟩
      have hMy : limbsVal m * (R - limbsVal nt) = R * e + (R - 1) := by
        have h2 : limbsVal m * R = R * limbsVal m := by ring
        have h3 : R * (limbsVal m - j) = R * e + R := by
          have h4 : limbsVal m - j = e + 1 := by omega
          rw [h4]
          ring
        omega
      rw [hminvval, hMy, Nat.mul_add_mod]
      exact Nat.mod_eq_of_lt (by omega)
    -- 32 doublings
    obtain ⟨hd1, hd2, hd3, hd4⟩ := doublesLoop_spec m hlm hkm hmodd 32 rmm
      hrmmlen hrmmok hrmmlt
    set r2a := doublesLoop m 32 rmm with hr2adef
    have hc0 : limbsVal r2a ≡ 2 ^ 32 * R [MOD limbsVal m] := by
      refine hd4.trans ?_
      rw [hrmmval]
      exact (Nat.mod_modEq R (limbsVal m)).mul_left (2 ^ 32)
    -- the Montgomery squarings
    obtain ⟨he1, he2, he3, he4⟩ := montSqLoop_spec p hp m minv hlm hkm hmR
      hminvlen hminvok hminvR hinveq (p.logBits - 5) r2a hd1 hd2 hd3
    set r2b := montSqLoop p m minv (p.logBits - 5) r2a with hr2bdef
    have hlog5 := hp.log5
    have hKpow : 32 * 2 ^ (p.logBits - 5) = 2 ^ p.logBits := by
      have h1 : p.logBits = 5 + (p.logBits - 5) := by omega
      conv_rhs => rw [h1]
      rw [pow_add]
      norm_num
    have h2K1 : 1 ≤ 2 ^ (p.logBits - 5) := Nat.one_le_pow _ _ (by norm_num)
    have hr2b2 : limbsVal r2b ≡ R ^ 2 [MOD limbsVal m] := by
      refine modeq_cancel_R (limbsVal m) (R ^ (2 ^ (p.logBits - 5) - 1)) _ _
        (by rw [hRdef]; exact coprime_R_pow p _ _ hmodd) ?_
      have hchain1 : limbsVal r2b * R ^ (2 ^ (p.logBits - 5) - 1) ≡
          (2 ^ 32 * R) ^ 2 ^ (p.logBits - 5) [MOD limbsVal m] :=
        he4.trans (hc0.pow _)
      have hchain2 : (2 ^ 32 * R) ^ 2 ^ (p.logBits - 5) =
          R ^ 2 * R ^ (2 ^ (p.logBits - 5) - 1) := by
        rw [Nat.mul_pow, ← Nat.pow_mul, hKpow, ← hp.logeq, ← RPow, ← hRdef]
        have he5 : 2 ^ (p.logBits - 5) = 2 + (2 ^ (p.logBits - 5) - 1) - 1 :=
          by omega
        have he6 : 1 + 2 ^ (p.logBits - 5) = 2 + (2 ^ (p.logBits - 5) - 1) :=
          by omega
        calc R * R ^ 2 ^ (p.logBits - 5) =
            R ^ (1 + 2 ^ (p.logBits - 5)) := by
              rw [pow_add, pow_one]
          _ = R ^ (2 + (2 ^ (p.logBits - 5) - 1)) := by rw [he6]
          _ = R ^ 2 * R ^ (2 ^ (p.logBits - 5) - 1) := by
              rw [pow_add]
      rw [← hchain2]
      exact hchain1
    -- the cleared value is unchanged
    have hr2c : clearHighBits m r2b = r2b :=
      clearHighBits_eq m r2b (by rw [hlm, he1]) hkm he2 he3
    rw [hr2c]
    -- tr and ar in Montgomery form
    obtain ⟨hmua1, hmua2, hmua3⟩ := mulP_spec p hp r2b one64 he1 ho1 he2 ho2
      (by omega) (by rw [ho3]; omega)
    have hmuaB : limbsVal (mulP p r2b one64) < R * limbsVal m := by
      rw [hmua3, ho3, Nat.mul_one]
      have h0 : limbsVal m ≤ R * limbsVal m :=
        Nat.le_mul_of_pos_left _ (by omega)
      omega
    obtain ⟨htr1, htr2, htr3, htr4⟩ := mont_reduction_spec p hp m minv
      (mulP p r2b one64) hlm hkm hmR hminvlen hminvok hminvR hinveq
      hmua1 hmua2 hmuaB
    rw [hmua3, ho3, Nat.mul_one] at htr4
    obtain ⟨hmub1, hmub2, hmub3⟩ := mulP_spec p hp r2b a he1 hla he2 hka
      (by omega) (by omega)
    have hmubB : limbsVal (mulP p r2b a) < R * limbsVal m := by
      rw [hmub3]
      have h0 : limbsVal r2b * limbsVal a ≤ limbsVal r2b * limbsVal m :=
        Nat.mul_le_mul_left _ ham
      have h1 : limbsVal r2b * limbsVal m < R * limbsVal m :=
        Nat.mul_lt_mul_of_lt_of_le (by omega) (le_refl _) (by omega)
      omega
    obtain ⟨har1, har2, har3, har4⟩ := mont_reduction_spec p hp m minv
      (mulP p r2b a) hlm hkm hmR hminvlen hminvok hminvR hinveq
      hmub1 hmub2 hmubB
    rw [hmub3] at har4
    set trr := mont_reduction p m minv (mulP p r2b one64) with htrrdef
    set arr := mont_reduction p m minv (mulP p r2b a) with harrdef
    -- loop invariant at entry
    have hInv : limbsVal trr * limbsVal arr ^ exp ≡
        limbsVal a ^ exp * R ^ (exp + 1) [MOD limbsVal m] := by
      refine modeq_cancel_R (limbsVal m) (R ^ (exp + 1)) _ _
        (by rw [hRdef]; exact coprime_R_pow p _ _ hmodd) ?_
      have hchain1 : (limbsVal trr * limbsVal arr ^ exp) * R ^ (exp + 1) =
          (limbsVal trr * R) * (limbsVal arr * R) ^ exp := by
        rw [Nat.mul_pow]
        ring
      have hchain2 : (limbsVal trr * R) * (limbsVal arr * R) ^ exp ≡
          limbsVal r2b * (limbsVal r2b * limbsVal a) ^ exp
          [MOD limbsVal m] := Nat.ModEq.mul htr4 (har4.pow exp)
      have hchain3 : limbsVal r2b * (limbsVal r2b * limbsVal a) ^ exp ≡
          R ^ 2 * (R ^ 2 * limbsVal a) ^ exp [MOD limbsVal m] :=
        Nat.ModEq.mul hr2b2 ((hr2b2.mul_right _).pow exp)
      have hchain4 : R ^ 2 * (R ^ 2 * limbsVal a) ^ exp =
          (limbsVal a ^ exp * R ^ (exp + 1)) * R ^ (exp + 1) := by
        rw [Nat.mul_pow]
        ring
      calc (limbsVal trr * limbsVal arr ^ exp) * R ^ (exp + 1)
          = (limbsVal trr * R) * (limbsVal arr * R) ^ exp := hchain1
        _ ≡ limbsVal r2b * (limbsVal r2b * limbsVal a) ^ exp
            [MOD limbsVal m] := hchain2
        _ ≡ R ^ 2 * (R ^ 2 * limbsVal a) ^ exp [MOD limbsVal m] := hchain3
        _ = (limbsVal a ^ exp * R ^ (exp + 1)) * R ^ (exp + 1) := hchain4
    obtain ⟨hx1, hx2, hx3, hx4, hx5, hx6, hx7⟩ := expLoop_spec p hp m minv
      hlm hkm hmR hmodd hminvlen hminvok hminvR hinveq 32 exp trr arr
      (limbsVal a ^ exp) hexp1 hexp htr1 htr2 htr3 har1 har2 har3 hInv
    set EL := expLoop p m minv 32 exp trr arr with hELdef
    -- final multiply by tr and the two last reductions
    obtain ⟨hmu31, hmu32, hmu33⟩ := mulP_spec p hp EL.2 EL.1 hx4 hx1 hx5 hx2
      (by omega) (by omega)
    have hmu3B : limbsVal (mulP p EL.2 EL.1) < R * limbsVal m := by
      rw [hmu33]
      have h0 : limbsVal EL.2 * limbsVal EL.1 < limbsVal m * limbsVal m :=
        Nat.mul_lt_mul_of_lt_of_lt hx6 hx3
      have h1 : limbsVal m * limbsVal m ≤ R * limbsVal m :=
        Nat.mul_le_mul_right _ (by omega)
      omega
    obtain ⟨ha31, ha32, ha33, ha34⟩ := mont_reduction_spec p hp m minv
      (mulP p EL.2 EL.1) hlm hkm hmR hminvlen hminvok hminvR hinveq
      hmu31 hmu32 hmu3B
    rw [hmu33] at ha34
    set ar3 := mont_reduction p m minv (mulP p EL.2 EL.1) with har3def
    have har3c : limbsVal ar3 ≡ limbsVal a ^ exp * R [MOD limbsVal m] := by
      refine modeq_cancel_R (limbsVal m) R _ _
        (by
          have h0 := coprime_R_pow p (limbsVal m) 1 hmodd
          rwa [pow_one, ← hRdef] at h0) ?_
      calc limbsVal ar3 * R
          ≡ limbsVal EL.2 * limbsVal EL.1 [MOD limbsVal m] := ha34
        _ = limbsVal EL.1 * limbsVal EL.2 := by ring
        _ ≡ limbsVal a ^ exp * R ^ 2 [MOD limbsVal m] := hx7
        _ = (limbsVal a ^ exp * R) * R := by ring
    -- the final reduction out of Montgomery form
    have hfinlen : (List.replicate 64 0 ++ ar3).length = 128 := by
      rw [List.length_append, List.length_replicate, ha31]
    have hfinok : limbsOK (List.replicate 64 0 ++ ar3) :=
      limbsOK_replicate_append _ _ ha32
    have hfinval : limbsVal (List.replicate 64 0 ++ ar3) = limbsVal ar3 :=
      val_replicate_append _ _
    have hfinB : limbsVal (List.replicate 64 0 ++ ar3) < R * limbsVal m := by
      rw [hfinval]
      have h0 : limbsVal m ≤ R * limbsVal m :=
        Nat.le_mul_of_pos_left _ (by omega)
      omega
    obtain ⟨hf1, hf2, hf3, hf4⟩ := mont_reduction_spec p hp m minv
      (List.replicate 64 0 ++ ar3) hlm hkm hmR hminvlen hminvok hminvR
      hinveq hfinlen hfinok hfinB
    rw [hfinval] at hf4
    have hfcong : limbsVal (mont_reduction p m minv
        (List.replicate 64 0 ++ ar3)) ≡ limbsVal a ^ exp
        [MOD limbsVal m] := by
      refine modeq_cancel_R (limbsVal m) R _ _
        (by
          have h0 := coprime_R_pow p (limbsVal m) 1 hmodd
          rwa [pow_one, ← hRdef] at h0) ?_
      exact hf4.trans har3c
    refine ⟨_, rfl, hf1, hf2, ?_⟩
    have h0 : limbsVal (mont_reduction p m minv
        (List.replicate 64 0 ++ ar3)) % limbsVal m =
        limbsVal a ^ exp % limbsVal m := hfcong
    rw [← h0]
    exact (Nat.mod_eq_of_lt hf3).symm

theorem drop63_singleton (l : List Nat) (h : l.length = 64) :
    l.drop 63 = [l.getD 63 0] := by
  have h1 : (63 : Nat) < l.length := by omega
  rw [List.drop_eq_getElem_cons h1]
  have h2 : l.drop 64 = [] := by
    rw [List.drop_eq_nil_iff]
    omega
  rw [h2]
  congr 1
  rw [List.getD_eq_getElem l 0 h1]

theorem val_eq_one_iff (m : List Nat) (hlm : m.length = 64)
    (hkm : limbsOK m) :
    limbsVal m = 1 ↔
      (m.take 63 = List.replicate 63 0 ∧ m.getD 63 0 = 1) := by
  have htd := limbsVal_take_drop m 63
  rw [drop63_singleton m hlm] at htd
  have hval1 : limbsVal [m.getD 63 0] = m.getD 63 0 := by
    rw [limbsVal_cons, limbsVal_nil]
    simp
  rw [hval1] at htd
  simp only [List.length_cons, List.length_nil] at htd
  constructor
  · intro h1
    have htake : m.take 63 = List.replicate 63 0 := by
      refine take_zero_of_val_lt m 63 hkm (by omega) ?_
      rw [hlm, h1]
      norm_num [U64LIMIT]
    refine ⟨htake, ?_⟩
    rw [htake, limbsVal_replicate_zero] at htd
    have htd2 : limbsVal m = m.getD 63 0 := by simpa using htd
    rw [← htd2]
    exact h1
  · intro ⟨h1, h2⟩
    rw [h1, limbsVal_replicate_zero, h2] at htd
    simpa using htd

/-- C1: for every 64-limb big-endian `a` and modulus `m` with `m` nonzero
and odd, `a <= m`, and every 32-bit exponent, `expmod_odd_mod a exp m`
returns `Ok` of the 64-limb big-endian value `a ^ exp mod m` — in
particular `0` when `m = 1` and `1` when `exp = 0` — regardless of which
of the three width profiles the zero-limb prefix of `m` selects. -/
theorem c1_expmod_odd_mod_correct (a m : List Nat) (exp : Nat)
    (hla : a.length = 64) (hlm : m.length = 64)
    (hka : limbsOK a) (hkm : limbsOK m) (hexp : exp < 2 ^ 32)
    (hm0 : limbsVal m ≠ 0) (hmodd : limbsVal m % 2 = 1)
    (ham : limbsVal a ≤ limbsVal m) :
    ∃ r, expmod_odd_mod a exp m = Except.ok r ∧ r.length = 64 ∧
      limbsOK r ∧ limbsVal r = limbsVal a ^ exp % limbsVal m := by
  have hmz : ¬ (m = List.replicate 64 0) := by
    intro h
    apply hm0
    rw [h]
    exact limbsVal_replicate_zero 64
  have hmne : m ≠ [] := by
    intro h
    rw [h] at hlm
    simp at hlm
  have hparity : limbsVal m % 2 = m.getD 63 0 % 2 := by
    have h0 := limbsVal_parity m hmne
    rw [hlm] at h0
    simpa using h0
  have hodd_cond : ¬ (m.getD 63 0 &&& 1 = 0) := by
    rw [Nat.and_one_is_mod]
    omega
  have hgt_cond : slice_greater_than a m = false := by
    rw [slice_greater_than_spec a m (by rw [hla, hlm]) hka hkm]
    exact decide_eq_false (by omega)
  rw [expmod_odd_mod, if_neg hmz, if_neg hodd_cond, hgt_cond]
  simp only [Bool.false_eq_true, if_false]
  by_cases hm1 : limbsVal m = 1
  · rw [if_pos ((val_eq_one_iff m hlm hkm).mp hm1)]
    refine ⟨_, rfl, by simp, limbsOK_replicate_zero _, ?_⟩
    rw [limbsVal_replicate_zero, hm1, Nat.mod_one]
  · have hm2 : 1 < limbsVal m := by omega
    rw [if_neg (fun hc => hm1 ((val_eq_one_iff m hlm hkm).mpr hc))]
    by_cases hexp0 : exp = 0
    · rw [if_pos hexp0]
      obtain ⟨ho1, ho2, ho3⟩ := one64_facts
      refine ⟨one64, rfl, ho1, ho2, ?_⟩
      rw [ho3, hexp0, pow_zero]
      exact (Nat.mod_eq_of_lt hm2).symm
    · rw [if_neg hexp0]
      have hexp1 : 1 ≤ exp := by omega
      rw [expmodProfile]
      by_cases h32 : m.take 32 = List.replicate 32 0
      · by_cases h48 : m.take 48 = List.replicate 48 0
        · rw [if_pos h32, if_pos h48]
          refine expmodCore_spec profile16 profile16_ok a m exp hla hlm hka
            hkm ?_ hmodd hm2 ham hexp1 hexp
          have h0 := val_lt_of_take_zero m 48 (by rw [hlm]; omega) h48 hkm
          rw [hlm] at h0
          exact h0
        · rw [if_pos h32, if_neg h48]
          refine expmodCore_spec profile32 profile32_ok a m exp hla hlm hka
            hkm ?_ hmodd hm2 ham hexp1 hexp
          have h0 := val_lt_of_take_zero m 32 (by rw [hlm]; omega) h32 hkm
          rw [hlm] at h0
          exact h0
      · rw [if_neg h32]
        refine expmodCore_spec profile64 profile64_ok a m exp hla hlm hka
          hkm ?_ hmodd hm2 ham hexp1 hexp
        have h0 := limbsVal_lt m hkm
        rw [hlm] at h0
        exact h0

/-- Witness for C1 at the concrete inputs a = 2, exp = 3, m = 5. -/
theorem c1_expmod_odd_mod_correct_witness :
    ∃ r, expmod_odd_mod (List.replicate 63 0 ++ [2]) 3
        (List.replicate 63 0 ++ [5]) = Except.ok r ∧ r.length = 64 ∧
      limbsOK r ∧ limbsVal r =
        limbsVal (List.replicate 63 0 ++ [2]) ^ 3 %
          limbsVal (List.replicate 63 0 ++ [5]) :=
  c1_expmod_odd_mod_correct (List.replicate 63 0 ++ [2])
    (List.replicate 63 0 ++ [5]) 3 (by decide) (by decide) (by decide)
    (by decide) (by decide) (by decide) (by decide) (by decide)
